import Mathlib

/-!
# protoc-gen-ts: a shallow embedding of `plugin.go`

The generator is a pure function from a `CodeGeneratorRequest` to a
`CodeGeneratorResponse`; a Go `panic` is modelled as the error branch of
`Except`.  Go strings are modelled as lists of characters, Go's `int32` values
as `Int`.  The Go standard library functions which the plugin calls
(`strings`, `path/filepath`, `fmt`) are modelled first, then the descriptor
types, then the functions of `plugin.go` in source order.
-/

set_option autoImplicit false

namespace ProtocGenTs

/-- Go `string`, as the list of its characters. -/
abbrev Str := List Char

/-! ## Go `strings` -/

/-- Go `strings.HasPrefix(s, pre)`. -/
def HasPrefix (s pre : Str) : Bool := pre.isPrefixOf s

/-- Go `strings.HasSuffix(s, suf)`. -/
def HasSuffix (s suf : Str) : Bool := suf.reverse.isPrefixOf s.reverse

/-- Go `strings.TrimPrefix(s, pre)`. -/
def TrimPrefix (s pre : Str) : Str := if HasPrefix s pre then s.drop pre.length else s

/-- Go `strings.TrimSuffix(s, suf)`. -/
def TrimSuffix (s suf : Str) : Str :=
  if HasSuffix s suf then s.take (s.length - suf.length) else s

/-- Go `strings.Contains(s, substr)`. -/
def Contains : Str → Str → Bool
  | [], substr => substr.isEmpty
  | c :: cs, substr => substr.isPrefixOf (c :: cs) || Contains cs substr

/-- Go `strings.Split(s, sep)` for a separator of one character: the pieces of
`s` between the occurrences of `sep`; always at least one piece (`Split "" ","`
is `[""]`). -/
def Split : Str → Char → List Str
  | [], _ => [[]]
  | c :: cs, sep =>
    if c = sep then [] :: Split cs sep
    else
      match Split cs sep with
      | [] => [[c]]
      | p :: ps => (c :: p) :: ps

/-- Go `strings.Join(elems, sep)`. -/
def Join : List Str → Str → Str
  | [], _ => []
  | [e], _ => e
  | e :: es, sep => e ++ sep ++ Join es sep

/-- Go `strings.Repeat(s, count)`. -/
def Repeat (s : Str) : Nat → Str
  | 0 => []
  | n + 1 => s ++ Repeat s n

/-- The scan of `strings.Replace` for a non-empty `old`: `skip` characters of a
match are still to be dropped, `n` replacements are still allowed. -/
def replaceGo (old new : Str) : Nat → Nat → Str → Str
  | _, _, [] => []
  | skip + 1, n, _ :: cs => replaceGo old new skip n cs
  | 0, 0, c :: cs => c :: replaceGo old new 0 0 cs
  | 0, n + 1, c :: cs =>
    if old.isPrefixOf (c :: cs) then new ++ replaceGo old new (old.length - 1) n cs
    else c :: replaceGo old new 0 (n + 1) cs

/-- Go `strings.Replace(s, old, new, n)`: the first `n` non-overlapping
occurrences of `old` replaced by `new`, all of them when `n < 0`.  The plugin
only calls it with a non-empty `old`; an empty `old` leaves `s` as it is here. -/
def Replace (s old new : Str) (n : Int) : Str :=
  if old = new ∨ n = 0 ∨ old = [] then s
  else replaceGo old new 0 (if n < 0 then s.length else n.toNat) s

/-! ## Go `fmt` -/

/-- Decimal text of an `int32`, as printed by `%d`. -/
def itoa (n : Int) : Str :=
  match n with
  | Int.ofNat m => (Nat.repr m).toList
  | Int.negSucc m => '-' :: (Nat.repr (m + 1)).toList

/-- An operand of `fmt.Sprintf`: the plugin formats strings and integers. -/
inductive Arg where
  | s (v : Str)
  | d (v : Int)

/-- The text of an operand under `%s`, `%d` and `%v`. -/
def Arg.text : Arg → Str
  | .s v => v
  | .d v => itoa v

/-- Go `fmt.Sprintf(format, a...)` for the verbs the plugin uses (`%s`, `%d`,
`%v`, `%+v`, and `%%`): each verb prints the next operand.  A verb without an
operand prints `%!c(MISSING)` as Go does.  Flags, widths and operands left over
do not occur in the plugin's calls. -/
def Sprintf : Str → List Arg → Str
  | [], _ => []
  | '%' :: '%' :: rest, as => '%' :: Sprintf rest as
  | '%' :: '+' :: 'v' :: rest, a :: as => a.text ++ Sprintf rest as
  | '%' :: _ :: rest, a :: as => a.text ++ Sprintf rest as
  | '%' :: c :: rest, [] => "%!".toList ++ c :: "(MISSING)".toList ++ Sprintf rest []
  | ['%'], _ => "%!(NOVERB)".toList
  | c :: rest, as => c :: Sprintf rest as

/-! ## Go `path/filepath` (Unix) -/

/-- The scan of `filepath.Ext` from the end of the path: `acc` holds the
characters already passed. -/
def extGo : Str → Str → Str
  | [], _ => []
  | c :: cs, acc =>
    if c = '/' then [] else if c = '.' then '.' :: acc else extGo cs (c :: acc)

/-- Go `filepath.Ext(path)`: the suffix beginning at the final dot in the
final element of `path`; empty if there is no dot. -/
def Ext (path : Str) : Str := extGo path.reverse []

/-- One step of `filepath.Clean` on the elements kept so far (innermost first):
an empty element and `.` are dropped, `..` removes the element before it, or is
kept when there is none to remove and the path is not rooted. -/
def cleanStep (rooted : Bool) (out : List Str) (e : Str) : List Str :=
  if e = [] ∨ e = ['.'] then out
  else if e = ['.', '.'] then
    match out with
    | [] => if rooted then [] else [e]
    | top :: below => if top = ['.', '.'] then e :: top :: below else below
  else e :: out

/-- Go `filepath.Clean(path)`: the shortest path name equivalent to `path` by
purely lexical processing. -/
def Clean (path : Str) : Str :=
  let rooted := HasPrefix path ['/']
  let out := ((Split path '/').foldl (cleanStep rooted) []).reverse
  if rooted then '/' :: Join out ['/']
  else if out = [] then ['.'] else Join out ['/']

/-- The part of a path up to and including its last separator (`path[:i+1]` in
`filepath.Dir`), on the reversed path. -/
def dirGo : Str → Str
  | [] => []
  | c :: cs => if c = '/' then (c :: cs).reverse else dirGo cs

/-- Go `filepath.Dir(path)`: all but the last element of `path`, cleaned. -/
def Dir (path : Str) : Str := Clean (dirGo path.reverse)

/-- The elements of a cleaned path as the loop of `filepath.Rel` walks them. -/
def relElems (p : Str) : List Str :=
  if p = [] then [] else if p = ['/'] then [[]] else Split p '/'

/-- The loop of `filepath.Rel` over the elements of base and target: common
leading elements are dropped; `none` when the first differing element of the
base is `..`. -/
def relGo : List Str → List Str → Option (List Str)
  | [], ts => some ts
  | _ :: bs, [] => some (List.replicate (bs.length + 1) ['.', '.'])
  | b :: bs, t :: ts =>
    if b = t then relGo bs ts
    else if b = ['.', '.'] then none
    else some (List.replicate (bs.length + 1) ['.', '.'] ++ t :: ts)

/-- Go `filepath.Rel(basepath, targpath)`: a relative path that is lexically
equivalent to `targpath` when joined to `basepath`; `none` stands for the
error return. -/
def Rel (basepath targpath : Str) : Option Str :=
  let base := Clean basepath
  let targ := Clean targpath
  if targ = base then some ['.']
  else
    let base := if base = ['.'] then [] else base
    if HasPrefix base ['/'] ≠ HasPrefix targ ['/'] then none
    else (relGo (relElems base) (relElems targ)).map fun es => Join es ['/']

/-- Go `filepath.Join(a, b)` for two non-empty elements. -/
def filepathJoin (a b : Str) : Str := Clean (a ++ '/' :: b)

/-! ## Descriptors (`descriptor.proto`, `plugin.proto`)

Optional string, bool and number fields are read through their `Get...`
accessors only, which turn an unset field into the zero value; they are stored
as plain values.  `Type`, `Label` and `OneofIndex` are also dereferenced or
tested against `nil`, so they keep their pointer nature as `Option`. -/

/-- The Go type `desc.FieldDescriptorProto_Type`, an `int32`. -/
abbrev FieldDescriptorProto_Type := Int

@[reducible] def TYPE_DOUBLE : FieldDescriptorProto_Type := 1
@[reducible] def TYPE_FLOAT : FieldDescriptorProto_Type := 2
@[reducible] def TYPE_INT64 : FieldDescriptorProto_Type := 3
@[reducible] def TYPE_UINT64 : FieldDescriptorProto_Type := 4
@[reducible] def TYPE_INT32 : FieldDescriptorProto_Type := 5
@[reducible] def TYPE_FIXED64 : FieldDescriptorProto_Type := 6
@[reducible] def TYPE_FIXED32 : FieldDescriptorProto_Type := 7
@[reducible] def TYPE_BOOL : FieldDescriptorProto_Type := 8
@[reducible] def TYPE_STRING : FieldDescriptorProto_Type := 9
@[reducible] def TYPE_GROUP : FieldDescriptorProto_Type := 10
@[reducible] def TYPE_MESSAGE : FieldDescriptorProto_Type := 11
@[reducible] def TYPE_BYTES : FieldDescriptorProto_Type := 12
@[reducible] def TYPE_UINT32 : FieldDescriptorProto_Type := 13
@[reducible] def TYPE_ENUM : FieldDescriptorProto_Type := 14
@[reducible] def TYPE_SFIXED32 : FieldDescriptorProto_Type := 15
@[reducible] def TYPE_SFIXED64 : FieldDescriptorProto_Type := 16
@[reducible] def TYPE_SINT32 : FieldDescriptorProto_Type := 17
@[reducible] def TYPE_SINT64 : FieldDescriptorProto_Type := 18

/-- The Go type `desc.FieldDescriptorProto_Label`, an `int32`. -/
abbrev FieldDescriptorProto_Label := Int

@[reducible] def LABEL_OPTIONAL : FieldDescriptorProto_Label := 1
@[reducible] def LABEL_REQUIRED : FieldDescriptorProto_Label := 2
@[reducible] def LABEL_REPEATED : FieldDescriptorProto_Label := 3

/-- The names of `FieldDescriptorProto_Type_name`. -/
def typeNames : List (FieldDescriptorProto_Type × Str) :=
  [(1, "TYPE_DOUBLE".toList), (2, "TYPE_FLOAT".toList), (3, "TYPE_INT64".toList),
   (4, "TYPE_UINT64".toList), (5, "TYPE_INT32".toList), (6, "TYPE_FIXED64".toList),
   (7, "TYPE_FIXED32".toList), (8, "TYPE_BOOL".toList), (9, "TYPE_STRING".toList),
   (10, "TYPE_GROUP".toList), (11, "TYPE_MESSAGE".toList), (12, "TYPE_BYTES".toList),
   (13, "TYPE_UINT32".toList), (14, "TYPE_ENUM".toList), (15, "TYPE_SFIXED32".toList),
   (16, "TYPE_SFIXED64".toList), (17, "TYPE_SINT32".toList), (18, "TYPE_SINT64".toList)]

/-- The method `String()` of `FieldDescriptorProto_Type`, which `%v` prints:
the name of the kind, or the decimal number of a value without a name. -/
def typeString (t : FieldDescriptorProto_Type) : Str :=
  match typeNames.lookup t with
  | some n => n
  | none => itoa t

structure EnumValueDescriptorProto where
  name : Str
  number : Int

structure EnumDescriptorProto where
  name : Str
  value : List EnumValueDescriptorProto

structure FieldDescriptorProto where
  name : Str
  number : Int
  label : Option FieldDescriptorProto_Label
  type : Option FieldDescriptorProto_Type
  typeName : Str
  oneofIndex : Option Int

/-- Go `fd.GetType()`: `TYPE_DOUBLE` when the field is unset. -/
def FieldDescriptorProto.GetType (fd : FieldDescriptorProto) : FieldDescriptorProto_Type :=
  fd.type.getD TYPE_DOUBLE

/-- Go `fd.GetOneofIndex()`: `0` when the field is unset. -/
def FieldDescriptorProto.GetOneofIndex (fd : FieldDescriptorProto) : Int :=
  fd.oneofIndex.getD 0

structure OneofDescriptorProto where
  name : Str

/-- A message descriptor; `mapEntry` is `dp.GetOptions().GetMapEntry()`. -/
structure DescriptorProto where
  name : Str
  field : List FieldDescriptorProto
  nestedType : List DescriptorProto
  enumType : List EnumDescriptorProto
  oneofDecl : List OneofDescriptorProto
  mapEntry : Bool

structure MethodDescriptorProto where
  name : Str
  inputType : Str
  outputType : Str
  clientStreaming : Bool
  serverStreaming : Bool

structure ServiceDescriptorProto where
  name : Str
  method : List MethodDescriptorProto

structure FileDescriptorProto where
  name : Str
  package : Str
  messageType : List DescriptorProto
  enumType : List EnumDescriptorProto
  service : List ServiceDescriptorProto
  /-- The syntax marker, `fdp.GetSyntax()`. -/
  syn : Str

structure CodeGeneratorRequest where
  fileToGenerate : List Str
  parameter : Str
  protoFile : List FileDescriptorProto

structure CodeGeneratorResponse_File where
  name : Str
  content : Str
deriving DecidableEq

structure CodeGeneratorResponse where
  file : List CodeGeneratorResponse_File
deriving DecidableEq

/-! ## Panics -/

/-- The panics raised below `writeFile`: by the field model, the emitters and
the namespace. -/
inductive CodegenPanic where
  /-- Raised by `tsType` and `defaultValue`: unexpected proto type. -/
  | unexpectedType (t : FieldDescriptorProto_Type)
  /-- Raised by `writeDecoder`: unknown reader. -/
  | unknownReader (t : FieldDescriptorProto_Type)
  /-- Raised by `primitiveWriter`: unknown primitive writer. -/
  | unknownWriter (t : FieldDescriptorProto_Type)
  /-- The namespace cannot resolve a fully-qualified name. -/
  | unresolved (name : Str)
  /-- Go runtime: nil pointer dereference. -/
  | nilDeref
  /-- Go runtime: index out of range. -/
  | indexOutOfRange
  /-- Go runtime: failed type assertion. -/
  | typeAssertion
deriving DecidableEq

/-- The panics of a run of `gen`. -/
inductive Panic where
  | unknownOption (param : Str)
  | unsupportedSyntax (syn name : Str)
  | noNamespace (pkg : Str)
  | codegen (e : CodegenPanic)
deriving DecidableEq

/-- Equality of results is decidable. -/
instance decEqExcept {ε α : Type} [DecidableEq ε] [DecidableEq α] : DecidableEq (Except ε α)
  | .ok a, .ok b =>
    if h : a = b then isTrue (by rw [h]) else isFalse (fun h2 => h (Except.ok.inj h2))
  | .error a, .error b =>
    if h : a = b then isTrue (by rw [h]) else isFalse (fun h2 => h (Except.error.inj h2))
  | .ok _, .error _ => isFalse (fun h => Except.noConfusion h)
  | .error _, .ok _ => isFalse (fun h => Except.noConfusion h)

/-- The message of a panic raised below `writeFile`. -/
def CodegenPanic.message : CodegenPanic → Str
  | .unexpectedType t =>
    Sprintf "unexpected proto type while converting to php type: %v".toList [.s (typeString t)]
  | .unknownReader t => Sprintf "unknown reader for fd type: %+v".toList [.s (typeString t)]
  | .unknownWriter t =>
    Sprintf "unknown primitive writer for fd type: %+v".toList [.s (typeString t)]
  | .unresolved name => "unable to find fully qualified name: ".toList ++ name
  | .nilDeref => "runtime error: invalid memory address or nil pointer dereference".toList
  | .indexOutOfRange => "runtime error: index out of range".toList
  | .typeAssertion => "interface conversion: interface \x7b\x7d is not *descriptor.DescriptorProto".toList

/-- The message of a panic, as the source builds it. -/
def Panic.message : Panic → Str
  | .unknownOption param => "unknown compiler option: ".toList ++ param
  | .unsupportedSyntax syn name =>
    Sprintf "unsupported syntax: %s in file %s".toList [.s syn, .s name]
  | .noNamespace pkg => "unable to find namespace for: ".toList ++ pkg
  | .codegen e => e.message

/-! ## Namespace

`namespace.go` is not among the sources; the resolver is modelled from
section 4.1 of the specification. -/

/-- The dynamic value (`interface{}`) a name resolves to: a message or an enum
descriptor. -/
inductive TypeDescriptor where
  | message (dp : DescriptorProto)
  | enum (ed : EnumDescriptorProto)

/-- Modelled from the spec: one entry of a node's child-name to descriptor map
(`namespace.go` is missing), with the scope it lives in and its owning file. -/
structure NsName where
  scope : Str
  name : Str
  descriptor : TypeDescriptor
  file : FileDescriptorProto

/-- Modelled from the spec: the namespace tree of `namespace.go` (missing),
"one per package/message scope; fully-qualified name, child-name→node map,
child-name→descriptor map, owning file", kept flat: the fully-qualified names
of the registered scopes (the root is the empty name) and the registered
descriptors.  A node is the tree itself, since every lookup the plugin makes
on a node is fully qualified. -/
structure Namespace where
  scopes : List Str
  names : List NsName

/-- Modelled from the spec: `NewEmptyNamespace()` (missing), the tree with the
root scope only. -/
def NewEmptyNamespace : Namespace := { scopes := [[]], names := [] }

/-- The components of a dotted path; the leading dot of a fully-qualified name
gives no component. -/
def dotted (path : Str) : List Str := (Split path '.').filter fun c => c ≠ []

/-- The fully-qualified name of a scope: `.a.b` for the components `a`, `b`. -/
def scopeName (comps : List Str) : Str := comps.foldr (fun c acc => '.' :: c ++ acc) []

/-- Registers a scope. -/
def Namespace.addScope (ns : Namespace) (scope : Str) : Namespace :=
  if scope ∈ ns.scopes then ns else { ns with scopes := ns.scopes ++ [scope] }

/-- Registers a descriptor under a name of a scope; a later registration of
the same name hides an earlier one. -/
def Namespace.addName (ns : Namespace) (scope name : Str) (d : TypeDescriptor)
    (file : FileDescriptorProto) : Namespace :=
  { ns with names := { scope := scope, name := name, descriptor := d, file := file } :: ns.names }

/-- Modelled from the spec: the part of `Parse` (missing) for one message, "every
(possibly nested) message/enum it declares": the message is a name of its
scope and a scope of its own for its enums and nested messages. -/
def Namespace.parseDescriptor (file : FileDescriptorProto) (scope : Str) (ns : Namespace) :
    DescriptorProto → Namespace
  | ⟨name, field, nestedType, enumType, oneofDecl, mapEntry⟩ =>
    let dp : DescriptorProto := ⟨name, field, nestedType, enumType, oneofDecl, mapEntry⟩
    let inner := scope ++ '.' :: name
    let ns := (ns.addName scope name (.message dp) file).addScope inner
    let ns := enumType.foldl (fun n ed => n.addName inner ed.name (.enum ed) file) ns
    parseDescriptors file inner ns nestedType
where
  /-- The messages of a list, in order. -/
  parseDescriptors (file : FileDescriptorProto) (scope : Str) (ns : Namespace) :
      List DescriptorProto → Namespace
    | [] => ns
    | dp :: dps => parseDescriptors file scope (Namespace.parseDescriptor file scope ns dp) dps

/-- Modelled from the spec: `Parse(file)` (missing) "registers a file's package
path and every (possibly nested) message/enum it declares into the shared
tree; repeated calls accumulate". -/
def Namespace.Parse (ns : Namespace) (fdp : FileDescriptorProto) : Namespace :=
  let comps := dotted fdp.package
  let ns := (List.range (comps.length + 1)).foldl
    (fun n k => n.addScope (scopeName (comps.take k))) ns
  let pkg := scopeName comps
  let ns := fdp.enumType.foldl (fun n ed => n.addName pkg ed.name (.enum ed) fdp) ns
  Namespace.parseDescriptor.parseDescriptors fdp pkg ns fdp.messageType

/-- Modelled from the spec: `FindNamespace(path)` (missing) "returns a scope
node or fails if unregistered"; `none` is the `nil` node. -/
def Namespace.FindFullyQualifiedNamespace (ns : Namespace) (path : Str) : Option Namespace :=
  if scopeName (dotted path) ∈ ns.scopes then some ns else none

/-- Modelled from the spec: `FindName(dottedType)` (missing) "splits input into
(longest-resolving-prefix scope, trailing simple name) and returns (scope
path, simple name, descriptor, owning file)"; "unresolvable references are
fatal". -/
def Namespace.FindFullyQualifiedName (ns : Namespace) (fqn : Str) :
    Except CodegenPanic (Str × Str × TypeDescriptor × FileDescriptorProto) :=
  let comps := dotted fqn
  match (List.range comps.length).reverse.find? fun k => scopeName (comps.take k) ∈ ns.scopes with
  | none => .error (.unresolved fqn)
  | some k =>
    let scope := scopeName (comps.take k)
    let name := Join (comps.drop k) ['.']
    match ns.names.find? fun e => e.scope = scope ∧ e.name = name with
    | none => .error (.unresolved fqn)
    | some e => .ok (scope, name, e.descriptor, e.file)

/-! ## Module resolver -/

/-- Go `tsFileName(fdp)`: the name of the file without its extension, with
`_pb` appended. -/
def tsFileName (fdp : FileDescriptorProto) : Str :=
  let fext := Ext fdp.name
  let fname := TrimSuffix fdp.name fext
  fname ++ "_pb".toList

/-- Go `modRef`. -/
structure modRef where
  /-- The field `alias` of the source. -/
  alias_ : Str
  path : Str
deriving DecidableEq, Inhabited

/-- Go `moduleResolver`; the map `references` is kept as the list of its
entries, one per key. -/
structure moduleResolver where
  currentFile : FileDescriptorProto
  references : List (Str × modRef)

/-- Go `(m *moduleResolver) ToRelativeModule(fdp)`: the module reference and
the resolver after the call. -/
def moduleResolver.ToRelativeModule (m : moduleResolver) (fdp : FileDescriptorProto) :
    Option modRef × moduleResolver :=
  if fdp.name = m.currentFile.name then (none, m)
  else
    match m.references.lookup fdp.name with
    | some mod => (some mod, m)
    | none =>
      let cwd := Dir m.currentFile.name
      let path := tsFileName fdp
      let path := (Rel cwd path).getD []
      let mod : modRef :=
        { alias_ := "___".toList ++ Replace path "/".toList "_".toList (-1),
          path := "./".toList ++ path }
      (some mod, { m with references := m.references ++ [(fdp.name, mod)] })

/-! ## Field model -/

/-- The part of Go's `oneof` that a member field reaches through its `oneof`
pointer (the pointer back to the group would make the value cyclic). -/
structure oneofRef where
  odp : OneofDescriptorProto
  fqNamespace : Str
  typeName : Str

/-- Go `field`.  The pointer `mr` to the module resolver of the file is not
stored: the resolver is passed to, and returned by, every function that reaches
it through the field. -/
structure field where
  fd : FieldDescriptorProto
  typeTsName : Str
  typeDescriptor : Option TypeDescriptor
  typeNs : Option Namespace
  typeEnumDefault : Str
  isMap : Bool
  oneof : Option oneofRef
  typeFqProtoName : Str

/-- Go `oneof`. -/
structure oneof where
  odp : OneofDescriptorProto
  fields : List field
  fqNamespace : Str
  typeName : Str

/-- The name of the first value of an enum with number 0 (the loop of
`newField` over `ed.Value`), empty when there is none. -/
def enumDefault (ed : EnumDescriptorProto) : Str :=
  match ed.value.find? fun v => v.number = 0 with
  | some v => v.name
  | none => []

/-- Go `newField(fd, ns, mr)`. -/
def newField (fd : FieldDescriptorProto) (ns : Option Namespace) (mr : moduleResolver) :
    Except CodegenPanic (field × moduleResolver) :=
  let f : field :=
    { fd := fd, typeTsName := [], typeDescriptor := none, typeNs := none,
      typeEnumDefault := [], isMap := false, oneof := none, typeFqProtoName := [] }
  if fd.typeName ≠ [] then
    match ns with
    | none => .error .nilDeref
    | some ns =>
      match ns.FindFullyQualifiedName fd.typeName with
      | .error e => .error e
      | .ok (typeNs, typeName, i, typeFdp) =>
        let r := mr.ToRelativeModule typeFdp
        let typeTsName :=
          match r.1 with
          | some mod => mod.alias_ ++ ".".toList ++ typeName
          | none => typeName
        .ok ({ f with
                typeFqProtoName := typeNs ++ ".".toList ++ typeName
                typeTsName := typeTsName
                typeDescriptor := some i
                typeNs := ns.FindFullyQualifiedNamespace typeNs
                isMap := match i with
                  | .message dp => dp.mapEntry
                  | .enum _ => false
                typeEnumDefault := match i with
                  | .message _ => []
                  | .enum ed => enumDefault ed }, r.2)
  else .ok (f, mr)

/-- Go `f.isOneofMember()`. -/
def field.isOneofMember (f : field) : Bool := f.fd.oneofIndex.isSome

/-- Go `f.varName()`. -/
def field.varName (f : field) : Str := f.fd.name

/-- Go `f.mapFields()`: the key and value fields of a map entry. -/
def field.mapFields (f : field) (mr : moduleResolver) :
    Except CodegenPanic (field × field × moduleResolver) :=
  match f.typeDescriptor with
  | some (.message dp) =>
    match dp.field with
    | [] => .error .indexOutOfRange
    | k :: rest =>
      match newField k f.typeNs mr with
      | .error e => .error e
      | .ok (keyField, mr) =>
        match rest with
        | [] => .error .indexOutOfRange
        | v :: _ =>
          match newField v f.typeNs mr with
          | .error e => .error e
          | .ok (valueField, mr) => .ok (keyField, valueField, mr)
  | _ => .error .typeAssertion

/-- Go `f.tsType()`. -/
def field.tsType (f : field) : Except CodegenPanic Str :=
  match f.fd.type with
  | none => .error .nilDeref
  | some t =>
    if t = TYPE_STRING then .ok "string".toList
    else if t = TYPE_BYTES then .ok "Uint8Array".toList
    else if t = TYPE_INT64 ∨ t = TYPE_UINT64 ∨ t = TYPE_SINT64 ∨ t = TYPE_FIXED64
        ∨ t = TYPE_SFIXED64 then .ok "__long".toList
    else if t = TYPE_INT32 ∨ t = TYPE_UINT32 ∨ t = TYPE_SINT32 ∨ t = TYPE_FIXED32
        ∨ t = TYPE_SFIXED32 then .ok "number".toList
    else if t = TYPE_FLOAT ∨ t = TYPE_DOUBLE then .ok "number".toList
    else if t = TYPE_BOOL then .ok "boolean".toList
    else if t = TYPE_MESSAGE ∨ t = TYPE_GROUP then .ok f.typeTsName
    else if t = TYPE_ENUM then .ok f.typeTsName
    else .error (.unexpectedType t)

/-- Go `f.isMessage()`. -/
def field.isMessage (f : field) : Bool :=
  f.fd.GetType = TYPE_MESSAGE || f.fd.GetType = TYPE_GROUP

/-- Go `f.isRepeated()`; it dereferences `Label`. -/
def field.isRepeated (f : field) : Except CodegenPanic Bool :=
  match f.fd.label with
  | none => .error .nilDeref
  | some l => .ok (l = LABEL_REPEATED)

/-- Go `isPackable`. -/
def isPackable (t : FieldDescriptorProto_Type) : Bool :=
  t = TYPE_INT64 || t = TYPE_INT32 || t = TYPE_UINT64 || t = TYPE_UINT32 || t = TYPE_SINT64
    || t = TYPE_SINT32 || t = TYPE_FLOAT || t = TYPE_DOUBLE || t = TYPE_FIXED32
    || t = TYPE_SFIXED32 || t = TYPE_FIXED64 || t = TYPE_SFIXED64 || t = TYPE_BOOL
    || t = TYPE_ENUM

/-- Go `writeWireType`; a kind without an entry has wire type 0. -/
def writeWireType (t : FieldDescriptorProto_Type) : Int :=
  if t = TYPE_FLOAT then 5
  else if t = TYPE_DOUBLE then 1
  else if t = TYPE_FIXED32 then 5
  else if t = TYPE_SFIXED32 then 5
  else if t = TYPE_FIXED64 then 1
  else if t = TYPE_SFIXED64 then 1
  else if t = TYPE_STRING then 2
  else if t = TYPE_BYTES then 2
  else if t = TYPE_MESSAGE then 2
  else if t = TYPE_GROUP then 2
  else 0

/-- Go `f.isPacked()`. -/
def field.isPacked (f : field) : Bool := isPackable f.fd.GetType

/-- Go `f.labeledType()`. -/
def field.labeledType (f : field) (mr : moduleResolver) :
    Except CodegenPanic (Str × moduleResolver) :=
  if f.isMap then
    match f.mapFields mr with
    | .error e => .error e
    | .ok (k, v, mr) =>
      match k.tsType with
      | .error e => .error e
      | .ok kt =>
        match v.tsType with
        | .error e => .error e
        | .ok vt => .ok (Sprintf "Map<%s, %s>".toList [.s kt, .s vt], mr)
  else
    match f.isRepeated with
    | .error e => .error e
    | .ok true => f.tsType.map fun t => (t ++ "[]".toList, mr)
    | .ok false =>
      if f.isMessage then f.tsType.map fun t => (t ++ " | null".toList, mr)
      else f.tsType.map fun t => (t, mr)

/-- Go `f.defaultValue()`. -/
def field.defaultValue (f : field) (mr : moduleResolver) :
    Except CodegenPanic (Str × moduleResolver) :=
  if f.isMap then
    match f.labeledType mr with
    | .error e => .error e
    | .ok (lt, mr) => .ok (Sprintf "new %s()".toList [.s lt], mr)
  else
    match f.isRepeated with
    | .error e => .error e
    | .ok true => .ok ("[]".toList, mr)
    | .ok false =>
      match f.fd.type with
      | none => .error .nilDeref
      | some t =>
        if t = TYPE_STRING then .ok ("\"\"".toList, mr)
        else if t = TYPE_BYTES then .ok ("new Uint8Array(0)".toList, mr)
        else if t = TYPE_INT64 ∨ t = TYPE_SINT64 ∨ t = TYPE_SFIXED64 then
          .ok ("__long.ZERO".toList, mr)
        else if t = TYPE_UINT64 ∨ t = TYPE_FIXED64 then .ok ("__long.UZERO".toList, mr)
        else if t = TYPE_INT32 ∨ t = TYPE_UINT32 ∨ t = TYPE_SINT32 ∨ t = TYPE_FIXED32
            ∨ t = TYPE_SFIXED32 then .ok ("0".toList, mr)
        else if t = TYPE_FLOAT ∨ t = TYPE_DOUBLE then .ok ("0.0".toList, mr)
        else if t = TYPE_BOOL then .ok ("false".toList, mr)
        else if t = TYPE_MESSAGE ∨ t = TYPE_GROUP then .ok ("null".toList, mr)
        else if t = TYPE_ENUM then .ok ("0".toList, mr)
        else .error (.unexpectedType t)

/-! ## Writer -/

/-- Go `genDebug`. -/
def genDebug : Bool := false

/-- Go `writer`: the buffer written so far and the indentation level. -/
structure writer where
  w : Str
  i : Int
deriving DecidableEq

/-- Go `(w *writer) ln()`. -/
def writer.ln (w : writer) : writer := { w with w := w.w ++ "\n".toList }

/-- Go `(w *writer) p(format, a...)`: one indented line; a format that begins
with a closing brace unindents first, one that ends with an opening brace
indents what follows. -/
def writer.p (w : writer) (format : Str) (a : List Arg) : writer :=
  let i := if HasPrefix format "\x7d".toList then w.i - 1 else w.i
  let indent := Repeat "  ".toList (if i < 0 then 0 else i).toNat
  let w : writer := writer.ln { w := w.w ++ Sprintf (indent ++ format) a, i := i }
  if HasSuffix format "\x7b".toList then { w with i := w.i + 1 } else w

/-- Go `(w *writer) pdebug(f, i...)`. -/
def writer.pdebug (w : writer) (f : Str) (i : List Arg) : writer :=
  if !genDebug then w
  else w.p "console.log(`[PROTOC-DEBUG] %s`);".toList [.s (Sprintf f i)]

/-! ## Decode and encode fragments -/

/-- The `switch` of `writeDecoder` on the kind: the read expression, `none` in
the default case. -/
def readerOf (t : FieldDescriptorProto_Type) (dec : Str) : Option Str :=
  if t = TYPE_STRING then some (Sprintf "%s.readString()".toList [.s dec])
  else if t = TYPE_BYTES then some (Sprintf "%s.readBytes()".toList [.s dec])
  else if t = TYPE_INT64 then some (Sprintf "%s.readVarintSigned()".toList [.s dec])
  else if t = TYPE_UINT64 then some (Sprintf "%s.readVarint()".toList [.s dec])
  else if t = TYPE_INT32 then some (Sprintf "%s.readVarInt32()".toList [.s dec])
  else if t = TYPE_UINT32 then some (Sprintf "%s.readVarUint32()".toList [.s dec])
  else if t = TYPE_SINT64 then some (Sprintf "%s.readZigZag64()".toList [.s dec])
  else if t = TYPE_SINT32 then some (Sprintf "%s.readZigZag32()".toList [.s dec])
  else if t = TYPE_FLOAT then some (Sprintf "%s.readFloat()".toList [.s dec])
  else if t = TYPE_DOUBLE then some (Sprintf "%s.readDouble()".toList [.s dec])
  else if t = TYPE_FIXED32 then some (Sprintf "%s.readUint32()".toList [.s dec])
  else if t = TYPE_SFIXED32 then some (Sprintf "%s.readInt32()".toList [.s dec])
  else if t = TYPE_FIXED64 then some (Sprintf "%s.readUint64()".toList [.s dec])
  else if t = TYPE_SFIXED64 then some (Sprintf "%s.readInt64()".toList [.s dec])
  else if t = TYPE_BOOL then some (Sprintf "%s.readBool()".toList [.s dec])
  else if t = TYPE_ENUM then some (Sprintf "%s.readVarintSignedAsNumber()".toList [.s dec])
  else none

/-- Go `f.writeDecoder(w, dec, wt)`. -/
def field.writeDecoder (f : field) (w : writer) (dec wt : Str) (mr : moduleResolver) :
    Except CodegenPanic (writer × moduleResolver) :=
  if f.isMap then do
    let w := w.p "\x7b".toList []
    let w := w.p "let obj = new %s();".toList [.s f.typeTsName]
    let w := w.p "obj.MergeFrom(%s.readDecoder());".toList [.s dec]
    let (_, v, mr) ← f.mapFields mr
    if v.isMessage then
      let vt ← v.tsType
      let w := w.p "this.%s.set(obj.key, obj.value == null ? new %s() : obj.value);".toList
        [.s f.varName, .s vt]
      pure (w.p "\x7d".toList [], mr)
    else
      let w := w.p "this.%s.set(obj.key, obj.value);".toList [.s f.varName]
      pure (w.p "\x7d".toList [], mr)
  else if f.isMessage then do
    if ← f.isRepeated then
      let w := w.p "\x7b".toList []
      let w := w.p "let obj = new %s();".toList [.s f.typeTsName]
      let w := w.p "obj.MergeFrom(%s.readDecoder());".toList [.s dec]
      let w := w.p "this.%s.push(obj)".toList [.s f.varName]
      pure (w.p "\x7d".toList [], mr)
    else if f.isOneofMember then
      match f.oneof with
      | none => throw .nilDeref
      | some oo =>
        let w := w.p "\x7b".toList []
        let w := w.p "let msg = new %s();".toList [.s f.typeTsName]
        let w := w.p "msg.MergeFrom(%s.readDecoder());".toList [.s dec]
        let w := w.p "this.%s = new %s.%s(msg);".toList
          [.s oo.odp.name, .s oo.fqNamespace, .s f.varName]
        pure (w.p "\x7d".toList [], mr)
    else
      let w := w.p "if (this.%s == null) this.%s = new %s();".toList
        [.s f.varName, .s f.varName, .s f.typeTsName]
      let w := w.p "this.%s.MergeFrom(%s.readDecoder());".toList [.s f.varName, .s dec]
      pure (w, mr)
  else
    match readerOf f.fd.GetType dec with
    | none => throw (.unknownReader f.fd.GetType)
    | some reader =>
      if f.isOneofMember then
        match f.oneof with
        | none => throw .nilDeref
        | some oo =>
          pure (w.p "this.%s = new %s.%s(%s);".toList
            [.s oo.odp.name, .s oo.fqNamespace, .s f.varName, .s reader], mr)
      else do
        if !(← f.isRepeated) then
          pure (w.p "this.%s = %s;".toList [.s f.varName, .s reader], mr)
        else
          let packable := isPackable f.fd.GetType
          let w :=
            if packable then
              let w := w.p "if (%s == 2) \x7b".toList [.s wt]
              let w := w.p "let packed = %s.readDecoder();".toList [.s dec]
              let w := w.p "while (!packed.isEOF()) \x7b".toList []
              let packedReader := Replace reader dec "packed".toList 1
              let w := w.p "this.%s.push(%s)".toList [.s f.varName, .s packedReader]
              let w := w.p "\x7d".toList []
              w.p "\x7d else \x7b".toList []
            else w
          let w := w.p "this.%s.push(%s)".toList [.s f.varName, .s reader]
          let w := if packable then w.p "\x7d".toList [] else w
          pure (w, mr)

/-- The `switch` of `primitiveWriter` on the kind: the write expression, `none`
in the default case. -/
def writerOf (t : FieldDescriptorProto_Type) (enc name : Str) : Option Str :=
  if t = TYPE_STRING then some (Sprintf "%s.writeString(this.%s)".toList [.s enc, .s name])
  else if t = TYPE_BYTES then some (Sprintf "%s.writeBytes(this.%s)".toList [.s enc, .s name])
  else if t = TYPE_INT64 ∨ t = TYPE_UINT64 then
    some (Sprintf "%s.writeVarint(this.%s)".toList [.s enc, .s name])
  else if t = TYPE_INT32 ∨ t = TYPE_UINT32 then
    some (Sprintf "%s.writeNumberAsVarint(this.%s)".toList [.s enc, .s name])
  else if t = TYPE_SINT64 then some (Sprintf "%s.writeZigZag64(this.%s)".toList [.s enc, .s name])
  else if t = TYPE_SINT32 then some (Sprintf "%s.writeZigZag32(this.%s)".toList [.s enc, .s name])
  else if t = TYPE_FLOAT then some (Sprintf "%s.writeFloat(this.%s)".toList [.s enc, .s name])
  else if t = TYPE_DOUBLE then some (Sprintf "%s.writeDouble(this.%s)".toList [.s enc, .s name])
  else if t = TYPE_FIXED32 then some (Sprintf "%s.writeUint32(this.%s)".toList [.s enc, .s name])
  else if t = TYPE_SFIXED32 then some (Sprintf "%s.writeInt32(this.%s)".toList [.s enc, .s name])
  else if t = TYPE_FIXED64 then some (Sprintf "%s.writeUint64(this.%s)".toList [.s enc, .s name])
  else if t = TYPE_SFIXED64 then some (Sprintf "%s.writeInt64(this.%s)".toList [.s enc, .s name])
  else if t = TYPE_BOOL then some (Sprintf "%s.writeBool(this.%s)".toList [.s enc, .s name])
  else if t = TYPE_ENUM then
    some (Sprintf "%s.writeNumberAsVarint(this.%s)".toList [.s enc, .s name])
  else none

/-- Go `f.primitiveWriter(enc)`: the tag write and the value write. -/
def field.primitiveWriter (f : field) (enc : Str) : Except CodegenPanic (Str × Str) :=
  match writerOf f.fd.GetType enc f.varName with
  | none => .error (.unknownWriter f.fd.GetType)
  | some writer =>
    let tagWriter := Sprintf "%s.writeTag(%d, %d)".toList
      [.s enc, .d f.fd.number, .d (writeWireType f.fd.GetType)]
    .ok (tagWriter, writer)

/-- Go `f.writeEncoder(w, libMod, enc, alwaysEmitDefaultValue)`. -/
def field.writeEncoder (f : field) (w : writer) (libMod : modRef) (enc : Str)
    (alwaysEmitDefaultValue : Bool) (mr : moduleResolver) :
    Except CodegenPanic (writer × moduleResolver) :=
  if f.isMap then
    let w := w.p "for (const [k, v] of this.%s) \x7b".toList [.s f.varName]
    let w := w.p "let obj = new %s();".toList [.s f.typeTsName]
    let w := w.p "obj.key = k;".toList []
    let w := w.p "obj.value = v;".toList []
    let w := w.p "let nested = new %s.Internal.Encoder();".toList [.s libMod.alias_]
    let w := w.p "obj.WriteTo(nested);".toList []
    let w := w.p "%s.writeEncoder(nested, %d);".toList [.s enc, .d f.fd.number]
    pure (w.p "\x7d".toList [], mr)
  else if f.isMessage then do
    let w := w.p "\x7b".toList []
    let w ←
      if ← f.isRepeated then
        pure (w.p "for (const msg of this.%s) \x7b".toList [.s f.varName])
      else
        let w := w.p "const msg = this.%s;".toList [.s f.varName]
        pure (w.p "if (msg != null) \x7b".toList [])
    let w := w.p "let nested = new %s.Internal.Encoder();".toList [.s libMod.alias_]
    let w := w.p "msg.WriteTo(nested);".toList []
    let w := w.p "%s.writeEncoder(nested, %d)".toList [.s enc, .d f.fd.number]
    let w := w.p "\x7d".toList []
    pure (w.p "\x7d".toList [], mr)
  else do
    let (tagWriter, writer) ← f.primitiveWriter enc
    if !(← f.isRepeated) then
      let (w, mr) ←
        if !alwaysEmitDefaultValue then
          if f.fd.GetType = TYPE_BYTES then
            pure (w.p "if (this.%s.length != 0) \x7b".toList [.s f.varName], mr)
          else
            let (dv, mr) ← f.defaultValue mr
            pure (w.p "if (this.%s != %s) \x7b".toList [.s f.varName, .s dv], mr)
        else pure (w, mr)
      let w := w.p (tagWriter ++ ";".toList) []
      let w := w.p (writer ++ ";".toList) []
      let w := if !alwaysEmitDefaultValue then w.p "\x7d".toList [] else w
      pure (w, mr)
    else
      let repeatWriter := Replace writer ("this.".toList ++ f.varName) "elem".toList 1
      if f.isPacked then
        let packedWriter := Replace repeatWriter enc "packed".toList 1
        let w := w.p "\x7b".toList []
        let w := w.p "const packed = new %s.Internal.Encoder();".toList [.s libMod.alias_]
        let w := w.p "for (let elem of this.%s) \x7b".toList [.s f.varName]
        let w := w.p (packedWriter ++ ";".toList) []
        let w := w.p "\x7d".toList []
        let w := w.p "%s.writeEncoder(packed, %d);".toList [.s enc, .d f.fd.number]
        pure (w.p "\x7d".toList [], mr)
      else
        let w := w.p "for (let elem of this.%s) \x7b".toList [.s f.varName]
        let w := w.p (tagWriter ++ ";".toList) []
        let w := w.p (repeatWriter ++ ";".toList) []
        pure (w.p "\x7d".toList [], mr)

/-! ## Emitters -/

/-- Go `writeEnum(w, edp, prefixNames)`. -/
def writeEnum (w : writer) (edp : EnumDescriptorProto) (prefixNames : List Str) : writer :=
  let w :=
    if prefixNames.length > 0 then
      w.p "export namespace %s \x7b".toList [.s (Join prefixNames ".".toList)]
    else w
  let w := w.p "export const enum %s \x7b".toList [.s edp.name]
  let w := edp.value.foldl (fun w v => w.p "%s = %d,".toList [.s v.name, .d v.number]) w
  let w := w.p "\x7d".toList []
  let w := if prefixNames.length > 0 then w.p "\x7d".toList [] else w
  w.ln

/-- Go `writeOneof(w, oo, libMod, prefixNames)`. -/
def writeOneof (w : writer) (oo : oneof) (libMod : modRef) (prefixNames : List Str)
    (mr : moduleResolver) : Except CodegenPanic (writer × moduleResolver) := do
  let w :=
    if prefixNames.length > 0 then
      w.p "export namespace %s \x7b".toList [.s (Join (prefixNames ++ [oo.odp.name]) ".".toList)]
    else w
  let classNames := [Sprintf "%s.OneofNotSet".toList [.s libMod.alias_]]
  let (w, classNames, mr) ← oo.fields.foldlM
    (fun (st : writer × List Str × moduleResolver) field => do
      let (w, classNames, mr) := st
      let w := w.p "export class %s \x7b".toList [.s field.varName]
      let w := w.p "static readonly kind = %d;".toList [.d field.fd.number]
      let w := w.p "readonly kind = %d;".toList [.d field.fd.number]
      let (lt, mr) ← field.labeledType mr
      let w := w.p "value: %s;".toList [.s lt]
      let (lt, mr) ← field.labeledType mr
      let w := w.p "constructor(v: %s) \x7b".toList [.s lt]
      let w := w.p "this.value = v;".toList []
      let w := w.p "\x7d".toList []
      let classNames := classNames ++ [field.varName]
      let w := w.p "\x7d".toList []
      pure (w.ln, classNames, mr))
    (w, classNames, mr)
  let union := Join classNames " | ".toList
  let w := w.p "export type %s = %s;".toList [.s oo.typeName, .s union]
  let w := w.ln
  let w := w.p "export function WriteTo(oo: %s, e: %s.Internal.Encoder):void \x7b".toList
    [.s oo.typeName, .s libMod.alias_]
  let w := w.p "switch (oo.kind) \x7b".toList []
  let w ← oo.fields.foldlM
    (fun (w : writer) f => do
      let value := Sprintf "(oo as %s).value".toList [.s f.varName]
      let w := w.p "case %d:".toList [.d f.fd.number]
      if f.isMessage then
        let w := w.p "\x7b".toList []
        let w := w.p "let nested = new %s.Internal.Encoder();".toList [.s libMod.alias_]
        let w := w.p "let msg = %s;".toList [.s value]
        let w := w.p "if (msg != null) \x7b".toList []
        let w := w.p "msg.WriteTo(nested);".toList []
        let w := w.p "\x7d".toList []
        let w := w.p "e.writeEncoder(nested, %d);".toList [.d f.fd.number]
        let w := w.p "return".toList []
        pure (w.p "\x7d".toList [])
      else
        let (tagWriter, writer) ← f.primitiveWriter "e".toList
        let writer := Replace writer ("this.".toList ++ f.varName) value 1
        let w := w.p (tagWriter ++ ";".toList) []
        let w := w.p (writer ++ ";".toList) []
        pure (w.p "return;".toList []))
    w
  let w := w.p "\x7d".toList []
  let w := w.p "\x7d".toList []
  let w := if prefixNames.length > 0 then w.p "\x7d".toList [] else w
  pure (w.ln, mr)

/-- The loop of `writeDescriptor` that wraps the fields of a message. -/
def wrapFields (fds : List FieldDescriptorProto) (ns : Namespace) (mr : moduleResolver) :
    Except CodegenPanic (List field × moduleResolver) :=
  fds.foldlM
    (fun (st : List field × moduleResolver) fd => do
      let (f, mr) ← newField fd (some ns) st.2
      pure (st.1 ++ [f], mr))
    ([], mr)

/-- The loops of `writeDescriptor` that group the member fields by their oneof
index and wrap the oneof declarations. -/
def wrapOneofs (dp : DescriptorProto) (fields : List field) (nextNames : List Str) : List oneof :=
  dp.oneofDecl.enum.map fun (i, od) =>
    { odp := od
      fields := fields.filter fun f => f.isOneofMember && f.fd.GetOneofIndex = (i : Int)
      typeName := "oneof_type".toList
      fqNamespace := Join (nextNames ++ [od.name]) ".".toList }

/-- The loop of `writeDescriptor` that points each member field at its oneof;
`oneofs[field.fd.GetOneofIndex()]` panics when the index is out of range. -/
def pointAtOneofs (fields : List field) (oneofs : List oneof) : Except CodegenPanic (List field) :=
  fields.mapM fun f =>
    if f.isOneofMember then
      match (if f.fd.GetOneofIndex < 0 then none else oneofs.get? f.fd.GetOneofIndex.toNat) with
      | none => .error .indexOutOfRange
      | some oo =>
        .ok { f with
              oneof := some { odp := oo.odp, fqNamespace := oo.fqNamespace, typeName := oo.typeName } }
    else .ok f

/-- The part of `writeDescriptor` for one message, before it descends into the
nested types: the class with its properties, constructor, `MergeFrom` and
`WriteTo`, then the oneofs and enums of the message. -/
def writeMessage (w : writer) (dp : DescriptorProto) (ns : Namespace) (mr : moduleResolver)
    (libMod : modRef) (prefixNames : List Str) :
    Except CodegenPanic (writer × moduleResolver) := do
  let nextNames := prefixNames ++ [dp.name]
  -- Wrap fields.
  let (fields, mr) ← wrapFields dp.field ns mr
  -- Oneofs.
  let oneofs := wrapOneofs dp fields nextNames
  let fields ← pointAtOneofs fields oneofs
  let w :=
    if prefixNames.length > 0 then
      w.p "export namespace %s \x7b".toList [.s (Join prefixNames ".".toList)]
    else w
  -- Message
  let w := w.p "export class %s implements %s.Message \x7b".toList [.s dp.name, .s libMod.alias_]
  let (w, mr) ← fields.foldlM
    (fun (st : writer × moduleResolver) f => do
      if f.isOneofMember then pure st
      else
        let (lt, mr) ← f.labeledType st.2
        pure (st.1.p "%s: %s;".toList [.s f.varName, .s lt], mr))
    (w, mr)
  let w := oneofs.foldl
    (fun w oo => w.p "%s: %s.%s;".toList [.s oo.odp.name, .s oo.fqNamespace, .s oo.typeName]) w
  let w := w.ln
  -- Constructor
  let w := w.p "constructor() \x7b".toList []
  let (w, mr) ← fields.foldlM
    (fun (st : writer × moduleResolver) f => do
      if f.isOneofMember then pure st
      else
        let (dv, mr) ← f.defaultValue st.2
        pure (st.1.p "this.%s = %s;".toList [.s f.varName, .s dv], mr))
    (w, mr)
  let w := oneofs.foldl
    (fun w oo => w.p "this.%s = %s.OneofNotSet.singleton;".toList
      [.s oo.odp.name, .s libMod.alias_]) w
  let w := w.p "\x7d".toList []
  let w := w.ln
  -- MergeFrom
  let w := w.p "MergeFrom(d: %s.Internal.Decoder): void \x7b".toList [.s libMod.alias_]
  let w := w.p "while (!d.isEOF()) \x7b".toList []
  let w := w.p "let [fn, wt] = d.readTag();".toList []
  let w := w.p "switch(fn) \x7b".toList []
  let (w, mr) ← fields.foldlM
    (fun (st : writer × moduleResolver) f => do
      let w := st.1.p "case %d:".toList [.d f.fd.number]
      let w := w.pdebug "reading field:%d (%s) wt:$\x7bwt\x7d".toList [.d f.fd.number, .s f.fd.name]
      let (w, mr) ← f.writeDecoder w "d".toList "wt".toList st.2
      let w := w.pdebug "read field:%d (%s)".toList [.d f.fd.number, .s f.fd.name]
      pure (w.p "break;".toList [], mr))
    (w, mr)
  let w := w.p "default:".toList []
  let w := w.pdebug "skipping unknown field:$\x7bfn\x7d wt:$\x7bwt\x7d".toList []
  let w := w.p "d.skipWireType(wt)".toList []
  let w := w.p "\x7d".toList []
  let w := w.p "\x7d".toList []
  let w := w.p "\x7d".toList []
  let w := w.ln
  -- WriteTo
  let (w, mr) ←
    if fields.length < 1 then
      pure (w.p "WriteTo(_: %s.Internal.Encoder): void \x7b\x7d".toList [.s libMod.alias_], mr)
    else do
      let w := w.p "WriteTo(e: %s.Internal.Encoder): void \x7b".toList [.s libMod.alias_]
      let (w, mr) ← fields.foldlM
        (fun (st : writer × moduleResolver) f => do
          if f.isOneofMember then pure st
          else
            let w := st.1.pdebug "maybe writing field %d, (%s)".toList
              [.d f.fd.number, .s f.fd.name]
            let (w, mr) ← f.writeEncoder w libMod "e".toList false st.2
            pure (w.pdebug "maybe wrote field %d, (%s)".toList
              [.d f.fd.number, .s f.fd.name], mr))
        (w, mr)
      let w := oneofs.foldl
        (fun w oo => w.p "%s.WriteTo(this.%s, e);".toList [.s oo.fqNamespace, .s oo.odp.name]) w
      pure (w.p "\x7d".toList [], mr)
  let w := w.p "\x7d".toList []
  let w := if prefixNames.length > 0 then w.p "\x7d".toList [] else w
  let w := w.ln
  -- Write oneofs
  let (w, mr) ← oneofs.foldlM
    (fun (st : writer × moduleResolver) oo => writeOneof st.1 oo libMod nextNames st.2)
    (w, mr)
  -- Write enums.
  let w := dp.enumType.foldl (fun w edp => writeEnum w edp nextNames) w
  pure (w, mr)

/-- Go `writeDescriptor(w, dp, ns, mr, libMod, prefixNames)`: the message, then
its nested types, recursively. -/
def writeDescriptor (w : writer) (ns : Namespace) (mr : moduleResolver) (libMod : modRef)
    (prefixNames : List Str) : DescriptorProto → Except CodegenPanic (writer × moduleResolver)
  | ⟨name, field, nestedType, enumType, oneofDecl, mapEntry⟩ =>
    match writeMessage w ⟨name, field, nestedType, enumType, oneofDecl, mapEntry⟩ ns mr libMod
        prefixNames with
    | .error e => .error e
    | .ok (w, mr) => writeNested w ns mr libMod (prefixNames ++ [name]) nestedType
where
  /-- The loop over the nested types. -/
  writeNested (w : writer) (ns : Namespace) (mr : moduleResolver) (libMod : modRef)
      (nextNames : List Str) : List DescriptorProto → Except CodegenPanic (writer × moduleResolver)
    | [] => .ok (w, mr)
    | ndp :: rest =>
      match writeDescriptor w ns mr libMod nextNames ndp with
      | .error e => .error e
      | .ok (w, mr) => writeNested w ns mr libMod nextNames rest

/-- Go `method`. -/
structure method where
  mdp : MethodDescriptorProto
  TsName : Str
  InputTsName : Str
  OutputTsName : Str

/-- Go `newMethod(mdp, ns, mr)`. -/
def newMethod (mdp : MethodDescriptorProto) (ns : Namespace) (mr : moduleResolver) :
    Except CodegenPanic (method × moduleResolver) := do
  let (_, typeName, _, typeFdp) ← ns.FindFullyQualifiedName mdp.inputType
  let r := mr.ToRelativeModule typeFdp
  let inputTsName :=
    match r.1 with
    | some mod => mod.alias_ ++ ".".toList ++ typeName
    | none => typeName
  let mr := r.2
  let (_, typeName, _, typeFdp) ← ns.FindFullyQualifiedName mdp.outputType
  let r := mr.ToRelativeModule typeFdp
  let outputTsName :=
    match r.1 with
    | some mod => mod.alias_ ++ ".".toList ++ typeName
    | none => typeName
  pure ({ mdp := mdp, TsName := mdp.name, InputTsName := inputTsName,
          OutputTsName := outputTsName }, r.2)

/-- Go `m.isStreaming()`. -/
def method.isStreaming (m : method) : Bool := m.mdp.clientStreaming || m.mdp.serverStreaming

/-- Go `writeService(w, sdp, pkg, ns, mr, libMod)`. -/
def writeService (w : writer) (sdp : ServiceDescriptorProto) (pkg : Str) (ns : Namespace)
    (mr : moduleResolver) (libMod : modRef) : Except CodegenPanic (writer × moduleResolver) := do
  let (methods, mr) ← sdp.method.foldlM
    (fun (st : List method × moduleResolver) mdp => do
      let (m, mr) ← newMethod mdp ns st.2
      pure (st.1 ++ [m], mr))
    ([], mr)
  let fqname := if pkg ≠ [] then pkg ++ ".".toList ++ sdp.name else sdp.name
  -- Client
  let w := w.p "export class %sClient \x7b".toList [.s sdp.name]
  let w := w.p "private cc: %s.Grpc.ClientConn;".toList [.s libMod.alias_]
  let w := w.p "constructor(cc: %s.Grpc.ClientConn) \x7b".toList [.s libMod.alias_]
  let w := w.p "this.cc = cc;".toList []
  let w := w.p "\x7d".toList []
  let w := methods.foldl
    (fun (w : writer) m =>
      if m.isStreaming then w
      else
        let w := w.ln
        let w := w.p "async %s(min: %s, ...co: %s.Grpc.CallOption[]): Promise<%s> \x7b".toList
          [.s m.TsName, .s m.InputTsName, .s libMod.alias_, .s m.OutputTsName]
        let w := w.p "let mout = new %s();".toList [.s m.OutputTsName]
        let w := w.p "await this.cc.Invoke('/%s/%s', min, mout, ...co);".toList
          [.s fqname, .s m.mdp.name]
        let w := w.p "return mout;".toList []
        w.p "\x7d".toList [])
    w
  pure (w.p "\x7d".toList [], mr)

/-! ## File orchestration -/

/-- Go leaves the order of a `range` over a map unspecified, and the runtime
randomises it.  A run is therefore modelled relative to an order: a function
that lists the entries of a map in the order in which this run ranges over
them, a permutation of the entries. -/
structure MapOrder where
  order : List (Str × modRef) → List (Str × modRef)
  perm : ∀ l, (order l).Perm l

/-- The runs that range over a map in the order of insertion. -/
def MapOrder.insertion : MapOrder := { order := id, perm := fun _ => List.Perm.refl _ }

/-- The runs that range over a map against the order of insertion. -/
def MapOrder.reversed : MapOrder :=
  { order := List.reverse, perm := fun l => List.reverse_perm l }

/-- Go `importPlaceholder`. -/
def importPlaceholder : Str := "!!!IMPORT_PLACEHOLDER!!!".toList

/-- The statements of `writeFile` after the syntax check and the namespace
lookup: the header, the enums, messages and services of the file, and the block
of imports, which is the result. -/
def writeFileBody (ord : MapOrder) (w : writer) (fdp : FileDescriptorProto) (ns : Namespace)
    (libMod : modRef) (genService : Bool) : Except CodegenPanic (Str × writer) := do
  let mr : moduleResolver := { currentFile := fdp, references := [] }
  let w := w.p "// Generated by the protocol buffer compiler.  DO NOT EDIT!".toList []
  let w := w.p "// Source: %s".toList [.s fdp.name]
  let w := w.ln
  let w := w.p importPlaceholder []
  let w := w.ln
  -- Top level enums.
  let w := fdp.enumType.foldl (fun w edp => writeEnum w edp []) w
  -- Messages, recurse.
  let (w, mr) ← fdp.messageType.foldlM
    (fun (st : writer × moduleResolver) dp => writeDescriptor st.1 ns st.2 libMod [] dp)
    (w, mr)
  -- Services
  let (w, mr) ←
    if genService then
      fdp.service.foldlM
        (fun (st : writer × moduleResolver) sdp =>
          writeService st.1 sdp fdp.package ns st.2 libMod)
        (w, mr)
    else pure (w, mr)
  let imports := Sprintf "import * as %s from '%s'\n".toList [.s libMod.alias_, .s libMod.path]
  let imports := (ord.order mr.references).foldl
    (fun imports e =>
      imports ++ Sprintf "import * as %s from '%s'\n".toList [.s e.2.alias_, .s e.2.path])
    imports
  pure (imports, w)

/-- Go `writeFile(w, fdp, rootNs, libMod, genService)`: the import block of the
file, and the writer after the file has been written. -/
def writeFile (ord : MapOrder) (w : writer) (fdp : FileDescriptorProto) (rootNs : Namespace)
    (libMod : modRef) (genService : Bool) : Except Panic (Str × writer) :=
  if fdp.syn ≠ "proto3".toList then .error (.unsupportedSyntax fdp.syn fdp.name)
  else
    match rootNs.FindFullyQualifiedNamespace (".".toList ++ fdp.package) with
    | none => .error (.noNamespace fdp.package)
    | some ns =>
      match writeFileBody ord w fdp ns libMod genService with
      | .error e => .error (.codegen e)
      | .ok r => .ok r

/-- The option loop of `gen`: the values of `optGenService` and
`optLibraryImport` after the parameters `params`. -/
def genOptions : List Str → Bool × Str → Except Panic (Bool × Str)
  | [], opts => .ok opts
  | param :: params, (optGenService, optLibraryImport) =>
    if param = "plugin=grpc".toList then genOptions params (true, optLibraryImport)
    else if HasPrefix param "library_import=".toList then
      genOptions params (optGenService, TrimPrefix param "library_import=".toList)
    else .error (.unknownOption param)

/-- The body of the file loop of `gen` for a file to generate: the response
file for `fdp` under the namespace `rootns`. -/
def genFile (ord : MapOrder) (fdp : FileDescriptorProto) (rootns : Namespace)
    (optGenService : Bool) (optLibraryImport : Str) : Except Panic CodeGeneratorResponse_File :=
  let name := tsFileName fdp ++ ".ts".toList
  let w : writer := { w := [], i := 0 }
  let libMod : modRef := { alias_ := "__pb__".toList, path := optLibraryImport }
  match writeFile ord w fdp rootns libMod optGenService with
  | .error e => .error e
  | .ok (imports, w) =>
    let beforeReplace := w.w
    let imports :=
      if Contains beforeReplace "__long.".toList then
        imports ++ "import * as __long from 'long'\n".toList
      else imports
    let content := Replace beforeReplace importPlaceholder imports 1
    .ok { name := name, content := content }

/-- The file loop of `gen`: every file is parsed into the namespace, and a
file to generate is emitted right after it has been parsed. -/
def genFiles (ord : MapOrder) (fileToGenerate : List Str) (optGenService : Bool)
    (optLibraryImport : Str) :
    List FileDescriptorProto → Namespace → CodeGeneratorResponse →
      Except Panic CodeGeneratorResponse
  | [], _, resp => .ok resp
  | fdp :: rest, rootns, resp =>
    let rootns := rootns.Parse fdp
    if fdp.name ∉ fileToGenerate then
      genFiles ord fileToGenerate optGenService optLibraryImport rest rootns resp
    else
      match genFile ord fdp rootns optGenService optLibraryImport with
      | .error e => .error e
      | .ok f =>
        genFiles ord fileToGenerate optGenService optLibraryImport rest rootns
          { resp with file := resp.file ++ [f] }

/-- Go `gen(req)`; a panic is the error result. -/
def gen (ord : MapOrder) (req : CodeGeneratorRequest) : Except Panic CodeGeneratorResponse :=
  let resp : CodeGeneratorResponse := { file := [] }
  let fileToGenerate := req.fileToGenerate
  let params := Split req.parameter ','
  match genOptions params (false, "protobuf".toList) with
  | .error e => .error e
  | .ok (optGenService, optLibraryImport) =>
    let rootns := NewEmptyNamespace
    genFiles ord fileToGenerate optGenService optLibraryImport req.protoFile rootns resp

/-! ## Notions used in the statements -/

/-- An option item that the option loop of `gen` recognises: it is `plugin=grpc`
or begins with `library_import=`. -/
def recognized (p : Str) : Prop :=
  p = "plugin=grpc".toList ∨ HasPrefix p "library_import=".toList = true

instance (p : Str) : Decidable (recognized p) := by unfold recognized; infer_instance

/-- The emissions of the file loop of `gen`, in order: each file to generate
with the namespace under which the loop calls `genFile` for it. -/
def emissions (fileToGenerate : List Str) :
    List FileDescriptorProto → Namespace → List (FileDescriptorProto × Namespace)
  | [], _ => []
  | fdp :: rest, rootns =>
    let rootns := rootns.Parse fdp
    if fdp.name ∉ fileToGenerate then emissions fileToGenerate rest rootns
    else (fdp, rootns) :: emissions fileToGenerate rest rootns

/-! ### The reference table and the files a file refers to -/

/-- The keys of the reference table of a resolver. -/
def moduleResolver.keys (m : moduleResolver) : List Str := m.references.map Prod.fst

/-- The invariant of the reference table: one entry per key, no entry for the
current file, and every entry is the module reference that `ToRelativeModule`
builds for its key. -/
def moduleResolver.Inv (m : moduleResolver) : Prop :=
  m.keys.Nodup ∧ ∀ e ∈ m.references, e.1 ≠ m.currentFile.name ∧
    ∃ fdp : FileDescriptorProto, fdp.name = e.1 ∧
      (({ currentFile := m.currentFile, references := [] } : moduleResolver).ToRelativeModule fdp).1
        = some e.2

/-- The resolver `mr'` comes from `mr` by entries for files of `T` only. -/
def Step (T : List Str) (mr mr' : moduleResolver) : Prop :=
  mr'.currentFile = mr.currentFile ∧ (mr.Inv → mr'.Inv) ∧
    (∀ k, k ∈ mr.keys → k ∈ mr'.keys) ∧
    (∀ k, k ∈ mr'.keys → k ∈ mr.keys ∨ (k ∈ T ∧ k ≠ mr.currentFile.name))

/-- The resolver `mr'` comes from `mr` by entries for exactly the files of `T`
other than the current file. -/
def Exact (T : List Str) (mr mr' : moduleResolver) : Prop :=
  Step T mr mr' ∧ ∀ k ∈ T, k ≠ mr.currentFile.name → k ∈ mr'.keys

/-- The file that owns a type name, when the namespace resolves the name. -/
def ownerOf (ns : Namespace) (typeName : Str) : List Str :=
  match ns.FindFullyQualifiedName typeName with
  | .ok r => [r.2.2.2.name]
  | .error _ => []

/-- The file that owns the type of a field or of a key or value of a map
entry; a field without a type name refers to no file. -/
def nameRefs (ns : Option Namespace) (typeName : Str) : List Str :=
  if typeName = [] then []
  else
    match ns with
    | some ns => ownerOf ns typeName
    | none => []

/-- The files that own the key and value types of the entry of a wrapped
field. -/
def field.entryRefs (f : field) : List Str :=
  match f.typeDescriptor with
  | some (.message dp) => (dp.field.take 2).flatMap fun k => nameRefs f.typeNs k.typeName
  | _ => []

/-- The files a wrapped map field refers to through its entry. -/
def field.mapRefs (f : field) : List Str := if f.isMap then f.entryRefs else []

/-- The files a map field refers to through the key and value of its entry,
which are resolved in the namespace of the entry. -/
def entryRefsOf (ns : Namespace) (fd : FieldDescriptorProto) : List Str :=
  if fd.typeName = [] then []
  else
    match ns.FindFullyQualifiedName fd.typeName with
    | .ok (typeNs, _, .message dp, _) =>
      if dp.mapEntry then
        (dp.field.take 2).flatMap fun k =>
          nameRefs (ns.FindFullyQualifiedNamespace typeNs) k.typeName
      else []
    | _ => []

/-- The files a field refers to: the file of its type and, for a map field,
the files of the key and value types. -/
def fieldRefs (ns : Namespace) (fd : FieldDescriptorProto) : List Str :=
  nameRefs (some ns) fd.typeName ++ entryRefsOf ns fd

/-- The files a message refers to: through its fields and through its nested
types. -/
def messageRefs (ns : Namespace) : DescriptorProto → List Str
  | ⟨_, field, nestedType, _, _, _⟩ => field.flatMap (fieldRefs ns) ++ nestedRefs ns nestedType
where
  /-- The files the messages of a list refer to. -/
  nestedRefs (ns : Namespace) : List DescriptorProto → List Str
    | [] => []
    | dp :: rest => messageRefs ns dp ++ nestedRefs ns rest

/-- The files a method refers to: the files of its input and output types. -/
def methodRefs (ns : Namespace) (mdp : MethodDescriptorProto) : List Str :=
  ownerOf ns mdp.inputType ++ ownerOf ns mdp.outputType

/-- The files whose types a file refers to: through its messages and, when
services are generated, through the methods of its services. -/
def fileRefs (ns : Namespace) (fdp : FileDescriptorProto) (genService : Bool) : List Str :=
  messageRefs.nestedRefs ns fdp.messageType ++
    if genService then fdp.service.flatMap fun sdp => sdp.method.flatMap (methodRefs ns) else []

/-- The line of the block of imports for a module reference. -/
def importLine (mod : modRef) : Str :=
  "import * as ".toList ++ mod.alias_ ++ " from '".toList ++ mod.path ++ "'\n".toList

/-- A path element that `Clean` keeps as it is: not empty, not `.`, not `..`. -/
def IsName (e : Str) : Prop := e ≠ [] ∧ e ≠ ['.'] ∧ e ≠ ['.', '.']

/-- The elements of a cleaned relative path: `..` elements first, then names. -/
def NF (es : List Str) : Prop :=
  ∃ (k : Nat) (names : List Str), es = List.replicate k ['.', '.'] ++ names ∧ ∀ n ∈ names, IsName n

/-- The relative path with the elements `out`; `.` when there is none. -/
def render (out : List Str) : Str := if out = [] then ['.'] else Join out ['/']

/-- The stack of `Clean` holds names on top of `..` elements. -/
def StackNF (S : List Str) : Prop :=
  ∃ (names : List Str) (k : Nat), S = names ++ List.replicate k ['.', '.'] ∧ ∀ n ∈ names, IsName n

/-- The name of the decoder method that reads a value of a scalar kind: the
method which the `switch` of `writeDecoder` calls on the decoder. -/
def readMethod (t : FieldDescriptorProto_Type) : Option Str :=
  if t = TYPE_STRING then some "readString".toList
  else if t = TYPE_BYTES then some "readBytes".toList
  else if t = TYPE_INT64 then some "readVarintSigned".toList
  else if t = TYPE_UINT64 then some "readVarint".toList
  else if t = TYPE_INT32 then some "readVarInt32".toList
  else if t = TYPE_UINT32 then some "readVarUint32".toList
  else if t = TYPE_SINT64 then some "readZigZag64".toList
  else if t = TYPE_SINT32 then some "readZigZag32".toList
  else if t = TYPE_FLOAT then some "readFloat".toList
  else if t = TYPE_DOUBLE then some "readDouble".toList
  else if t = TYPE_FIXED32 then some "readUint32".toList
  else if t = TYPE_SFIXED32 then some "readInt32".toList
  else if t = TYPE_FIXED64 then some "readUint64".toList
  else if t = TYPE_SFIXED64 then some "readInt64".toList
  else if t = TYPE_BOOL then some "readBool".toList
  else if t = TYPE_ENUM then some "readVarintSignedAsNumber".toList
  else none

/-- The name of the encoder method that writes a value of a scalar kind: the
method which the `switch` of `primitiveWriter` calls on the encoder. -/
def writeMethod (t : FieldDescriptorProto_Type) : Option Str :=
  if t = TYPE_STRING then some "writeString".toList
  else if t = TYPE_BYTES then some "writeBytes".toList
  else if t = TYPE_INT64 ∨ t = TYPE_UINT64 then some "writeVarint".toList
  else if t = TYPE_INT32 ∨ t = TYPE_UINT32 then some "writeNumberAsVarint".toList
  else if t = TYPE_SINT64 then some "writeZigZag64".toList
  else if t = TYPE_SINT32 then some "writeZigZag32".toList
  else if t = TYPE_FLOAT then some "writeFloat".toList
  else if t = TYPE_DOUBLE then some "writeDouble".toList
  else if t = TYPE_FIXED32 then some "writeUint32".toList
  else if t = TYPE_SFIXED32 then some "writeInt32".toList
  else if t = TYPE_FIXED64 then some "writeUint64".toList
  else if t = TYPE_SFIXED64 then some "writeInt64".toList
  else if t = TYPE_BOOL then some "writeBool".toList
  else if t = TYPE_ENUM then some "writeNumberAsVarint".toList
  else none

/-- The scalar kinds: every kind but message and group. -/
def scalarKinds : List FieldDescriptorProto_Type :=
  [TYPE_DOUBLE, TYPE_FLOAT, TYPE_INT32, TYPE_INT64, TYPE_UINT32, TYPE_UINT64, TYPE_SINT32,
   TYPE_SINT64, TYPE_FIXED32, TYPE_FIXED64, TYPE_SFIXED32, TYPE_SFIXED64, TYPE_BOOL,
   TYPE_STRING, TYPE_BYTES, TYPE_ENUM]

/-- The kinds of `FieldDescriptorProto_Type`: the scalar kinds, message and
group. -/
def fieldKinds : List FieldDescriptorProto_Type :=
  [TYPE_DOUBLE, TYPE_FLOAT, TYPE_INT32, TYPE_INT64, TYPE_UINT32, TYPE_UINT64, TYPE_SINT32,
   TYPE_SINT64, TYPE_FIXED32, TYPE_FIXED64, TYPE_SFIXED32, TYPE_SFIXED64, TYPE_BOOL,
   TYPE_STRING, TYPE_BYTES, TYPE_ENUM, TYPE_MESSAGE, TYPE_GROUP]

/-- The lines `ls`, each a format with its operands, printed in order. -/
def writer.emit (w : writer) (ls : List (Str × List Arg)) : writer :=
  ls.foldl (fun w l => w.p l.1 l.2) w

/-- The variant class that `writeOneof` writes for the member `x.1`, with `x.2`
the labeled type of the member: the class has the name of the member, its
`kind`, static and per instance, is the number of the member, and its `value`
is of the labeled type. -/
def variantClass (w : writer) (x : field × Str) : writer :=
  (w.emit
    [("export class %s \x7b".toList, [.s x.1.varName]),
     ("static readonly kind = %d;".toList, [.d x.1.fd.number]),
     ("readonly kind = %d;".toList, [.d x.1.fd.number]),
     ("value: %s;".toList, [.s x.2]),
     ("constructor(v: %s) \x7b".toList, [.s x.2]),
     ("this.value = v;".toList, []),
     ("\x7d".toList, []),
     ("\x7d".toList, [])]).ln

/-- The case that the dispatcher of `writeOneof` has for the member `f`: under
the number of the member, a message is written through a nested encoder, and
a scalar by its tag and by the write method of its kind applied to the value
of the variant; then the dispatcher returns. -/
def dispatchCase (libMod : modRef) (w : writer) (f : field) : writer :=
  if f.isMessage then
    w.emit
      [("case %d:".toList, [.d f.fd.number]),
       ("\x7b".toList, []),
       ("let nested = new %s.Internal.Encoder();".toList, [.s libMod.alias_]),
       ("let msg = %s;".toList, [.s ("(oo as ".toList ++ f.varName ++ ").value".toList)]),
       ("if (msg != null) \x7b".toList, []),
       ("msg.WriteTo(nested);".toList, []),
       ("\x7d".toList, []),
       ("e.writeEncoder(nested, %d);".toList, [.d f.fd.number]),
       ("return".toList, []),
       ("\x7d".toList, [])]
  else
    w.emit
      [("case %d:".toList, [.d f.fd.number]),
       ("e.writeTag(".toList ++ itoa f.fd.number ++ ", ".toList
          ++ itoa (writeWireType f.fd.GetType) ++ ");".toList, []),
       ("e.".toList ++ (writeMethod f.fd.GetType).getD [] ++ "((oo as ".toList
          ++ f.varName ++ ").value);".toList, []),
       ("return;".toList, [])]

/-- The resolver `m2` has the current file of `m` and its reference table
begins with the table of `m`. -/
def Grows (m m2 : moduleResolver) : Prop :=
  m2.currentFile = m.currentFile ∧ ∃ extra, m2.references = m.references ++ extra

/-- The text of `w2` begins with the text of `w`: `w2` is `w` after more has
been written. -/
def Extends (w w2 : writer) : Prop := ∃ t, w2.w = w.w ++ t

/-- The line that `p` appends to the text of `w`: the indentation, the
formatted text and the end of the line. -/
def writer.line (w : writer) (format : Str) (a : List Arg) : Str :=
  let i := if HasPrefix format "\x7d".toList then w.i - 1 else w.i
  Sprintf (Repeat "  ".toList (if i < 0 then 0 else i).toNat ++ format) a ++ "\n".toList

/-- Whether `c` may stand in an identifier: a letter, a digit or the
underscore. -/
def identChar (c : Char) : Bool := c.isAlphanum || c == '_'

/-! ## Example requests -/

/-- A file `name` of package `pkg` with the syntax marker `syn` and the messages
`msgs`; no enums, no services. -/
def exFile (name pkg syn : Str) (msgs : List DescriptorProto) : FileDescriptorProto :=
  { name := name, package := pkg, messageType := msgs, enumType := [], service := [], syn := syn }

/-- A message `name` with the fields `fields`; no nested types, enums or oneofs. -/
def exMessage (name : Str) (fields : List FieldDescriptorProto) : DescriptorProto :=
  { name := name, field := fields, nestedType := [], enumType := [], oneofDecl := [],
    mapEntry := false }

/-- A field that is not a oneof member. -/
def exField (name : Str) (number : Int) (label : FieldDescriptorProto_Label)
    (type : FieldDescriptorProto_Type) (typeName : Str) : FieldDescriptorProto :=
  { name := name, number := number, label := some label, type := some type,
    typeName := typeName, oneofIndex := none }

/-- Two schema files, of which the first is to be generated. -/
def exNamesReq : CodeGeneratorRequest :=
  { fileToGenerate := ["a/b.proto".toList]
    parameter := "plugin=grpc".toList
    protoFile := [exFile "a/b.proto".toList "pa".toList "proto3".toList [],
                  exFile "c.proto".toList "pc".toList "proto3".toList []] }

/-- The response to `exNamesReq`. -/
def exNamesResp : CodeGeneratorResponse :=
  { file := [{ name := "a/b_pb.ts".toList
               content := ("// Generated by the protocol buffer compiler.  DO NOT EDIT!\n" ++
                 "// Source: a/b.proto\n\n" ++
                 "import * as __pb__ from 'protobuf'\n\n\n").toList }] }

/-- A `proto2` file `p.proto`. -/
def exProto2P : FileDescriptorProto := exFile "p.proto".toList [] "proto2".toList []

/-- A `proto2` file `q.proto`. -/
def exProto2Q : FileDescriptorProto := exFile "q.proto".toList [] "proto2".toList []

/-- Two `proto2` files, both to be generated. -/
def exSyntaxReq : CodeGeneratorRequest :=
  { fileToGenerate := ["p.proto".toList, "q.proto".toList]
    parameter := "plugin=grpc".toList
    protoFile := [exProto2P, exProto2Q] }

/-- The file `a.proto`, whose message `M` has a field of the type `.pb.Y`. -/
def exOrderA : FileDescriptorProto :=
  exFile "a.proto".toList "pa".toList "proto3".toList
    [exMessage "M".toList [exField "y".toList 1 LABEL_OPTIONAL TYPE_MESSAGE ".pb.Y".toList]]

/-- The file `b.proto`, which declares the message `.pb.Y`. -/
def exOrderB : FileDescriptorProto :=
  exFile "b.proto".toList "pb".toList "proto3".toList [exMessage "Y".toList []]

/-- The file `a.proto` is to be generated and comes first in the list; the file
`b.proto` of the type it refers to comes second. -/
def exOrderReq : CodeGeneratorRequest :=
  { fileToGenerate := ["a.proto".toList]
    parameter := "plugin=grpc".toList
    protoFile := [exOrderA, exOrderB] }

/-- The namespace after `a.proto` and `b.proto` have been parsed. -/
def exOrderNs : Namespace := (NewEmptyNamespace.Parse exOrderB).Parse exOrderA

/-- The file `b.proto` with the message `.pb.Y`. -/
def exImportsB : FileDescriptorProto :=
  exFile "b.proto".toList "pb".toList "proto3".toList [exMessage "Y".toList []]

/-- The file `c.proto` with the message `.pc.Z`. -/
def exImportsC : FileDescriptorProto :=
  exFile "c.proto".toList "pc".toList "proto3".toList [exMessage "Z".toList []]

/-- The file `a.proto`, whose message `M` refers to `.pb.Y` and to `.pc.Z`. -/
def exImportsA : FileDescriptorProto :=
  exFile "a.proto".toList "pa".toList "proto3".toList
    [exMessage "M".toList
      [exField "y".toList 1 LABEL_OPTIONAL TYPE_MESSAGE ".pb.Y".toList,
       exField "z".toList 2 LABEL_OPTIONAL TYPE_MESSAGE ".pc.Z".toList]]

/-- The file `a.proto` is to be generated; it refers to types of the two files
listed before it. -/
def exImportsReq : CodeGeneratorRequest :=
  { fileToGenerate := ["a.proto".toList]
    parameter := "plugin=grpc".toList
    protoFile := [exImportsB, exImportsC, exImportsA] }

/-- The file `m.proto` with the message `M` and its one field
`repeated int64 xs = 1`. -/
def exLongFile : FileDescriptorProto :=
  exFile "m.proto".toList [] "proto3".toList
    [exMessage "M".toList [exField "xs".toList 1 LABEL_REPEATED TYPE_INT64 []]]

/-- The file `m.proto` is to be generated. -/
def exLongReq : CodeGeneratorRequest :=
  { fileToGenerate := ["m.proto".toList]
    parameter := "plugin=grpc".toList
    protoFile := [exLongFile] }

/-- The wrapped field `repeated int32 xs = 1`. -/
def exPackedField : field :=
  { fd := exField "xs".toList 1 LABEL_REPEATED TYPE_INT32 []
    typeTsName := [], typeDescriptor := none, typeNs := none, typeEnumDefault := []
    isMap := false, oneof := none, typeFqProtoName := [] }

/-- The file `r.proto` with the message `R` and its one field
`repeated int32 xs = 1`. -/
def exPackedFile : FileDescriptorProto :=
  exFile "r.proto".toList [] "proto3".toList
    [exMessage "R".toList [exField "xs".toList 1 LABEL_REPEATED TYPE_INT32 []]]

/-- The file `r.proto` is to be generated. -/
def exPackedReq : CodeGeneratorRequest :=
  { fileToGenerate := ["r.proto".toList]
    parameter := "plugin=grpc".toList
    protoFile := [exPackedFile] }

/-- The namespace under which `a.proto` of `exImportsReq` is emitted. -/
def exImportsNs : Namespace :=
  ((NewEmptyNamespace.Parse exImportsB).Parse exImportsC).Parse exImportsA

/-- The result of `writeFile` for `a.proto` of `exImportsReq`. -/
def exImportsOut : Str × writer :=
  match writeFile MapOrder.insertion { w := [], i := 0 } exImportsA exImportsNs
      { alias_ := "__pb__".toList, path := "protobuf".toList } true with
  | .ok r => r
  | .error _ => ([], { w := [], i := 0 })

/-- The contents of the files of a response; none when the run panicked. -/
def contents (r : Except Panic CodeGeneratorResponse) : List Str :=
  match r with
  | .ok resp => resp.file.map fun f => f.content
  | .error _ => []

/-- The file `a/x.proto`. -/
def exPathCur : FileDescriptorProto := exFile "a/x.proto".toList [] "proto3".toList []

/-- The file `a/y.proto`. -/
def exPathTgt : FileDescriptorProto := exFile "a/y.proto".toList [] "proto3".toList []

/-- The file `../x.proto`, whose name is a clean relative path. -/
def exUpCur : FileDescriptorProto := exFile "../x.proto".toList [] "proto3".toList []

/-- The file `y.proto`. -/
def exUpTgt : FileDescriptorProto := exFile "y.proto".toList [] "proto3".toList []

/-- The wrapped field `Child child = 2` of the oneof `choice` of a message `M`. -/
def exMemberField : field :=
  { fd := { name := "child".toList, number := 2, label := some LABEL_OPTIONAL,
            type := some TYPE_MESSAGE, typeName := ".Child".toList, oneofIndex := some 0 }
    typeTsName := "Child".toList, typeDescriptor := none, typeNs := none, typeEnumDefault := []
    isMap := false
    oneof := some { odp := { name := "choice".toList }, fqNamespace := "M.choice".toList,
                    typeName := "oneof_type".toList }
    typeFqProtoName := ".Child".toList }

/-- The entry message of the field `map<string, int32> attrs = 1`. -/
def exMapEntry : DescriptorProto :=
  { name := "AttrsEntry".toList
    field := [exField "key".toList 1 LABEL_OPTIONAL TYPE_STRING [],
              exField "value".toList 2 LABEL_OPTIONAL TYPE_INT32 []]
    nestedType := [], enumType := [], oneofDecl := [], mapEntry := true }

/-- The field `map<string, int32> attrs = 1` of the message `M`. -/
def exMapFd : FieldDescriptorProto :=
  exField "attrs".toList 1 LABEL_REPEATED TYPE_MESSAGE ".M.AttrsEntry".toList

/-- The file `m.proto` with the message `M` and its field `attrs`. -/
def exMapFile : FileDescriptorProto :=
  exFile "m.proto".toList [] "proto3".toList
    [{ name := "M".toList, field := [exMapFd], nestedType := [exMapEntry], enumType := [],
       oneofDecl := [], mapEntry := false }]

/-- The namespace after `m.proto` has been parsed. -/
def exMapNs : Namespace := NewEmptyNamespace.Parse exMapFile

/-- The field `attrs` as `newField` wraps it. -/
def exMapField : field :=
  { fd := exMapFd, typeTsName := "AttrsEntry".toList
    typeDescriptor := some (.message exMapEntry), typeNs := some exMapNs, typeEnumDefault := []
    isMap := true, oneof := none, typeFqProtoName := ".M.AttrsEntry".toList }

/-- The file `s.proto` of package `pkg` with the service `Greeter`: the unary
method `Hello` and the server-streaming method `Watch`. -/
def exSvcFile : FileDescriptorProto :=
  { name := "s.proto".toList, package := "pkg".toList
    messageType := [exMessage "Req".toList [], exMessage "Resp".toList []]
    enumType := []
    service :=
      [{ name := "Greeter".toList
         method :=
           [{ name := "Hello".toList, inputType := ".pkg.Req".toList,
              outputType := ".pkg.Resp".toList, clientStreaming := false,
              serverStreaming := false },
            { name := "Watch".toList, inputType := ".pkg.Req".toList,
              outputType := ".pkg.Resp".toList, clientStreaming := false,
              serverStreaming := true }] }]
    syn := "proto3".toList }

/-- The file `s.proto` is to be generated, with services. -/
def exSvcReq : CodeGeneratorRequest :=
  { fileToGenerate := ["s.proto".toList]
    parameter := "plugin=grpc".toList
    protoFile := [exSvcFile] }

/-- The namespace after `s.proto` has been parsed. -/
def exSvcNs : Namespace := NewEmptyNamespace.Parse exSvcFile

/-- The result of `writeFile` for `s.proto` with services. -/
def exSvcOut : Str × writer :=
  match writeFile MapOrder.insertion { w := [], i := 0 } exSvcFile exSvcNs
      { alias_ := "__pb__".toList, path := "protobuf".toList } true with
  | .ok r => r
  | .error _ => ([], { w := [], i := 0 })

/-- The message `M` with the oneof `choice` of the members `int32 a = 1` and
`Child b = 2`, and the field `string s = 3` outside the oneof. -/
def exOneofMsg : DescriptorProto :=
  { name := "M".toList
    field :=
      [{ name := "a".toList, number := 1, label := some LABEL_OPTIONAL, type := some TYPE_INT32,
         typeName := [], oneofIndex := some 0 },
       { name := "b".toList, number := 2, label := some LABEL_OPTIONAL,
         type := some TYPE_MESSAGE, typeName := ".Child".toList, oneofIndex := some 0 },
       exField "s".toList 3 LABEL_OPTIONAL TYPE_STRING []]
    nestedType := [], enumType := [], oneofDecl := [{ name := "choice".toList }]
    mapEntry := false }

/-- The file `o.proto` with the messages `Child` and `M`. -/
def exOneofFile : FileDescriptorProto :=
  exFile "o.proto".toList [] "proto3".toList [exMessage "Child".toList [], exOneofMsg]

/-- The namespace after `o.proto` has been parsed. -/
def exOneofNs : Namespace := NewEmptyNamespace.Parse exOneofFile

/-- The result of `writeDescriptor` for the message `M` of `o.proto`. -/
def exOneofOut : writer × moduleResolver :=
  match writeDescriptor { w := [], i := 0 } exOneofNs
      { currentFile := exOneofFile, references := [] }
      { alias_ := "__pb__".toList, path := "protobuf".toList } [] exOneofMsg with
  | .ok r => r
  | .error _ => ({ w := [], i := 0 }, { currentFile := exOneofFile, references := [] })

/-- The fields of the message `M` of `o.proto` as `newField` wraps them. -/
def exOneofFields : List field :=
  match wrapFields exOneofMsg.field exOneofNs { currentFile := exOneofFile, references := [] } with
  | .ok r => r.1
  | .error _ => []

/-- The oneof `choice` of the message `M` as `writeDescriptor` wraps it. -/
def exOneof : oneof :=
  { odp := { name := "choice".toList }
    fields := exOneofFields.filter fun f => f.isOneofMember && f.fd.GetOneofIndex = 0
    fqNamespace := "M.choice".toList
    typeName := "oneof_type".toList }

/-- The result of `writeOneof` for the oneof `choice`. -/
def exOneofText : writer × moduleResolver :=
  match writeOneof { w := [], i := 0 } exOneof
      { alias_ := "__pb__".toList, path := "protobuf".toList } ([] ++ ["M".toList])
      { currentFile := exOneofFile, references := [] } with
  | .ok r => r
  | .error _ => ({ w := [], i := 0 }, { currentFile := exOneofFile, references := [] })

/-- The empty writer with which the examples for `o.proto` start. -/
def exOneofStart : writer := { w := [], i := 0 }

/-- The resolver of `o.proto` before any type has been resolved. -/
def exOneofResolver : moduleResolver := { currentFile := exOneofFile, references := [] }

/-- The runtime library as the examples for `o.proto` refer to it. -/
def exOneofLib : modRef := { alias_ := "__pb__".toList, path := "protobuf".toList }

/-- The file `m.proto` of `exLongReq` is to be generated, and no option is
given: the parameter of the request is the empty string. -/
def exNoOptionReq : CodeGeneratorRequest :=
  { fileToGenerate := ["m.proto".toList]
    parameter := []
    protoFile := [exLongFile] }

/-- The file `s.proto` of package `ps`: no messages, and the service `Feed`
whose one method `Watch` takes `.pb.Y` of `b.proto` and returns a stream of
`.pb.Y`. -/
def exStreamFile : FileDescriptorProto :=
  { name := "s.proto".toList, package := "ps".toList
    messageType := []
    enumType := []
    service :=
      [{ name := "Feed".toList
         method :=
           [{ name := "Watch".toList, inputType := ".pb.Y".toList,
              outputType := ".pb.Y".toList, clientStreaming := false,
              serverStreaming := true }] }]
    syn := "proto3".toList }

/-- The file `s.proto` is to be generated, with services; `b.proto`, which
declares `.pb.Y`, is listed before it. -/
def exStreamReq : CodeGeneratorRequest :=
  { fileToGenerate := ["s.proto".toList]
    parameter := "plugin=grpc".toList
    protoFile := [exImportsB, exStreamFile] }

/-- The namespace under which `s.proto` of `exStreamReq` is emitted. -/
def exStreamNs : Namespace := (NewEmptyNamespace.Parse exImportsB).Parse exStreamFile

/-- The result of `writeFile` for `s.proto` of `exStreamReq`: the import block
and the writer. -/
def exStreamOut : Str × writer :=
  match writeFile MapOrder.insertion { w := [], i := 0 } exStreamFile exStreamNs
      { alias_ := "__pb__".toList, path := "protobuf".toList } true with
  | .ok r => r
  | .error _ => ([], { w := [], i := 0 })

/-- The file `a/b.proto` with the message `.Y`. -/
def exAliasB : FileDescriptorProto :=
  exFile "a/b.proto".toList [] "proto3".toList [exMessage "Y".toList []]

/-- The file `a_b.proto` with the message `.Z`. -/
def exAliasC : FileDescriptorProto :=
  exFile "a_b.proto".toList [] "proto3".toList [exMessage "Z".toList []]

/-- The file `m.proto`, whose message `M` refers to `.Y` of `a/b.proto` and to
`.Z` of `a_b.proto`. -/
def exAliasM : FileDescriptorProto :=
  exFile "m.proto".toList [] "proto3".toList
    [exMessage "M".toList
      [exField "y".toList 1 LABEL_OPTIONAL TYPE_MESSAGE ".Y".toList,
       exField "z".toList 2 LABEL_OPTIONAL TYPE_MESSAGE ".Z".toList]]

/-- The file `m.proto` is to be generated; the two files it refers to are
listed before it. -/
def exAliasReq : CodeGeneratorRequest :=
  { fileToGenerate := ["m.proto".toList]
    parameter := "library_import=protobuf".toList
    protoFile := [exAliasB, exAliasC, exAliasM] }

/-- The file `b/y.proto` with the message `.Y`. -/
def exDotsY : FileDescriptorProto :=
  exFile "b/y.proto".toList [] "proto3".toList [exMessage "Y".toList []]

/-- The file `a/x.proto`, whose message `X` refers to `.Y` of `b/y.proto`. -/
def exDotsX : FileDescriptorProto :=
  exFile "a/x.proto".toList [] "proto3".toList
    [exMessage "X".toList [exField "y".toList 1 LABEL_OPTIONAL TYPE_MESSAGE ".Y".toList]]

/-- The file `a/x.proto` is to be generated; `b/y.proto` is listed before it. -/
def exDotsReq : CodeGeneratorRequest :=
  { fileToGenerate := ["a/x.proto".toList]
    parameter := "library_import=protobuf".toList
    protoFile := [exDotsY, exDotsX] }

/-- The message `T` with two oneofs: `first` with the member `int32 a = 1`, and
`second` with the members `string b = 2` and `Child c = 3`. -/
def exTwoMsg : DescriptorProto :=
  { name := "T".toList
    field :=
      [{ name := "a".toList, number := 1, label := some LABEL_OPTIONAL, type := some TYPE_INT32,
         typeName := [], oneofIndex := some 0 },
       { name := "b".toList, number := 2, label := some LABEL_OPTIONAL, type := some TYPE_STRING,
         typeName := [], oneofIndex := some 1 },
       { name := "c".toList, number := 3, label := some LABEL_OPTIONAL,
         type := some TYPE_MESSAGE, typeName := ".Child".toList, oneofIndex := some 1 }]
    nestedType := [], enumType := []
    oneofDecl := [{ name := "first".toList }, { name := "second".toList }]
    mapEntry := false }

/-- The file `t.proto` with the messages `Child` and `T`. -/
def exTwoFile : FileDescriptorProto :=
  exFile "t.proto".toList [] "proto3".toList [exMessage "Child".toList [], exTwoMsg]

/-- The namespace after `t.proto` has been parsed. -/
def exTwoNs : Namespace := NewEmptyNamespace.Parse exTwoFile

/-- The resolver of `t.proto` before any type has been resolved. -/
def exTwoResolver : moduleResolver := { currentFile := exTwoFile, references := [] }

/-- The result of `writeDescriptor` for the message `T` of `t.proto`. -/
def exTwoOut : writer × moduleResolver :=
  match writeDescriptor exOneofStart exTwoNs exTwoResolver exOneofLib [] exTwoMsg with
  | .ok r => r
  | .error _ => (exOneofStart, exTwoResolver)

/-! # Properties -/

/-! ## Strings -/

theorem Contains_iff (s sub : Str) : Contains s sub = true ↔ sub <:+: s := by
  induction s with
  | nil => simp [Contains, List.isEmpty_iff]
  | cons c cs ih => simp [Contains, ih, List.infix_cons_iff]

theorem Contains_append_right (a b : Str) : Contains (a ++ b) b = true :=
  (Contains_iff _ _).2 ⟨a, [], by simp⟩

theorem Contains_append_mid (a b c : Str) : Contains (a ++ b ++ c) b = true :=
  (Contains_iff _ _).2 ⟨a, c, rfl⟩

theorem extGo_suffix (r acc : Str) : ∃ pre, r.reverse ++ acc = pre ++ extGo r acc := by
  induction r generalizing acc with
  | nil => exact ⟨acc, by simp [extGo]⟩
  | cons c cs ih =>
    rw [extGo]
    split
    · exact ⟨(c :: cs).reverse ++ acc, by simp⟩
    · split
      · next h => exact ⟨cs.reverse, by simp [h]⟩
      · obtain ⟨pre, hpre⟩ := ih (c :: acc)
        exact ⟨pre, by rw [← hpre]; simp⟩

theorem TrimSuffix_append (pre suf : Str) : TrimSuffix (pre ++ suf) suf = pre := by
  have h : HasSuffix (pre ++ suf) suf = true := by
    unfold HasSuffix
    rw [List.reverse_append, List.isPrefixOf_iff_prefix]
    exact List.prefix_append _ _
  simp [TrimSuffix, h]

/-- The extension that `tsFileName` removes is a suffix of the name: the name
is the trimmed name followed by the extension. -/
theorem TrimSuffix_Ext (path : Str) : TrimSuffix path (Ext path) ++ Ext path = path := by
  obtain ⟨pre, hpre⟩ := extGo_suffix path.reverse []
  have h : path = pre ++ Ext path := by simpa [Ext] using hpre
  generalize Ext path = ext at h
  subst h
  rw [TrimSuffix_append]

/-! ## Option parsing -/

theorem genOptions_cases (params : List Str) (st : Bool × Str) :
    ((∀ p ∈ params, recognized p) ∧ ∃ o, genOptions params st = .ok o) ∨
    ∃ p ∈ params, ¬ recognized p ∧ genOptions params st = .error (.unknownOption p) := by
  induction params generalizing st with
  | nil => left; exact ⟨by simp, st, rfl⟩
  | cons p ps ih =>
    obtain ⟨g, l⟩ := st
    by_cases h1 : p = "plugin=grpc".toList
    · rcases ih (true, l) with ⟨hall, o, ho⟩ | ⟨q, hq, hnr, he⟩
      · left; refine ⟨?_, o, ?_⟩
        · intro x hx; rcases List.mem_cons.1 hx with rfl | hx
          · exact Or.inl h1
          · exact hall x hx
        · rw [genOptions, if_pos h1]; exact ho
      · right; refine ⟨q, List.mem_cons_of_mem _ hq, hnr, ?_⟩
        rw [genOptions, if_pos h1]; exact he
    · by_cases h2 : HasPrefix p "library_import=".toList = true
      · rcases ih (g, TrimPrefix p "library_import=".toList) with ⟨hall, o, ho⟩ | ⟨q, hq, hnr, he⟩
        · left; refine ⟨?_, o, ?_⟩
          · intro x hx; rcases List.mem_cons.1 hx with rfl | hx
            · exact Or.inr h2
            · exact hall x hx
          · rw [genOptions, if_neg h1, if_pos h2]; exact ho
        · right; refine ⟨q, List.mem_cons_of_mem _ hq, hnr, ?_⟩
          rw [genOptions, if_neg h1, if_pos h2]; exact he
      · right; refine ⟨p, List.mem_cons_self _ _, ?_, ?_⟩
        · rintro (h | h)
          · exact h1 h
          · exact h2 h
        · rw [genOptions, if_neg h1, if_neg h2]

/-- A panic of `writeFile` is its syntax panic, for a file that is not
`proto3`, or else a namespace or code generation panic of a `proto3` file. -/
theorem writeFile_error {ord : MapOrder} {w : writer} {fdp : FileDescriptorProto}
    {rootNs : Namespace} {libMod : modRef} {gs : Bool} {e : Panic}
    (h : writeFile ord w fdp rootNs libMod gs = .error e) :
    (e = .unsupportedSyntax fdp.syn fdp.name ∧ fdp.syn ≠ "proto3".toList) ∨
      (fdp.syn = "proto3".toList ∧ (e = .noNamespace fdp.package ∨ ∃ c, e = .codegen c)) := by
  unfold writeFile at h
  split at h
  · next hs => left; exact ⟨by cases h; rfl, hs⟩
  · next hs =>
    right
    refine ⟨not_not.1 hs, ?_⟩
    split at h
    · left; cases h; rfl
    · split at h
      · right; cases h; exact ⟨_, rfl⟩
      · cases h

theorem genFile_error {ord : MapOrder} {fdp : FileDescriptorProto}
    {rootns : Namespace} {gs : Bool} {lib : Str} {e : Panic}
    (h : genFile ord fdp rootns gs lib = .error e) :
    writeFile ord { w := [], i := 0 } fdp rootns { alias_ := "__pb__".toList, path := lib } gs
      = .error e := by
  unfold genFile at h
  simp only at h
  split at h
  · next e2 he => cases h; exact he
  · cases h

theorem genFiles_error {ord : MapOrder} {tg : List Str} {gs : Bool} {lib : Str}
    (files : List FileDescriptorProto) {ns : Namespace} {resp : CodeGeneratorResponse} {e : Panic}
    (h : genFiles ord tg gs lib files ns resp = .error e) :
    ∃ fdp ∈ files, fdp.name ∈ tg ∧ ∃ rootns,
      genFile ord fdp rootns gs lib = .error e := by
  induction files generalizing ns resp with
  | nil => simp [genFiles] at h
  | cons f rest ih =>
    rw [genFiles] at h
    split at h
    · obtain ⟨g, hg, hr⟩ := ih h
      exact ⟨g, List.mem_cons_of_mem _ hg, hr⟩
    · next hmem =>
      split at h
      · next e2 he =>
        cases h
        exact ⟨f, List.mem_cons_self _ _, not_not.1 hmem, _, he⟩
      · obtain ⟨g, hg, hr⟩ := ih h
        exact ⟨g, List.mem_cons_of_mem _ hg, hr⟩

theorem gen_of_options_error {ord : MapOrder} {req : CodeGeneratorRequest} {e : Panic}
    (h : genOptions (Split req.parameter ',') (false, "protobuf".toList) = .error e) :
    gen ord req = .error e := by
  unfold gen
  simp only [h]

theorem gen_of_options_ok {ord : MapOrder} {req : CodeGeneratorRequest} {o : Bool × Str}
    (h : genOptions (Split req.parameter ',') (false, "protobuf".toList) = .ok o) :
    gen ord req =
      genFiles ord req.fileToGenerate o.1 o.2 req.protoFile NewEmptyNamespace { file := [] } := by
  unfold gen
  simp only [h]

theorem genFiles_not_unknownOption {ord : MapOrder} {tg : List Str} {gs : Bool} {lib : Str}
    {files : List FileDescriptorProto} {ns : Namespace} {resp : CodeGeneratorResponse} {p : Str} :
    genFiles ord tg gs lib files ns resp ≠ .error (.unknownOption p) := by
  intro h
  obtain ⟨f, _, _, rootns, hf⟩ := genFiles_error files h
  rcases writeFile_error (genFile_error hf) with ⟨he, _⟩ | ⟨_, he | ⟨c, he⟩⟩ <;> cases he

/-- C1: `gen` panics with `unknown compiler option` exactly when an item of the
comma-separated option string is neither `plugin=grpc` nor begins with
`library_import=`; the message of that panic is `unknown compiler option: `
followed by such an item, which it therefore contains; and when every item is
recognised the option loop ends without a panic. -/
theorem gen_unknown_option_iff (ord : MapOrder) (req : CodeGeneratorRequest) :
    ((∃ p, gen ord req = .error (.unknownOption p)) ↔
        ∃ item ∈ Split req.parameter ',', ¬ recognized item) ∧
    (∀ p, gen ord req = .error (.unknownOption p) →
        p ∈ Split req.parameter ',' ∧ ¬ recognized p ∧
        (Panic.unknownOption p).message = "unknown compiler option: ".toList ++ p ∧
        Contains (Panic.unknownOption p).message p = true) ∧
    ((∀ item ∈ Split req.parameter ',', recognized item) →
        ∃ o, genOptions (Split req.parameter ',') (false, "protobuf".toList) = .ok o) := by
  have key : ∀ p, gen ord req = .error (.unknownOption p) →
      p ∈ Split req.parameter ',' ∧ ¬ recognized p := by
    intro p hp
    rcases genOptions_cases (Split req.parameter ',') (false, "protobuf".toList) with
      ⟨_, o, ho⟩ | ⟨q, hq, hnr, he⟩
    · rw [gen_of_options_ok ho] at hp
      exact absurd hp genFiles_not_unknownOption
    · rw [gen_of_options_error he] at hp
      cases hp
      exact ⟨hq, hnr⟩
  refine ⟨⟨?_, ?_⟩, ?_, ?_⟩
  · rintro ⟨p, hp⟩
    exact ⟨p, (key p hp).1, (key p hp).2⟩
  · rintro ⟨item, hitem, hnr⟩
    rcases genOptions_cases (Split req.parameter ',') (false, "protobuf".toList) with
      ⟨hall, _⟩ | ⟨q, _, _, he⟩
    · exact absurd (hall item hitem) hnr
    · exact ⟨q, gen_of_options_error he⟩
  · intro p hp
    exact ⟨(key p hp).1, (key p hp).2, rfl, Contains_append_right _ _⟩
  · intro hall
    rcases genOptions_cases (Split req.parameter ',') (false, "protobuf".toList) with
      ⟨_, o, ho⟩ | ⟨q, hq, hnr, _⟩
    · exact ⟨o, ho⟩
    · exact absurd (hall q hq) hnr

/-! ## Output files -/

theorem genFile_ok_name {ord : MapOrder} {fdp : FileDescriptorProto} {rootns : Namespace}
    {gs : Bool} {lib : Str} {f : CodeGeneratorResponse_File}
    (h : genFile ord fdp rootns gs lib = .ok f) : f.name = tsFileName fdp ++ ".ts".toList := by
  unfold genFile at h
  simp only at h
  split at h
  · cases h
  · cases h; rfl

theorem genFiles_ok_names {ord : MapOrder} {tg : List Str} {gs : Bool} {lib : Str}
    (files : List FileDescriptorProto) {ns : Namespace} {resp r : CodeGeneratorResponse}
    (h : genFiles ord tg gs lib files ns resp = .ok r) :
    r.file.map (fun f => f.name) = resp.file.map (fun f => f.name) ++
      (files.filter fun f => decide (f.name ∈ tg)).map fun f => tsFileName f ++ ".ts".toList := by
  induction files generalizing ns resp with
  | nil => simp [genFiles] at h; simp [h]
  | cons f rest ih =>
    rw [genFiles] at h
    split at h
    · next hmem => rw [ih h]; simp [List.filter_cons, hmem]
    · next hmem =>
      split at h
      · cases h
      · next g hg =>
        rw [ih h]
        simp [List.filter_cons, not_not.1 hmem, genFile_ok_name hg]

/-- C2: when `gen` does not panic, the names of the files of the response are,
in the order of the schema-file list, the names of the entries of that list
whose name is in the to-generate set, each with its final extension removed
and `_pb.ts` appended (one output file per such entry); the removed extension
is a suffix of the name. -/
theorem gen_output_files (ord : MapOrder) (req : CodeGeneratorRequest)
    (resp : CodeGeneratorResponse) (h : gen ord req = .ok resp) :
    resp.file.map (fun f => f.name) =
      (req.protoFile.filter fun f => decide (f.name ∈ req.fileToGenerate)).map
        (fun f => TrimSuffix f.name (Ext f.name) ++ "_pb.ts".toList) ∧
    ∀ f ∈ req.protoFile, TrimSuffix f.name (Ext f.name) ++ Ext f.name = f.name := by
  refine ⟨?_, fun f _ => TrimSuffix_Ext f.name⟩
  rcases genOptions_cases (Split req.parameter ',') (false, "protobuf".toList) with
    ⟨_, o, ho⟩ | ⟨q, _, _, he⟩
  · rw [gen_of_options_ok ho] at h
    rw [genFiles_ok_names _ h]
    simp [tsFileName]
  · rw [gen_of_options_error he] at h
    cases h

/-- C2 at `exNamesReq`: of the files `a/b.proto` and `c.proto` only the first
is to be generated, and the response holds the one file `a/b_pb.ts`. -/
theorem gen_output_files_witness :
    gen MapOrder.insertion exNamesReq = .ok exNamesResp ∧
      exNamesResp.file.map (fun f => f.name) = ["a/b_pb.ts".toList] :=
  have h : gen MapOrder.insertion exNamesReq = .ok exNamesResp := by decide!
  ⟨h, (gen_output_files MapOrder.insertion exNamesReq exNamesResp h).1.trans (by decide!)⟩

/-! ## Syntax check -/

theorem genFiles_append {ord : MapOrder} {tg : List Str} {gs : Bool} {lib : Str}
    (pre post : List FileDescriptorProto) (ns : Namespace) (resp : CodeGeneratorResponse) :
    genFiles ord tg gs lib (pre ++ post) ns resp =
      match genFiles ord tg gs lib pre ns resp with
      | .error e => .error e
      | .ok r => genFiles ord tg gs lib post (pre.foldl Namespace.Parse ns) r := by
  induction pre generalizing ns resp with
  | nil => simp [genFiles]
  | cons f rest ih =>
    rw [List.cons_append, genFiles, genFiles]
    split
    · rw [ih]; rfl
    · split
      · rfl
      · rw [ih]; rfl

theorem writeFile_syntax_panic {ord : MapOrder} {w : writer} {fdp : FileDescriptorProto}
    {rootNs : Namespace} {libMod : modRef} {gs : Bool} (h : fdp.syn ≠ "proto3".toList) :
    writeFile ord w fdp rootNs libMod gs = .error (.unsupportedSyntax fdp.syn fdp.name) := by
  unfold writeFile
  rw [if_pos h]

theorem genFiles_syntax_panic {ord : MapOrder} {tg : List Str} {gs : Bool} {lib : Str}
    (f : FileDescriptorProto) (post : List FileDescriptorProto) (ns : Namespace)
    (resp : CodeGeneratorResponse) (hgen : f.name ∈ tg) (hsyn : f.syn ≠ "proto3".toList) :
    genFiles ord tg gs lib (f :: post) ns resp = .error (.unsupportedSyntax f.syn f.name) := by
  rw [genFiles, if_neg (not_not.2 hgen)]
  simp only [genFile, writeFile_syntax_panic hsyn]

theorem unsupportedSyntax_message (syn name : Str) :
    (Panic.unsupportedSyntax syn name).message =
      "unsupported syntax: ".toList ++ syn ++ " in file ".toList ++ name := by
  simp [Panic.message, Sprintf, Arg.text]

/-- C3, as amended: a file to generate whose syntax marker is not exactly
`proto3` makes `gen` panic, so that there is no response; when the options are
accepted and the files listed before it pass the loop without a panic, the
panic is the syntax panic of that file, with the message
`unsupported syntax: <syntax> in file <name>`, which contains both the syntax
value and the name of the file; and a syntax panic is only ever raised for a
file to generate whose syntax is not `proto3`. -/
theorem gen_syntax_panic (ord : MapOrder) (req : CodeGeneratorRequest) :
    (∀ f ∈ req.protoFile, f.name ∈ req.fileToGenerate → f.syn ≠ "proto3".toList →
        ∃ e, gen ord req = .error e) ∧
    (∀ (o : Bool × Str) (pre post : List FileDescriptorProto) (f : FileDescriptorProto)
        (r : CodeGeneratorResponse),
        genOptions (Split req.parameter ',') (false, "protobuf".toList) = .ok o →
        req.protoFile = pre ++ f :: post →
        genFiles ord req.fileToGenerate o.1 o.2 pre NewEmptyNamespace { file := [] } = .ok r →
        f.name ∈ req.fileToGenerate → f.syn ≠ "proto3".toList →
        gen ord req = .error (.unsupportedSyntax f.syn f.name) ∧
        (Panic.unsupportedSyntax f.syn f.name).message =
          "unsupported syntax: ".toList ++ f.syn ++ " in file ".toList ++ f.name ∧
        Contains (Panic.unsupportedSyntax f.syn f.name).message f.syn = true ∧
        Contains (Panic.unsupportedSyntax f.syn f.name).message f.name = true) ∧
    (∀ syn name, gen ord req = .error (.unsupportedSyntax syn name) →
        ∃ f ∈ req.protoFile, f.name ∈ req.fileToGenerate ∧ f.syn = syn ∧ f.name = name ∧
          f.syn ≠ "proto3".toList) := by
  refine ⟨?_, ?_, ?_⟩
  · intro f hf hgen hsyn
    rcases genOptions_cases (Split req.parameter ',') (false, "protobuf".toList) with
      ⟨_, o, ho⟩ | ⟨q, _, _, he⟩
    · obtain ⟨pre, post, hsplit⟩ := List.append_of_mem hf
      rw [gen_of_options_ok ho, hsplit, genFiles_append]
      split
      · exact ⟨_, rfl⟩
      · exact ⟨_, genFiles_syntax_panic f post _ _ hgen hsyn⟩
    · exact ⟨_, gen_of_options_error he⟩
  · intro o pre post f r ho hsplit hpre hgen hsyn
    refine ⟨?_, unsupportedSyntax_message _ _, ?_, ?_⟩
    · rw [gen_of_options_ok ho, hsplit, genFiles_append, hpre]
      exact genFiles_syntax_panic f post _ _ hgen hsyn
    · rw [unsupportedSyntax_message]
      exact (Contains_iff _ _).2 ⟨"unsupported syntax: ".toList, " in file ".toList ++ f.name,
        by simp⟩
    · rw [unsupportedSyntax_message]
      exact Contains_append_right _ _
  · intro syn name h
    rcases genOptions_cases (Split req.parameter ',') (false, "protobuf".toList) with
      ⟨_, o, ho⟩ | ⟨q, _, _, he⟩
    · rw [gen_of_options_ok ho] at h
      obtain ⟨f, hf, hgen, rootns, hfile⟩ := genFiles_error _ h
      rcases writeFile_error (genFile_error hfile) with ⟨he, hs⟩ | ⟨_, he | ⟨c, he⟩⟩
      · cases he
        exact ⟨f, hf, hgen, rfl, rfl, hs⟩
      · cases he
      · cases he
    · rw [gen_of_options_error he] at h
      cases h

/-- C3 as stated fails at `exSyntaxReq`: `q.proto` is to be generated and is
not `proto3`, but the run stops at `p.proto`, and the message of the panic does
not contain the name `q.proto`. -/
theorem gen_syntax_panic_counterexample :
    exProto2Q ∈ exSyntaxReq.protoFile ∧ exProto2Q.name ∈ exSyntaxReq.fileToGenerate ∧
      exProto2Q.syn ≠ "proto3".toList ∧
      gen MapOrder.insertion exSyntaxReq =
        .error (.unsupportedSyntax "proto2".toList "p.proto".toList) ∧
      Contains (Panic.unsupportedSyntax "proto2".toList "p.proto".toList).message
        exProto2Q.name = false :=
  ⟨List.mem_cons_of_mem _ (List.mem_cons_self _ _), by decide!, by decide!, by decide!,
    by decide!⟩

/-- C3, as amended, at `exSyntaxReq`: the options are accepted and no file
precedes `p.proto`, so the panic is the syntax panic of `p.proto`. -/
theorem gen_syntax_panic_witness :
    gen MapOrder.insertion exSyntaxReq =
        .error (.unsupportedSyntax "proto2".toList "p.proto".toList) ∧
      Contains (Panic.unsupportedSyntax "proto2".toList "p.proto".toList).message
        "p.proto".toList = true :=
  have h := (gen_syntax_panic MapOrder.insertion exSyntaxReq).2.1
    (true, "protobuf".toList) [] [exProto2Q] exProto2P { file := [] }
    (by decide!) rfl rfl (by decide!) (by decide!)
  ⟨h.1, h.2.2.2⟩

/-! ## Namespace and emission order -/

theorem emissions_append (tg : List Str) (pre post : List FileDescriptorProto) (ns : Namespace) :
    emissions tg (pre ++ post) ns =
      emissions tg pre ns ++ emissions tg post (pre.foldl Namespace.Parse ns) := by
  induction pre generalizing ns with
  | nil => simp [emissions]
  | cons f rest ih =>
    rw [List.cons_append, emissions, emissions]
    split
    · rw [ih]; rfl
    · rw [ih]; rfl

theorem genFiles_eq_emissions (ord : MapOrder) (tg : List Str) (gs : Bool) (lib : Str)
    (files : List FileDescriptorProto) (ns : Namespace) (resp : CodeGeneratorResponse) :
    genFiles ord tg gs lib files ns resp =
      (emissions tg files ns).foldlM
        (fun r e => (genFile ord e.1 e.2 gs lib).map fun f => { r with file := r.file ++ [f] })
        resp := by
  induction files generalizing ns resp with
  | nil => rfl
  | cons f rest ih =>
    rw [genFiles, emissions]
    split
    · exact ih _ _
    · rw [List.foldlM_cons]
      cases hg : genFile ord f (ns.Parse f) gs lib with
      | error e => rfl
      | ok g => exact ih _ _

/-- C4, as amended: `gen` parses and emits in one pass over the schema-file
list.  A run whose options are accepted is the sequence of its emissions, and
a file to generate is emitted under the namespace in which exactly the files
of the list up to and including that file have been registered by `Parse`;
every later emission is made under a namespace in which the files in between
have been registered as well. -/
theorem gen_emits_after_parse (ord : MapOrder) (req : CodeGeneratorRequest)
    (o : Bool × Str)
    (ho : genOptions (Split req.parameter ',') (false, "protobuf".toList) = .ok o) :
    gen ord req =
        (emissions req.fileToGenerate req.protoFile NewEmptyNamespace).foldlM
          (fun r e => (genFile ord e.1 e.2 o.1 o.2).map fun f => { r with file := r.file ++ [f] })
          { file := [] } ∧
      ∀ pre f post, req.protoFile = pre ++ f :: post → f.name ∈ req.fileToGenerate →
        emissions req.fileToGenerate req.protoFile NewEmptyNamespace =
          emissions req.fileToGenerate pre NewEmptyNamespace ++
            (f, (pre ++ [f]).foldl Namespace.Parse NewEmptyNamespace) ::
              emissions req.fileToGenerate post
                ((pre ++ [f]).foldl Namespace.Parse NewEmptyNamespace) := by
  refine ⟨?_, ?_⟩
  · rw [gen_of_options_ok ho, genFiles_eq_emissions]
  · intro pre f post hsplit hgen
    rw [hsplit, emissions_append, emissions, if_neg (not_not.2 hgen)]
    simp [List.foldl_append]

/-- C4 as stated fails at `exOrderReq`: `a.proto` is emitted under a namespace
in which the package of `b.proto`, the later file of the list, is not
registered, although it is registered once the whole list has been parsed; the
run stops with the reference of `a.proto` to `.pb.Y` unresolved. -/
theorem gen_namespace_counterexample :
    (emissions exOrderReq.fileToGenerate exOrderReq.protoFile NewEmptyNamespace).map
        (fun e => (e.1.name, (e.2.FindFullyQualifiedNamespace ".pb".toList).isSome)) =
        [("a.proto".toList, false)] ∧
      ((exOrderReq.protoFile.foldl Namespace.Parse NewEmptyNamespace).FindFullyQualifiedNamespace
        ".pb".toList).isSome = true ∧
      gen MapOrder.insertion exOrderReq = .error (.codegen (.unresolved ".pb.Y".toList)) :=
  ⟨by decide!, by decide!, by decide!⟩

/-- C4, as amended, at `exOrderReq`: the one emission, of `a.proto`, is made
under the namespace in which `a.proto` alone has been parsed. -/
theorem gen_emits_after_parse_witness :
    genOptions (Split exOrderReq.parameter ',') (false, "protobuf".toList)
        = .ok (true, "protobuf".toList) ∧
      emissions exOrderReq.fileToGenerate exOrderReq.protoFile NewEmptyNamespace =
        [(exOrderA, NewEmptyNamespace.Parse exOrderA)] :=
  have ho : genOptions (Split exOrderReq.parameter ',') (false, "protobuf".toList)
      = .ok (true, "protobuf".toList) := by decide!
  ⟨ho, (gen_emits_after_parse MapOrder.insertion exOrderReq _ ho).2
    [] exOrderA [exOrderB] rfl (by decide!)⟩

/-! ## Determinism -/

set_option maxRecDepth 100000 in
/-- C5 fails at `exImportsReq`: `a.proto` refers to types of `b.proto` and of
`c.proto`, and its two cross-file lines come in the one order in a run that
ranges over the reference table in the order of insertion, in the other order
in a run that ranges over it the other way round; the two runs on the same
request differ. -/
theorem gen_import_order_differs :
    (contents (gen MapOrder.insertion exImportsReq)).map (fun c => Contains c
        "import * as ___b_pb from './b_pb'\nimport * as ___c_pb from './c_pb'\n".toList)
      = [true] ∧
    (contents (gen MapOrder.reversed exImportsReq)).map (fun c => Contains c
        "import * as ___c_pb from './c_pb'\nimport * as ___b_pb from './b_pb'\n".toList)
      = [true] ∧
    gen MapOrder.insertion exImportsReq ≠ gen MapOrder.reversed exImportsReq :=
  ⟨by decide!, by decide!, by decide!⟩

/-! ## Conditional import of long -/

set_option maxRecDepth 100000 in
/-- C9 fails at `exLongReq`: the text generated for the message with the field
`repeated int64 xs = 1` declares the property `xs: __long[];`, and the line
that imports `__long` is not part of the file. -/
theorem gen_long_import_missing :
    (contents (gen MapOrder.insertion exLongReq)).map (fun c =>
        (Contains c "xs: __long[];".toList,
         Contains c "import * as __long from 'long'".toList))
      = [(true, false)] := by
  decide!

/-! ## Default elision -/

/-- C10 fails for the field `repeated int32 xs = 1`: the fragment that
`writeEncoder` emits writes the nested encoder under the field number after
the loop over the elements, not under a test; the `WriteTo` method generated
for a message with this one field consists of that fragment. -/
theorem writeEncoder_packed_unguarded :
    (exPackedField.writeEncoder { w := [], i := 0 }
        { alias_ := "__pb__".toList, path := "protobuf".toList } "e".toList false
        { currentFile := exPackedFile, references := [] }).map (fun r => r.1.w)
      = .ok ("\x7b\n" ++
          "  const packed = new __pb__.Internal.Encoder();\n" ++
          "  for (let elem of this.xs) \x7b\n" ++
          "    packed.writeNumberAsVarint(elem);\n" ++
          "  \x7d\n" ++
          "  e.writeEncoder(packed, 1);\n" ++
          "\x7d\n").toList ∧
    (contents (gen MapOrder.insertion exPackedReq)).map (fun c => Contains c
        ("  WriteTo(e: __pb__.Internal.Encoder): void \x7b\n" ++
         "    \x7b\n" ++
         "      const packed = new __pb__.Internal.Encoder();\n" ++
         "      for (let elem of this.xs) \x7b\n" ++
         "        packed.writeNumberAsVarint(elem);\n" ++
         "      \x7d\n" ++
         "      e.writeEncoder(packed, 1);\n" ++
         "    \x7d\n" ++
         "  \x7d\n").toList)
      = [true] :=
  ⟨by decide!, by decide!⟩

/-! ## No self-import -/

theorem ToRelativeModule_self {m : moduleResolver} {fdp : FileDescriptorProto}
    (h : fdp.name = m.currentFile.name) : m.ToRelativeModule fdp = (none, m) := by
  unfold moduleResolver.ToRelativeModule
  rw [if_pos h]

theorem ToRelativeModule_other {m : moduleResolver} {fdp : FileDescriptorProto}
    (h : fdp.name ≠ m.currentFile.name) : ∃ mod, (m.ToRelativeModule fdp).1 = some mod := by
  unfold moduleResolver.ToRelativeModule
  rw [if_neg h]
  split
  · exact ⟨_, rfl⟩
  · exact ⟨_, rfl⟩

/-- C6: `ToRelativeModule` returns no module reference exactly when the name of
the target is the name of the current file, and then the resolver, with its
reference table, is unchanged.  Hence the type name that `newField` gives a
field with a type is the bare name for a type of the current file, and
`<alias>.<name>` with the alias of the returned module reference for a type of
any other file; this is the type that `tsType` prints for a message, group or
enum field. -/
theorem ToRelativeModule_nil_iff (m : moduleResolver) (fdp : FileDescriptorProto) :
    ((m.ToRelativeModule fdp).1 = none ↔ fdp.name = m.currentFile.name) ∧
    (fdp.name = m.currentFile.name → (m.ToRelativeModule fdp).2 = m) ∧
    (∀ (fd : FieldDescriptorProto) (ns : Namespace) (f : field) (mr : moduleResolver),
        newField fd (some ns) m = .ok (f, mr) → fd.typeName ≠ [] →
        ∃ typeNs typeName i typeFdp,
          ns.FindFullyQualifiedName fd.typeName = .ok (typeNs, typeName, i, typeFdp) ∧
          (typeFdp.name = m.currentFile.name → f.typeTsName = typeName ∧ mr = m) ∧
          (typeFdp.name ≠ m.currentFile.name →
            ∃ mod, (m.ToRelativeModule typeFdp).1 = some mod ∧
              f.typeTsName = mod.alias_ ++ ".".toList ++ typeName) ∧
          (fd.type = some TYPE_MESSAGE ∨ fd.type = some TYPE_GROUP ∨ fd.type = some TYPE_ENUM →
            f.tsType = .ok f.typeTsName)) := by
  refine ⟨⟨?_, ?_⟩, ?_, ?_⟩
  · intro h
    by_contra hne
    obtain ⟨mod, hmod⟩ := ToRelativeModule_other hne
    rw [hmod] at h
    cases h
  · intro h
    rw [ToRelativeModule_self h]
  · intro h
    rw [ToRelativeModule_self h]
  · intro fd ns f mr hnew htn
    unfold newField at hnew
    simp only [if_pos htn] at hnew
    cases hfind : ns.FindFullyQualifiedName fd.typeName with
    | error e => rw [hfind] at hnew; cases hnew
    | ok r =>
      obtain ⟨typeNs, typeName, i, typeFdp⟩ := r
      rw [hfind] at hnew
      simp only [Except.ok.injEq, Prod.mk.injEq] at hnew
      obtain ⟨hf, hmr⟩ := hnew
      refine ⟨typeNs, typeName, i, typeFdp, rfl, ?_, ?_, ?_⟩
      · intro hself
        rw [ToRelativeModule_self hself] at hf hmr
        exact ⟨by rw [← hf], hmr.symm⟩
      · intro hother
        obtain ⟨mod, hmod⟩ := ToRelativeModule_other hother
        refine ⟨mod, hmod, ?_⟩
        rw [← hf, hmod]
      · intro ht
        have hfd : f.fd = fd := by rw [← hf]
        rcases ht with ht | ht | ht <;>
          · unfold field.tsType
            rw [hfd, ht]
            rfl

/-- C6 at the field `y` of `a.proto`, of the type `.pb.Y` of `b.proto`: the
type is referenced as `___b_pb.Y`; the type `.pa.M` of `a.proto` itself is
referenced as `M`. -/
theorem ToRelativeModule_nil_iff_witness :
    (newField (exField "y".toList 1 LABEL_OPTIONAL TYPE_MESSAGE ".pb.Y".toList) (some exOrderNs)
        { currentFile := exOrderA, references := [] }).map (fun r => r.1.typeTsName)
      = .ok "___b_pb.Y".toList ∧
    (newField (exField "m".toList 2 LABEL_OPTIONAL TYPE_MESSAGE ".pa.M".toList) (some exOrderNs)
        { currentFile := exOrderA, references := [] }).map (fun r => r.1.typeTsName)
      = .ok "M".toList ∧
    ((({ currentFile := exOrderA, references := [] } : moduleResolver).ToRelativeModule
        exOrderA).1 = none ↔ exOrderA.name = exOrderA.name) :=
  ⟨by decide!, by decide!,
    (ToRelativeModule_nil_iff { currentFile := exOrderA, references := [] } exOrderA).1⟩

/-! ## Reference table -/

theorem Step.here (T : List Str) (mr : moduleResolver) : Step T mr mr :=
  ⟨rfl, id, fun _ h => h, fun _ h => Or.inl h⟩

theorem Step.mono {T T' : List Str} {a b : moduleResolver} (h : Step T a b)
    (hT : ∀ k ∈ T, k ∈ T') : Step T' a b :=
  ⟨h.1, h.2.1, h.2.2.1, fun k hk => (h.2.2.2 k hk).imp id fun ⟨h1, h2⟩ => ⟨hT k h1, h2⟩⟩

theorem Step.andThen {T : List Str} {a b c : moduleResolver} (h1 : Step T a b)
    (h2 : Step T b c) : Step T a c := by
  refine ⟨h2.1.trans h1.1, fun h => h2.2.1 (h1.2.1 h), fun k hk => h2.2.2.1 k (h1.2.2.1 k hk), ?_⟩
  intro k hk
  rcases h2.2.2.2 k hk with h | ⟨h, hne⟩
  · exact h1.2.2.2 k h
  · exact Or.inr ⟨h, by rw [← h1.1]; exact hne⟩

theorem lookup_eq_none_iff_keys (l : List (Str × modRef)) (k : Str) :
    l.lookup k = none ↔ k ∉ l.map Prod.fst := by
  induction l with
  | nil => simp
  | cons e rest ih =>
    obtain ⟨a, b⟩ := e
    by_cases h : k = a
    · subst h; simp [List.lookup]
    · have h2 : (k == a) = false := by simpa using h
      simp [List.lookup, h2, ih, h]

theorem lookup_some_mem (l : List (Str × modRef)) (k : Str) (v : modRef)
    (h : l.lookup k = some v) : (k, v) ∈ l := by
  induction l with
  | nil => simp at h
  | cons e rest ih =>
    obtain ⟨a, b⟩ := e
    by_cases h2 : k = a
    · subst h2; simp [List.lookup] at h; simp [h]
    · have h3 : (k == a) = false := by simpa using h2
      simp [List.lookup, h3] at h
      exact List.mem_cons_of_mem _ (ih h)

theorem ToRelativeModule_step (m : moduleResolver) (fdp : FileDescriptorProto) :
    Step [fdp.name] m (m.ToRelativeModule fdp).2 ∧
      (fdp.name ≠ m.currentFile.name → fdp.name ∈ (m.ToRelativeModule fdp).2.keys) := by
  unfold moduleResolver.ToRelativeModule
  split
  · next h => exact ⟨Step.here _ _, fun hne => absurd h hne⟩
  · next hne =>
    split
    · next mod hl =>
      refine ⟨Step.here _ _, fun _ => ?_⟩
      have := lookup_some_mem _ _ _ hl
      exact List.mem_map.2 ⟨_, this, rfl⟩
    · next hl =>
      have hnot := (lookup_eq_none_iff_keys _ _).1 hl
      refine ⟨⟨rfl, ?_, ?_, ?_⟩, fun _ => ?_⟩
      · rintro ⟨hnd, hall⟩
        refine ⟨?_, ?_⟩
        · simp only [moduleResolver.keys, List.map_append, List.map_cons, List.map_nil]
          rw [List.nodup_append]
          refine ⟨hnd, by simp, ?_⟩
          intro a ha hb
          simp at hb
          subst hb
          exact hnot ha
        · intro e he
          simp only [List.mem_append, List.mem_singleton] at he
          rcases he with he | he
          · exact hall e he
          · subst he
            refine ⟨hne, fdp, rfl, ?_⟩
            simp [moduleResolver.ToRelativeModule, hne]
      · intro k hk
        simp only [moduleResolver.keys, List.map_append, List.mem_append]
        exact Or.inl hk
      · intro k hk
        simp only [moduleResolver.keys, List.map_append, List.mem_append, List.map_cons,
          List.map_nil, List.mem_singleton] at hk
        rcases hk with hk | hk
        · exact Or.inl hk
        · subst hk
          exact Or.inr ⟨List.mem_singleton_self _, hne⟩
      · simp [moduleResolver.keys]

theorem Exact.none (mr : moduleResolver) : Exact [] mr mr :=
  ⟨Step.here _ _, fun _ h => by simp at h⟩

theorem Exact.append {T1 T2 : List Str} {a b c : moduleResolver} (h1 : Exact T1 a b)
    (h2 : Exact T2 b c) : Exact (T1 ++ T2) a c := by
  refine ⟨(h1.1.mono fun k hk => List.mem_append_left _ hk).andThen
    (h2.1.mono fun k hk => List.mem_append_right _ hk), ?_⟩
  intro k hk hne
  rcases List.mem_append.1 hk with hk | hk
  · exact h2.1.2.2.1 k (h1.2 k hk hne)
  · exact h2.2 k hk (by rw [h1.1.1]; exact hne)

theorem Exact.step {T T' : List Str} {a b c : moduleResolver} (h1 : Exact T a b)
    (h2 : Step T' b c) (hT : ∀ k ∈ T', k ∈ T) : Exact T a c :=
  ⟨h1.1.andThen (h2.mono hT), fun k hk hne => h2.2.2.1 k (h1.2 k hk hne)⟩

theorem Step.exact {T T' : List Str} {a b c : moduleResolver} (h1 : Step T' a b)
    (h2 : Exact T b c) (hT : ∀ k ∈ T', k ∈ T) : Exact T a c :=
  ⟨(h1.mono hT).andThen h2.1, fun k hk hne => h2.2 k hk (by rw [h1.1]; exact hne)⟩

theorem Exact.congr {T T' : List Str} {a b : moduleResolver} (h : Exact T a b)
    (hT : ∀ k, k ∈ T ↔ k ∈ T') : Exact T' a b :=
  ⟨h.1.mono fun k hk => (hT k).1 hk, fun k hk hne => h.2 k ((hT k).2 hk) hne⟩

theorem newField_exact {fd : FieldDescriptorProto} {nso : Option Namespace}
    {mr mr' : moduleResolver} {f : field} (h : newField fd nso mr = .ok (f, mr')) :
    Exact (nameRefs nso fd.typeName) mr mr' := by
  unfold newField at h
  by_cases htn : fd.typeName = []
  · simp only [htn, ne_eq, not_true_eq_false, if_false, Except.ok.injEq, Prod.mk.injEq] at h
    rw [← h.2]
    simp only [nameRefs, htn, if_true]
    exact Exact.none _
  · simp only [ne_eq, htn, not_false_eq_true, if_true] at h
    cases nso with
    | none => cases h
    | some ns =>
      simp only at h
      cases hfind : ns.FindFullyQualifiedName fd.typeName with
      | error e => rw [hfind] at h; cases h
      | ok r =>
        obtain ⟨typeNs, typeName, i, typeFdp⟩ := r
        rw [hfind] at h
        simp only [Except.ok.injEq, Prod.mk.injEq] at h
        rw [← h.2]
        have hrefs : nameRefs (some ns) fd.typeName = [typeFdp.name] := by
          simp [nameRefs, htn, ownerOf, hfind]
        rw [hrefs]
        exact ⟨(ToRelativeModule_step mr typeFdp).1, fun k hk hne => by
          simp only [List.mem_singleton] at hk
          subst hk
          exact (ToRelativeModule_step mr typeFdp).2 hne⟩

theorem mapFields_exact {f k v : field} {mr mr' : moduleResolver}
    (h : f.mapFields mr = .ok (k, v, mr')) : Exact f.entryRefs mr mr' := by
  unfold field.mapFields at h
  split at h
  · next dp hdp =>
    split at h
    · cases h
    · next kd rest hfield =>
      cases hk : newField kd f.typeNs mr with
      | error e => simp [hk] at h
      | ok r =>
        obtain ⟨kf, mr1⟩ := r
        simp only [hk] at h
        split at h
        · cases h
        · next vd rest2 =>
          cases hv : newField vd f.typeNs mr1 with
          | error e => simp [hv] at h
          | ok r2 =>
            obtain ⟨vf, mr2⟩ := r2
            simp only [hv, Except.ok.injEq, Prod.mk.injEq] at h
            obtain ⟨-, -, rfl⟩ := h
            have := (newField_exact hk).append (newField_exact hv)
            refine this.congr fun x => ?_
            simp [field.entryRefs, hdp, hfield, List.take]
  · cases h

theorem labeledType_step {f : field} {mr mr' : moduleResolver} {t : Str}
    (h : f.labeledType mr = .ok (t, mr')) : Step f.mapRefs mr mr' := by
  unfold field.labeledType at h
  by_cases hm : f.isMap = true
  · simp only [hm, if_true] at h
    cases hmf : f.mapFields mr with
    | error e => simp [hmf] at h
    | ok r =>
      obtain ⟨k, v, mr2⟩ := r
      simp only [hmf] at h
      have hstep : Step f.mapRefs mr mr2 := by
        have := (mapFields_exact hmf).1
        simpa [field.mapRefs, hm] using this
      repeat' split at h
      all_goals first
        | (simp at h; done)
        | (simp only [Except.ok.injEq, Prod.mk.injEq] at h; rw [← h.2]; exact hstep)
  · rw [if_neg hm] at h
    simp only [Except.map] at h
    repeat' split at h
    all_goals first
      | (simp at h; done)
      | (simp only [Except.ok.injEq, Prod.mk.injEq] at h; rw [← h.2]; exact Step.here _ _)

theorem defaultValue_step {f : field} {mr mr' : moduleResolver} {t : Str}
    (h : f.defaultValue mr = .ok (t, mr')) : Step f.mapRefs mr mr' := by
  unfold field.defaultValue at h
  by_cases hm : f.isMap = true
  · simp only [hm, if_true] at h
    cases hlt : f.labeledType mr with
    | error e => simp [hlt] at h
    | ok r =>
      obtain ⟨lt, mr2⟩ := r
      simp only [hlt, Except.ok.injEq, Prod.mk.injEq] at h
      rw [← h.2]
      exact labeledType_step hlt
  · rw [if_neg hm] at h
    repeat' split at h
    all_goals first
      | (simp at h; done)
      | (simp only [Except.ok.injEq, Prod.mk.injEq] at h; rw [← h.2]; exact Step.here _ _)

theorem writeDecoder_exact {f : field} {w w' : writer} {dec wt : Str} {mr mr' : moduleResolver}
    (h : f.writeDecoder w dec wt mr = .ok (w', mr')) : Exact f.mapRefs mr mr' := by
  unfold field.writeDecoder at h
  by_cases hm : f.isMap = true
  · simp only [hm, if_true] at h
    cases hmf : f.mapFields mr with
    | error e => simp [hmf, bind, Except.bind] at h
    | ok r =>
      obtain ⟨k, v, mr2⟩ := r
      have hex : Exact f.mapRefs mr mr2 := by
        have := mapFields_exact hmf
        simpa [field.mapRefs, hm] using this
      simp only [hmf, bind, Except.bind] at h
      split at h
      · cases hv : v.tsType with
        | error e => simp [hv] at h
        | ok t =>
          simp [hv, pure, Except.pure] at h
          rw [← h.2]; exact hex
      · simp [pure, Except.pure] at h
        rw [← h.2]; exact hex
  · have hrefs : f.mapRefs = [] := by simp [field.mapRefs, hm]
    rw [hrefs]
    rw [if_neg hm] at h
    simp only [bind, Except.bind, pure, Except.pure, throw, throwThe, MonadExceptOf.throw] at h
    repeat' split at h
    all_goals first
      | (simp at h; done)
      | (simp only [Except.ok.injEq, Prod.mk.injEq] at h; rw [← h.2]; exact Exact.none _)

theorem writeEncoder_step {f : field} {w w' : writer} {libMod : modRef} {enc : Str} {a : Bool}
    {mr mr' : moduleResolver}
    (h : f.writeEncoder w libMod enc a mr = .ok (w', mr')) : Step f.mapRefs mr mr' := by
  unfold field.writeEncoder at h
  by_cases hm : f.isMap = true
  · simp only [hm, if_true, pure, Except.pure, Except.ok.injEq, Prod.mk.injEq] at h
    rw [← h.2]; exact Step.here _ _
  · rw [if_neg hm] at h
    have hdv : ∀ t m2, f.defaultValue mr = .ok (t, m2) → m2 = mr := by
      intro t m2 hd
      unfold field.defaultValue at hd
      rw [if_neg hm] at hd
      repeat' split at hd
      all_goals first
        | (simp at hd; done)
        | (simp only [Except.ok.injEq, Prod.mk.injEq] at hd; exact hd.2.symm)
    simp only [bind, Except.bind, pure, Except.pure, throw, throwThe, MonadExceptOf.throw] at h
    repeat' split at h
    all_goals first
      | (simp at h; done)
      | (simp only [Except.ok.injEq, Prod.mk.injEq] at h; rw [← h.2]; exact Step.here _ _)
      | skip
    rename_i x v hv
    simp only [Except.ok.injEq, Prod.mk.injEq] at h
    rw [← h.2, hdv v.1 v.2 hv]
    exact Step.here _ _

/-! ## Files a file refers to -/

theorem foldlM_exact {α σ : Type} (π : σ → moduleResolver) (T : α → List Str)
    (g : σ → α → Except CodegenPanic σ) (xs : List α)
    (hg : ∀ x ∈ xs, ∀ s s2, g s x = .ok s2 → Exact (T x) (π s) (π s2)) :
    ∀ s s2, xs.foldlM g s = .ok s2 → Exact (xs.flatMap T) (π s) (π s2) := by
  induction xs with
  | nil =>
    intro s s2 h
    simp only [List.foldlM_nil, pure, Except.pure, Except.ok.injEq] at h
    subst h
    exact Exact.none _
  | cons x rest ih =>
    intro s s2 h
    rw [List.foldlM_cons] at h
    cases hx : g s x with
    | error e => simp [hx, bind, Except.bind] at h
    | ok s1 =>
      simp only [hx, bind, Except.bind] at h
      have h1 := hg x (List.mem_cons_self _ _) s s1 hx
      have h2 := ih (fun y hy => hg y (List.mem_cons_of_mem _ hy)) s1 s2 h
      simpa [List.flatMap_cons] using h1.append h2

theorem foldlM_step {α σ : Type} (π : σ → moduleResolver) (T : List Str)
    (g : σ → α → Except CodegenPanic σ) (xs : List α)
    (hg : ∀ x ∈ xs, ∀ s s2, g s x = .ok s2 → Step T (π s) (π s2)) :
    ∀ s s2, xs.foldlM g s = .ok s2 → Step T (π s) (π s2) := by
  induction xs with
  | nil =>
    intro s s2 h
    simp only [List.foldlM_nil, pure, Except.pure, Except.ok.injEq] at h
    subst h
    exact Step.here _ _
  | cons x rest ih =>
    intro s s2 h
    rw [List.foldlM_cons] at h
    cases hx : g s x with
    | error e => simp [hx, bind, Except.bind] at h
    | ok s1 =>
      simp only [hx, bind, Except.bind] at h
      exact (hg x (List.mem_cons_self _ _) s s1 hx).andThen
        (ih (fun y hy => hg y (List.mem_cons_of_mem _ hy)) s1 s2 h)

theorem mem_flatMap_of_mem {α : Type} {T : α → List Str} {xs : List α} {x : α} (hx : x ∈ xs)
    (k : Str) (hk : k ∈ T x) : k ∈ xs.flatMap T :=
  List.mem_flatMap.2 ⟨x, hx, hk⟩

theorem writeOneof_step {w w' : writer} {oo : oneof} {libMod : modRef} {prefixNames : List Str}
    {mr mr' : moduleResolver}
    (h : writeOneof w oo libMod prefixNames mr = .ok (w', mr')) :
    Step (oo.fields.flatMap field.mapRefs) mr mr' := by
  unfold writeOneof at h
  simp only [bind, Except.bind] at h
  split at h
  · cases h
  · next st hfold =>
    obtain ⟨w1, cn, mr1⟩ := st
    have hstep : Step (oo.fields.flatMap field.mapRefs) mr mr1 := by
      refine foldlM_step (fun s : writer × List Str × moduleResolver => s.2.2) _ _ oo.fields ?_
        _ _ hfold
      intro f hf s s2 hs
      obtain ⟨sw, sc, sm⟩ := s
      simp only [bind, Except.bind, pure, Except.pure] at hs
      split at hs
      · cases hs
      · next r1 hl1 =>
        split at hs
        · cases hs
        · next r2 hl2 =>
          simp only [Except.ok.injEq] at hs
          subst hs
          exact ((labeledType_step hl1).andThen (labeledType_step hl2)).mono
            (mem_flatMap_of_mem hf)
    simp only at h
    split at h
    · cases h
    · simp only [pure, Except.pure, Except.ok.injEq, Prod.mk.injEq] at h
      rw [← h.2]
      exact hstep

theorem isMap_of_newField {fd : FieldDescriptorProto} {ns : Namespace}
    {mr mr' : moduleResolver} {f : field} (h : newField fd (some ns) mr = .ok (f, mr')) :
    f.fd = fd ∧ f.mapRefs = entryRefsOf ns fd := by
  unfold newField at h
  unfold entryRefsOf
  by_cases htn : fd.typeName = []
  · simp only [htn, ne_eq, not_true_eq_false, if_false, Except.ok.injEq, Prod.mk.injEq] at h
    rw [← h.1]
    simp [field.mapRefs, htn]
  · simp only [ne_eq, htn, not_false_eq_true, if_true] at h
    cases hfind : ns.FindFullyQualifiedName fd.typeName with
    | error e => rw [hfind] at h; cases h
    | ok r =>
      obtain ⟨typeNs, typeName, i, typeFdp⟩ := r
      rw [hfind] at h
      simp only [Except.ok.injEq, Prod.mk.injEq] at h
      rw [← h.1]
      refine ⟨rfl, ?_⟩
      cases i with
      | message dp => simp [field.mapRefs, field.entryRefs, htn]
      | enum ed => simp [field.mapRefs, htn]

theorem wrapFields_mapRefs {ns : Namespace} (fds : List FieldDescriptorProto) :
    ∀ (acc : List field) (mr : moduleResolver) (fields : List field) (mr2 : moduleResolver),
      fds.foldlM
        (fun (st : List field × moduleResolver) fd => do
          let (f, mr) ← newField fd (some ns) st.2
          pure (st.1 ++ [f], mr))
        (acc, mr) = .ok (fields, mr2) →
      fields.map field.mapRefs = acc.map field.mapRefs ++ fds.map (entryRefsOf ns) := by
  induction fds with
  | nil =>
    intro acc mr fields mr2 h
    simp only [List.foldlM_nil, pure, Except.pure, Except.ok.injEq, Prod.mk.injEq] at h
    simp [h.1]
  | cons fd rest ih =>
    intro acc mr fields mr2 h
    rw [List.foldlM_cons] at h
    simp only [bind, Except.bind, pure, Except.pure] at h
    split at h
    · cases h
    · next s1 hs1 =>
      split at hs1
      · cases hs1
      · next r hr =>
        obtain ⟨f, m1⟩ := r
        simp only [Except.ok.injEq] at hs1
        subst hs1
        rw [ih _ _ _ _ h]
        have := (isMap_of_newField hr).2
        simp [this]

theorem wrapFields_exact {fds : List FieldDescriptorProto} {ns : Namespace}
    {mr mr' : moduleResolver} {fields : List field}
    (h : wrapFields fds ns mr = .ok (fields, mr')) :
    Exact (fds.flatMap fun fd => nameRefs (some ns) fd.typeName) mr mr' ∧
      fields.map field.mapRefs = fds.map (entryRefsOf ns) := by
  unfold wrapFields at h
  refine ⟨?_, by simpa using wrapFields_mapRefs fds [] mr fields mr' h⟩
  refine foldlM_exact (fun s : List field × moduleResolver => s.2) _ _ fds ?_ _ _ h
  intro fd _ s s2 hs
  simp only [bind, Except.bind, pure, Except.pure] at hs
  split at hs
  · cases hs
  · next r hr =>
    simp only [Except.ok.injEq] at hs
    subst hs
    exact newField_exact hr

theorem pointAtOneofs_mapRefs (oneofs : List oneof) (fields : List field) :
    ∀ fields2, pointAtOneofs fields oneofs = .ok fields2 →
      fields2.map field.mapRefs = fields.map field.mapRefs := by
  unfold pointAtOneofs
  induction fields with
  | nil =>
    intro fields2 h
    simp only [List.mapM_nil, pure, Except.pure, Except.ok.injEq] at h
    simp [← h]
  | cons f rest ih =>
    intro fields2 h
    rw [List.mapM_cons] at h
    simp only [bind, Except.bind, pure, Except.pure] at h
    split at h
    · cases h
    · next f2 hf2 =>
      split at h
      · cases h
      · next rest2 hrest =>
        simp only [Except.ok.injEq] at h
        subst h
        have hf : f2.mapRefs = f.mapRefs := by
          split at hf2
          · split at hf2
            · cases hf2
            · simp only [Except.ok.injEq] at hf2
              subst hf2
              rfl
          · simp only [Except.ok.injEq] at hf2
            subst hf2
            rfl
        simp [hf, ih _ hrest]

set_option maxHeartbeats 4000000 in
theorem writeMessage_exact {w w' : writer} {dp : DescriptorProto} {ns : Namespace}
    {mr mr' : moduleResolver} {libMod : modRef} {prefixNames : List Str}
    (h : writeMessage w dp ns mr libMod prefixNames = .ok (w', mr')) :
    Exact (dp.field.flatMap (fieldRefs ns)) mr mr' := by
  unfold writeMessage at h
  simp only [bind, Except.bind, pure, Except.pure] at h
  split at h
  · cases h
  · next r1 h1 =>
    obtain ⟨fields0, mr1⟩ := r1
    simp only at h
    split at h
    · cases h
    · next fields h2 =>
      split at h
      · cases h
      · next r3 h3 =>
        split at h
        · cases h
        · next r4 h4 =>
          split at h
          · cases h
          · next r5 h5 =>
            have hA := wrapFields_exact h1
            have hB := pointAtOneofs_mapRefs _ _ _ h2
            have hM : ∀ k, k ∈ fields.flatMap field.mapRefs ↔
                k ∈ dp.field.flatMap (entryRefsOf ns) := by
              intro k
              rw [List.flatMap_def, List.flatMap_def, hB, hA.2]
            have hM0 : ∀ k, k ∈ fields0.flatMap field.mapRefs ↔
                k ∈ fields.flatMap field.mapRefs := by
              intro k
              rw [List.flatMap_def, List.flatMap_def, hB]
            have s3 := foldlM_step (fun s : writer × moduleResolver => s.2)
              (fields.flatMap field.mapRefs) _ fields (by
              intro f hf s s2 hs
              split at hs
              · simp only [Except.ok.injEq] at hs; subst hs; exact Step.here _ _
              · split at hs
                · cases hs
                · next r hr =>
                  simp only [Except.ok.injEq] at hs; subst hs
                  exact (labeledType_step hr).mono (mem_flatMap_of_mem hf)) _ _ h3
            have s4 := foldlM_step (fun s : writer × moduleResolver => s.2)
              (fields.flatMap field.mapRefs) _ fields (by
              intro f hf s s2 hs
              split at hs
              · simp only [Except.ok.injEq] at hs; subst hs; exact Step.here _ _
              · split at hs
                · cases hs
                · next r hr =>
                  simp only [Except.ok.injEq] at hs; subst hs
                  exact (defaultValue_step hr).mono (mem_flatMap_of_mem hf)) _ _ h4
            have s5 := foldlM_exact (fun s : writer × moduleResolver => s.2)
              field.mapRefs _ fields (by
              intro f hf s s2 hs
              split at hs
              · cases hs
              · next r hr =>
                simp only [Except.ok.injEq] at hs; subst hs
                exact writeDecoder_exact hr) _ _ h5
            simp only at s3 s4 s5
            have sOne : ∀ (wa : writer) (ma : moduleResolver) (rb : writer × moduleResolver),
                List.foldlM
                  (fun (st : writer × moduleResolver) oo =>
                    writeOneof st.1 oo libMod (prefixNames ++ [dp.name]) st.2)
                  (wa, ma) (wrapOneofs dp fields0 (prefixNames ++ [dp.name])) = .ok rb →
                Step (fields.flatMap field.mapRefs) ma rb.2 := by
              intro wa ma rb hfold
              refine foldlM_step (fun s : writer × moduleResolver => s.2) _ _ _ ?_ _ _ hfold
              intro oo hoo s s2 hs
              refine (writeOneof_step hs).mono ?_
              intro k hk
              rw [← hM0]
              obtain ⟨f, hf, hkf⟩ := List.mem_flatMap.1 hk
              simp only [wrapOneofs, List.mem_map] at hoo
              obtain ⟨p, _, rfl⟩ := hoo
              exact List.mem_flatMap.2 ⟨f, (List.mem_filter.1 hf).1, hkf⟩
            have hfinal : Step (fields.flatMap field.mapRefs) r5.2 mr' := by
              split at h
              · split at h
                · cases h
                · next rb hb =>
                  simp only [Except.ok.injEq, Prod.mk.injEq] at h
                  rw [← h.2]
                  exact sOne _ _ _ hb
              · split at h
                · cases h
                · next ra ha =>
                  split at h
                  · cases h
                  · next rb hb =>
                    simp only [Except.ok.injEq, Prod.mk.injEq] at h
                    rw [← h.2]
                    have s6 := foldlM_step (fun s : writer × moduleResolver => s.2)
                      (fields.flatMap field.mapRefs) _ fields (by
                      intro f hf s s2 hs
                      split at hs
                      · simp only [Except.ok.injEq] at hs; subst hs; exact Step.here _ _
                      · split at hs
                        · cases hs
                        · next r hr =>
                          simp only [Except.ok.injEq] at hs; subst hs
                          exact (writeEncoder_step hr).mono (mem_flatMap_of_mem hf)) _ _ ha
                    exact Step.andThen s6 (sOne _ _ _ hb)
            have hall := hA.1.append (((s3.andThen s4).exact s5 fun _ hk => hk).step hfinal
              fun _ hk => hk)
            refine hall.congr fun k => ?_
            simp only [List.mem_append, hM, List.mem_flatMap, fieldRefs]
            constructor
            · rintro (⟨fd, hfd, hk⟩ | ⟨fd, hfd, hk⟩)
              · exact ⟨fd, hfd, Or.inl hk⟩
              · exact ⟨fd, hfd, Or.inr hk⟩
            · rintro ⟨fd, hfd, hk | hk⟩
              · exact Or.inl ⟨fd, hfd, hk⟩
              · exact Or.inr ⟨fd, hfd, hk⟩

mutual

theorem writeDescriptor_exact (ns : Namespace) (libMod : modRef) :
    (dp : DescriptorProto) → ∀ (w : writer) (mr : moduleResolver) (prefixNames : List Str)
      (w2 : writer) (mr2 : moduleResolver),
      writeDescriptor w ns mr libMod prefixNames dp = .ok (w2, mr2) →
      Exact (messageRefs ns dp) mr mr2
  | ⟨name, field, nestedType, enumType, oneofDecl, mapEntry⟩ => by
    intro w mr prefixNames w2 mr2 h
    rw [writeDescriptor] at h
    split at h
    · cases h
    · next w1 mr1 hmsg =>
      rw [messageRefs]
      exact (writeMessage_exact hmsg).append
        (writeNested_exact ns libMod nestedType w1 mr1 _ w2 mr2 h)

theorem writeNested_exact (ns : Namespace) (libMod : modRef) :
    (dps : List DescriptorProto) → ∀ (w : writer) (mr : moduleResolver) (nextNames : List Str)
      (w2 : writer) (mr2 : moduleResolver),
      writeDescriptor.writeNested w ns mr libMod nextNames dps = .ok (w2, mr2) →
      Exact (messageRefs.nestedRefs ns dps) mr mr2
  | [] => by
    intro w mr nextNames w2 mr2 h
    rw [writeDescriptor.writeNested] at h
    simp only [Except.ok.injEq, Prod.mk.injEq] at h
    rw [← h.2, messageRefs.nestedRefs]
    exact Exact.none _
  | dp :: rest => by
    intro w mr nextNames w2 mr2 h
    rw [writeDescriptor.writeNested] at h
    split at h
    · cases h
    · next w1 mr1 hdp =>
      rw [messageRefs.nestedRefs]
      exact (writeDescriptor_exact ns libMod dp w mr nextNames w1 mr1 hdp).append
        (writeNested_exact ns libMod rest w1 mr1 nextNames w2 mr2 h)

end

theorem writeMessages_exact (ns : Namespace) (libMod : modRef) (dps : List DescriptorProto) :
    ∀ (st st2 : writer × moduleResolver),
      dps.foldlM (fun (st : writer × moduleResolver) dp =>
        writeDescriptor st.1 ns st.2 libMod [] dp) st = .ok st2 →
      Exact (messageRefs.nestedRefs ns dps) st.2 st2.2 := by
  induction dps with
  | nil =>
    intro st st2 h
    simp only [List.foldlM_nil, pure, Except.pure, Except.ok.injEq] at h
    subst h
    rw [messageRefs.nestedRefs]
    exact Exact.none _
  | cons dp rest ih =>
    intro st st2 h
    rw [List.foldlM_cons] at h
    simp only [bind, Except.bind] at h
    split at h
    · cases h
    · next s1 hs1 =>
      rw [messageRefs.nestedRefs]
      exact (writeDescriptor_exact ns libMod dp _ _ _ s1.1 s1.2 hs1).append (ih _ _ h)

theorem ownerOf_exact {ns : Namespace} {typeName : Str} {mr : moduleResolver}
    {r : Str × Str × TypeDescriptor × FileDescriptorProto}
    (h : ns.FindFullyQualifiedName typeName = .ok r) :
    Exact (ownerOf ns typeName) mr (mr.ToRelativeModule r.2.2.2).2 := by
  have hrefs : ownerOf ns typeName = [r.2.2.2.name] := by simp [ownerOf, h]
  rw [hrefs]
  exact ⟨(ToRelativeModule_step mr _).1, fun k hk hne => by
    simp only [List.mem_singleton] at hk
    subst hk
    exact (ToRelativeModule_step mr _).2 hne⟩

theorem newMethod_exact {mdp : MethodDescriptorProto} {ns : Namespace}
    {mr mr' : moduleResolver} {m : method} (h : newMethod mdp ns mr = .ok (m, mr')) :
    Exact (methodRefs ns mdp) mr mr' := by
  unfold newMethod at h
  simp only [bind, Except.bind, pure, Except.pure] at h
  split at h
  · cases h
  · next r1 h1 =>
    split at h
    · cases h
    · next r2 h2 =>
      simp only [Except.ok.injEq, Prod.mk.injEq] at h
      rw [← h.2]
      exact (ownerOf_exact h1).append (ownerOf_exact h2)

theorem writeService_exact {w w' : writer} {sdp : ServiceDescriptorProto} {pkg : Str}
    {ns : Namespace} {mr mr' : moduleResolver} {libMod : modRef}
    (h : writeService w sdp pkg ns mr libMod = .ok (w', mr')) :
    Exact (sdp.method.flatMap (methodRefs ns)) mr mr' := by
  unfold writeService at h
  simp only [bind, Except.bind, pure, Except.pure] at h
  split at h
  · cases h
  · next r1 h1 =>
    simp only [Except.ok.injEq, Prod.mk.injEq] at h
    rw [← h.2]
    exact foldlM_exact (fun s : List method × moduleResolver => s.2) (methodRefs ns) _
      sdp.method (by
        intro mdp _ s s2 hs
        split at hs
        · cases hs
        · next r hr =>
          simp only [Except.ok.injEq] at hs
          subst hs
          exact newMethod_exact hr) _ _ h1

theorem Sprintf_import (a b : Str) :
    Sprintf "import * as %s from '%s'\n".toList [.s a, .s b] =
      importLine { alias_ := a, path := b } := by
  simp [Sprintf, Arg.text, importLine]

theorem foldl_append_lines {α : Type} (g : α → Str) (l : List α) (base : Str) :
    l.foldl (fun acc e => acc ++ g e) base = base ++ (l.map g).flatten := by
  induction l generalizing base with
  | nil => simp
  | cons x rest ih => simp [ih, List.append_assoc]

theorem writeFileBody_refs {ord : MapOrder} {w w' : writer} {fdp : FileDescriptorProto}
    {ns : Namespace} {libMod : modRef} {gs : Bool} {imports : Str}
    (h : writeFileBody ord w fdp ns libMod gs = .ok (imports, w')) :
    ∃ mr : moduleResolver,
      Exact (fileRefs ns fdp gs) { currentFile := fdp, references := [] } mr ∧
      imports = importLine libMod ++
        ((ord.order mr.references).map fun e => importLine e.2).flatten := by
  unfold writeFileBody at h
  simp only [bind, Except.bind, pure, Except.pure] at h
  split at h
  · cases h
  · next r1 h1 =>
    have e1 := writeMessages_exact ns libMod fdp.messageType _ _ h1
    simp only at e1
    have himp : ∀ mr : moduleResolver,
        List.foldl
          (fun imports e =>
            imports ++ Sprintf "import * as %s from '%s'\n".toList [Arg.s e.2.alias_, Arg.s e.2.path])
          (Sprintf "import * as %s from '%s'\n".toList [Arg.s libMod.alias_, Arg.s libMod.path])
          (ord.order mr.references) =
        importLine libMod ++ ((ord.order mr.references).map fun e => importLine e.2).flatten := by
      intro mr
      rw [foldl_append_lines, Sprintf_import]
      congr 2
      exact List.map_congr_left fun e _ => Sprintf_import _ _
    cases gs with
    | false =>
      simp only [Bool.false_eq_true, if_false, Except.ok.injEq, Prod.mk.injEq] at h
      refine ⟨r1.2, ?_, ?_⟩
      · unfold fileRefs
        simpa using e1
      · rw [← h.1, himp]
    | true =>
      simp only [if_true] at h
      split at h
      · cases h
      · next r2 h2 =>
        simp only [Except.ok.injEq, Prod.mk.injEq] at h
        refine ⟨r2.2, ?_, ?_⟩
        · unfold fileRefs
          simp only [if_true]
          exact e1.append (foldlM_exact (fun s : writer × moduleResolver => s.2)
            (fun sdp : ServiceDescriptorProto => sdp.method.flatMap (methodRefs ns)) _
            fdp.service (by
              intro sdp _ s s2 hs
              exact writeService_exact hs) _ _ h2)
        · rw [← h.1, himp]

theorem lookup_append_new (l : List (Str × modRef)) (k : Str) (v : modRef)
    (h : l.lookup k = none) : (l ++ [(k, v)]).lookup k = some v := by
  induction l with
  | nil => simp [List.lookup]
  | cons e rest ih =>
    obtain ⟨a, b⟩ := e
    by_cases hk : k = a
    · subst hk; simp [List.lookup] at h
    · have h3 : (k == a) = false := by simpa using hk
      simp only [List.lookup, h3, List.cons_append] at h ⊢
      exact ih h

theorem ToRelativeModule_idem (m : moduleResolver) (target : FileDescriptorProto) :
    (m.ToRelativeModule target).2.ToRelativeModule target = m.ToRelativeModule target := by
  by_cases hself : target.name = m.currentFile.name
  · rw [ToRelativeModule_self hself, ToRelativeModule_self hself]
  · cases hl : m.references.lookup target.name with
    | some mod =>
      have h1 : m.ToRelativeModule target = (some mod, m) := by
        simp [moduleResolver.ToRelativeModule, hself, hl]
      rw [h1]
      exact h1
    | none =>
      have h1 : m.ToRelativeModule target = (some
          { alias_ := "___".toList ++
              Replace ((Rel (Dir m.currentFile.name) (tsFileName target)).getD [])
                "/".toList "_".toList (-1),
            path := "./".toList ++ (Rel (Dir m.currentFile.name) (tsFileName target)).getD [] },
          { m with references := m.references ++ [(target.name,
            { alias_ := "___".toList ++
                Replace ((Rel (Dir m.currentFile.name) (tsFileName target)).getD [])
                  "/".toList "_".toList (-1),
              path := "./".toList ++ (Rel (Dir m.currentFile.name) (tsFileName target)).getD [] })] })
          := by
        simp only [moduleResolver.ToRelativeModule, hself, hl, if_false]
      rw [h1]
      simp only [moduleResolver.ToRelativeModule, hself, if_false,
        lookup_append_new _ _ _ hl]

theorem genOptions_library_import (params : List Str) :
    ∀ (g : Bool) (l : Str) (o : Bool × Str), genOptions params (g, l) = .ok o →
      o.2 =
        match (params.filter fun p => HasPrefix p "library_import=".toList).getLast? with
        | some p => TrimPrefix p "library_import=".toList
        | none => l := by
  induction params with
  | nil =>
    intro g l o h
    simp only [genOptions, Except.ok.injEq] at h
    subst h
    rfl
  | cons p rest ih =>
    intro g l o h
    rw [genOptions] at h
    split at h
    · next hp =>
      have hnp : HasPrefix p "library_import=".toList = false := by rw [hp]; decide
      rw [ih _ _ _ h, List.filter_cons, hnp]
      rfl
    · split at h
      · next hp =>
        rw [ih _ _ _ h, List.filter_cons, hp]
        simp only [if_true]
        cases hrest : (rest.filter fun p => HasPrefix p "library_import=".toList) with
        | nil => rfl
        | cons q qs =>
          rw [List.getLast?_cons_cons, List.getLast?_eq_getLast _ (List.cons_ne_nil q qs)]
      · cases h

/-! ## Import block -/

/-- C7: in a run whose options are accepted with the runtime module path `lib`,
which is the value of the last `library_import=` item and `protobuf` when
there is none, the block of imports that `writeFile` returns for a file is
the runtime line `import * as __pb__ from '<lib>'` followed by the lines of
the entries of the reference table, in the order in which the run ranges
over the table.  The table has one entry per key; its keys are exactly the
names of the files, other than the file itself, that own a type the file
refers to (through a field, through the key or value of a map entry, or, when
services are generated, through a method); every entry is the module
reference that `ToRelativeModule` builds for its key; and a second call of
`ToRelativeModule` for a target returns the same module reference and leaves
the table as the first call left it. -/
theorem writeFile_import_block (ord : MapOrder) (req : CodeGeneratorRequest) (gs : Bool)
    (lib : Str) (w w2 : writer) (fdp : FileDescriptorProto) (rootNs : Namespace) (imports : Str)
    (ho : genOptions (Split req.parameter ',') (false, "protobuf".toList) = .ok (gs, lib))
    (h : writeFile ord w fdp rootNs { alias_ := "__pb__".toList, path := lib } gs
      = .ok (imports, w2)) :
    lib =
      (match ((Split req.parameter ',').filter fun p =>
          HasPrefix p "library_import=".toList).getLast? with
        | some p => TrimPrefix p "library_import=".toList
        | none => "protobuf".toList) ∧
    ∃ (ns : Namespace) (table : List (Str × modRef)),
      rootNs.FindFullyQualifiedNamespace (".".toList ++ fdp.package) = some ns ∧
      imports = "import * as __pb__ from '".toList ++ lib ++ "'\n".toList ++
        ((ord.order table).map fun e => importLine e.2).flatten ∧
      (ord.order table).Perm table ∧
      (table.map Prod.fst).Nodup ∧
      (∀ name, name ∈ table.map Prod.fst ↔ name ∈ fileRefs ns fdp gs ∧ name ≠ fdp.name) ∧
      (∀ e ∈ table, ∃ target : FileDescriptorProto, target.name = e.1 ∧
        (({ currentFile := fdp, references := [] } : moduleResolver).ToRelativeModule target).1
          = some e.2) ∧
      ∀ (m : moduleResolver) (target : FileDescriptorProto),
        (m.ToRelativeModule target).2.ToRelativeModule target = m.ToRelativeModule target := by
  refine ⟨genOptions_library_import _ _ _ _ ho, ?_⟩
  unfold writeFile at h
  split at h
  · cases h
  · split at h
    · cases h
    · next ns hns =>
      split at h
      · cases h
      · next r hbody =>
        simp only [Except.ok.injEq] at h
        subst h
        obtain ⟨mr, hex, himp⟩ := writeFileBody_refs hbody
        have hinv : mr.Inv := hex.1.2.1 ⟨by simp [moduleResolver.keys], by simp⟩
        have hcur : mr.currentFile = fdp := hex.1.1
        refine ⟨ns, mr.references, hns, ?_, ord.perm _, hinv.1, ?_, ?_, ToRelativeModule_idem⟩
        · rw [himp]
          simp [importLine]
        · intro name
          constructor
          · intro hmem
            rcases hex.1.2.2.2 name hmem with h0 | ⟨h1, h2⟩
            · simp [moduleResolver.keys] at h0
            · exact ⟨h1, h2⟩
          · rintro ⟨h1, h2⟩
            exact hex.2 name h1 h2
        · intro e he
          have := (hinv.2 e he).2
          rw [hcur] at this
          exact this

set_option maxRecDepth 100000 in
/-- C7 at `a.proto` of `exImportsReq`, which refers to types of `b.proto` and
of `c.proto`: the block has the runtime line and one line for each of the two
files. -/
theorem writeFile_import_block_witness :
    genOptions (Split exImportsReq.parameter ',') (false, "protobuf".toList)
        = .ok (true, "protobuf".toList) ∧
      writeFile MapOrder.insertion { w := [], i := 0 } exImportsA exImportsNs
        { alias_ := "__pb__".toList, path := "protobuf".toList } true = .ok exImportsOut ∧
      exImportsOut.1 = ("import * as __pb__ from 'protobuf'\n" ++
        "import * as ___b_pb from './b_pb'\n" ++
        "import * as ___c_pb from './c_pb'\n").toList ∧
      "protobuf".toList =
        (match ((Split exImportsReq.parameter ',').filter fun p =>
            HasPrefix p "library_import=".toList).getLast? with
          | some p => TrimPrefix p "library_import=".toList
          | none => "protobuf".toList) :=
  have ho : genOptions (Split exImportsReq.parameter ',') (false, "protobuf".toList)
      = .ok (true, "protobuf".toList) := by decide!
  have h : writeFile MapOrder.insertion { w := [], i := 0 } exImportsA exImportsNs
      { alias_ := "__pb__".toList, path := "protobuf".toList } true = .ok exImportsOut := by
    decide!
  ⟨ho, h, by decide!,
    (writeFile_import_block MapOrder.insertion exImportsReq true "protobuf".toList
      { w := [], i := 0 } exImportsOut.2 exImportsA exImportsNs exImportsOut.1 ho h).1⟩

/-! ## Relative import path -/

theorem Split_ne_nil (s : Str) (c : Char) : Split s c ≠ [] := by
  induction s with
  | nil => simp [Split]
  | cons x rest ih =>
    rw [Split]
    split
    · simp
    · split <;> simp

theorem Split_cons_ne {x c : Char} (h : x ≠ c) (rest : Str) :
    ∃ p ps, Split rest c = p :: ps ∧ Split (x :: rest) c = (x :: p) :: ps := by
  cases hs : Split rest c with
  | nil => exact absurd hs (Split_ne_nil _ _)
  | cons p ps => exact ⟨p, ps, rfl, by rw [Split, if_neg h, hs]⟩

theorem Split_append_sep (a b : Str) (c : Char) :
    Split (a ++ c :: b) c = Split a c ++ Split b c := by
  induction a with
  | nil => simp [Split]
  | cons x rest ih =>
    by_cases hx : x = c
    · subst hx
      simp [Split, ih]
    · obtain ⟨p, ps, h1, h2⟩ := Split_cons_ne hx rest
      obtain ⟨q, qs, h3, h4⟩ := Split_cons_ne hx (rest ++ c :: b)
      rw [List.cons_append, h4, h2]
      rw [ih, h1] at h3
      simp only [List.cons_append, List.cons.injEq] at h3
      rw [← h3.1, ← h3.2]
      rfl

theorem Split_no_sep (s : Str) (c : Char) (h : c ∉ s) : Split s c = [s] := by
  induction s with
  | nil => rfl
  | cons x rest ih =>
    have hx : x ≠ c := fun e => h (by simp [e])
    have hr : c ∉ rest := fun e => h (List.mem_cons_of_mem _ e)
    rw [Split, if_neg hx, ih hr]

theorem Split_elem_no_sep (s : Str) (c : Char) : ∀ e ∈ Split s c, c ∉ e := by
  induction s with
  | nil => simp [Split]
  | cons x rest ih =>
    by_cases hx : x = c
    · subst hx
      intro e he
      simp only [Split, if_true, List.mem_cons] at he
      rcases he with rfl | he
      · simp
      · exact ih e he
    · obtain ⟨p, ps, h1, h2⟩ := Split_cons_ne hx rest
      rw [h2]
      rw [h1] at ih
      intro e he
      rcases List.mem_cons.1 he with rfl | he
      · intro hmem
        rcases List.mem_cons.1 hmem with h | h
        · exact hx h.symm
        · exact ih p (List.mem_cons_self _ _) h
      · exact ih e (List.mem_cons_of_mem _ he)

theorem Join_cons_cons (e f : Str) (es : List Str) (sep : Str) :
    Join (e :: f :: es) sep = e ++ sep ++ Join (f :: es) sep := by
  rw [Join]
  intro h
  cases h

theorem Join_Split (s : Str) (c : Char) : Join (Split s c) [c] = s := by
  induction s with
  | nil => rfl
  | cons x rest ih =>
    by_cases hx : x = c
    · subst hx
      rw [Split, if_pos rfl]
      cases hs : Split rest x with
      | nil => exact absurd hs (Split_ne_nil _ _)
      | cons p ps =>
        rw [Join_cons_cons, ← hs, ih]
        rfl
    · obtain ⟨p, ps, h1, h2⟩ := Split_cons_ne hx rest
      rw [h2]
      rw [h1] at ih
      cases ps with
      | nil =>
        simp only [Join] at ih ⊢
        rw [ih]
      | cons q qs =>
        rw [Join_cons_cons] at ih ⊢
        rw [← ih]
        simp

theorem Split_Join (es : List Str) (c : Char) (hne : es ≠ []) (h : ∀ e ∈ es, c ∉ e) :
    Split (Join es [c]) c = es := by
  induction es with
  | nil => exact absurd rfl hne
  | cons e rest ih =>
    cases rest with
    | nil =>
      simp only [Join]
      exact Split_no_sep _ _ (h e (List.mem_cons_self _ _))
    | cons f fs =>
      rw [Join_cons_cons]
      have : e ++ [c] ++ Join (f :: fs) [c] = e ++ c :: Join (f :: fs) [c] := by simp
      rw [this, Split_append_sep, Split_no_sep _ _ (h e (List.mem_cons_self _ _)),
        ih (by simp) (fun x hx => h x (List.mem_cons_of_mem _ hx))]
      rfl

theorem Join_append_singleton (init : List Str) (last : Str) (c : Char) (hne : init ≠ []) :
    Join (init ++ [last]) [c] = Join init [c] ++ c :: last := by
  induction init with
  | nil => exact absurd rfl hne
  | cons e rest ih =>
    cases rest with
    | nil => simp [Join]
    | cons f fs =>
      rw [List.cons_append, List.cons_append, Join_cons_cons, Join_cons_cons,
        ← List.cons_append, ih (by simp)]
      simp

theorem cleanStep_name {e : Str} (h : IsName e) (out : List Str) :
    cleanStep false out e = e :: out := by
  unfold cleanStep
  rw [if_neg (by rintro (h1 | h1); exact h.1 h1; exact h.2.1 h1), if_neg h.2.2]

theorem cleanStep_dd_name {top : Str} (h : IsName top) (below : List Str) :
    cleanStep false (top :: below) ['.', '.'] = below := by
  unfold cleanStep
  rw [if_neg (by decide), if_pos rfl]
  simp only
  rw [if_neg h.2.2]

theorem cleanStep_dd_dd (below : List Str) :
    cleanStep false (['.', '.'] :: below) ['.', '.'] = ['.', '.'] :: ['.', '.'] :: below := by
  unfold cleanStep
  rw [if_neg (by decide), if_pos rfl]
  simp

theorem cleanStep_dd_nil : cleanStep false [] ['.', '.'] = [['.', '.']] := by
  unfold cleanStep
  rw [if_neg (by decide), if_pos rfl]
  simp

theorem cleanStep_dot (out : List Str) : cleanStep false out ['.'] = out := by
  unfold cleanStep
  rw [if_pos (Or.inr rfl)]

theorem cleanStep_empty (out : List Str) : cleanStep false out [] = out := by
  unfold cleanStep
  rw [if_pos (Or.inl rfl)]

theorem foldl_clean_names (names : List Str) (h : ∀ n ∈ names, IsName n) (S : List Str) :
    names.foldl (cleanStep false) S = names.reverse ++ S := by
  induction names generalizing S with
  | nil => rfl
  | cons n rest ih =>
    rw [List.foldl_cons, cleanStep_name (h n (List.mem_cons_self _ _)),
      ih (fun x hx => h x (List.mem_cons_of_mem _ hx))]
    simp

theorem foldl_clean_dds (k j : Nat) :
    (List.replicate k ['.', '.']).foldl (cleanStep false) (List.replicate j ['.', '.']) =
      List.replicate (k + j) ['.', '.'] := by
  induction k generalizing j with
  | zero => simp
  | succ k ih =>
    rw [List.replicate_succ, List.foldl_cons]
    cases j with
    | zero =>
      rw [List.replicate_zero, cleanStep_dd_nil]
      have := ih 1
      simp only [List.replicate_one] at this
      rw [this]
    | succ j =>
      rw [List.replicate_succ, cleanStep_dd_dd]
      have := ih (j + 2)
      simp only [List.replicate_succ] at this
      rw [this]
      have e : k + 1 + (j + 1) = k + (j + 2) := by omega
      rw [e]

theorem foldl_clean_pop (names : List Str) (h : ∀ n ∈ names, IsName n) (S : List Str) :
    (List.replicate names.length ['.', '.']).foldl (cleanStep false) (names.reverse ++ S) = S := by
  induction names generalizing S with
  | nil => rfl
  | cons n rest ih =>
    have hrep : List.replicate (n :: rest).length ['.', '.'] =
        List.replicate rest.length ['.', '.'] ++ [['.', '.']] := by
      rw [List.length_cons, List.replicate_succ']
    rw [hrep, List.foldl_append, List.reverse_cons, List.append_assoc, List.singleton_append,
      ih (fun x hx => h x (List.mem_cons_of_mem _ hx))]
    simp only [List.foldl_cons, List.foldl_nil]
    exact cleanStep_dd_name (h n (List.mem_cons_self _ _)) S

theorem foldl_clean_NF {es : List Str} (h : NF es) :
    es.foldl (cleanStep false) [] = es.reverse := by
  obtain ⟨k, names, rfl, hn⟩ := h
  rw [List.foldl_append]
  have := foldl_clean_dds k 0
  simp only [List.replicate_zero, Nat.add_zero] at this
  rw [this, foldl_clean_names names hn]
  simp

theorem cleanStep_StackNF {S : List Str} (h : StackNF S) (e : Str) :
    StackNF (cleanStep false S e) := by
  by_cases h1 : e = [] ∨ e = ['.']
  · unfold cleanStep
    rw [if_pos h1]
    exact h
  · by_cases h2 : e = ['.', '.']
    · subst h2
      obtain ⟨names, k, rfl, hn⟩ := h
      cases names with
      | nil =>
        cases k with
        | zero => exact ⟨[], 1, by simp [cleanStep_dd_nil], by simp⟩
        | succ k =>
          refine ⟨[], k + 2, ?_, by simp⟩
          simp only [List.nil_append, List.replicate_succ, cleanStep_dd_dd]
      | cons n rest =>
        rw [List.cons_append, cleanStep_dd_name (hn n (List.mem_cons_self _ _))]
        exact ⟨rest, k, rfl, fun x hx => hn x (List.mem_cons_of_mem _ hx)⟩
    · have hname : IsName e := ⟨fun h => h1 (Or.inl h), fun h => h1 (Or.inr h), h2⟩
      rw [cleanStep_name hname]
      obtain ⟨names, k, rfl, hn⟩ := h
      refine ⟨e :: names, k, rfl, ?_⟩
      intro x hx
      rcases List.mem_cons.1 hx with rfl | hx
      · exact hname
      · exact hn x hx

theorem cleanStep_subset (S : List Str) (e : Str) :
    ∀ x ∈ cleanStep false S e, x ∈ S ∨ x = e := by
  intro x hx
  unfold cleanStep at hx
  split at hx
  · exact Or.inl hx
  · split at hx
    · split at hx
      · simp only [Bool.false_eq_true, if_false, List.mem_singleton] at hx
        exact Or.inr hx
      · split at hx
        · rcases List.mem_cons.1 hx with h | h
          · exact Or.inr h
          · exact Or.inl h
        · exact Or.inl (List.mem_cons_of_mem _ hx)
    · rcases List.mem_cons.1 hx with h | h
      · exact Or.inr h
      · exact Or.inl h

theorem foldl_clean_inv (es : List Str) (S : List Str) (h : StackNF S) :
    StackNF (es.foldl (cleanStep false) S) ∧
      ∀ x ∈ es.foldl (cleanStep false) S, x ∈ S ∨ x ∈ es := by
  induction es generalizing S with
  | nil => exact ⟨h, fun x hx => Or.inl hx⟩
  | cons e rest ih =>
    rw [List.foldl_cons]
    obtain ⟨h1, h2⟩ := ih (cleanStep false S e) (cleanStep_StackNF h e)
    refine ⟨h1, fun x hx => ?_⟩
    rcases h2 x hx with h3 | h3
    · rcases cleanStep_subset S e x h3 with h4 | h4
      · exact Or.inl h4
      · exact Or.inr (by simp [h4])
    · exact Or.inr (List.mem_cons_of_mem _ h3)

theorem StackNF_reverse {S : List Str} (h : StackNF S) : NF S.reverse := by
  obtain ⟨names, k, rfl, hn⟩ := h
  refine ⟨k, names.reverse, by simp, ?_⟩
  intro n hmem
  exact hn n (List.mem_reverse.1 hmem)

theorem Clean_rel (p : Str) (h : HasPrefix p ['/'] = false) :
    Clean p = render ((Split p '/').foldl (cleanStep false) []).reverse := by
  unfold Clean render
  simp only [h, Bool.false_eq_true, if_false]

/-- The elements of a clean relative path are in normal form, unless the path
is `.`. -/
theorem Clean_fixed (p : Str) (hrel : HasPrefix p ['/'] = false) (hc : Clean p = p) :
    p = ['.'] ∨ NF (Split p '/') := by
  rw [Clean_rel p hrel] at hc
  have hinv := foldl_clean_inv (Split p '/') [] ⟨[], 0, rfl, by simp⟩
  have hnf := StackNF_reverse hinv.1
  unfold render at hc
  split at hc
  · exact Or.inl hc.symm
  · next hne =>
    right
    have hsplit : Split p '/' = ((Split p '/').foldl (cleanStep false) []).reverse := by
      conv_lhs => rw [← hc]
      refine Split_Join _ _ hne ?_
      intro e he
      rcases hinv.2 e (List.mem_reverse.1 he) with h | h
      · simp at h
      · exact Split_elem_no_sep p '/' e h
    rw [hsplit]
    exact hnf

theorem HasPrefix_slash_cons (x : Char) (rest : Str) (h : x ≠ '/') :
    HasPrefix (x :: rest) ['/'] = false := by
  simp [HasPrefix, List.isPrefixOf, h.symm]

theorem Join_head {e : Str} (es : List Str) (x : Char) (xs : Str) (h : e = x :: xs) :
    ∃ tail, Join (e :: es) ['/'] = x :: tail := by
  subst h
  cases es with
  | nil => exact ⟨xs, rfl⟩
  | cons f fs => exact ⟨_, by rw [Join_cons_cons]; rfl⟩

theorem NF_head_nonempty {e : Str} {es : List Str} (h : NF (e :: es)) :
    ∃ x xs, e = x :: xs := by
  obtain ⟨k, names, heq, hn⟩ := h
  cases k with
  | zero =>
    simp only [List.replicate_zero, List.nil_append] at heq
    subst heq
    have := (hn e (List.mem_cons_self _ _)).1
    cases e with
    | nil => exact absurd rfl this
    | cons x xs => exact ⟨x, xs, rfl⟩
  | succ k =>
    simp only [List.replicate_succ, List.cons_append, List.cons.injEq] at heq
    exact ⟨'.', ['.'], heq.1⟩

/-- The path with the normal-form elements `es` is relative and clean, and its
elements are `es`. -/
theorem render_facts {es : List Str} (hnf : NF es) (hsep : ∀ e ∈ es, '/' ∉ e) :
    HasPrefix (render es) ['/'] = false ∧ Clean (render es) = render es ∧
      (es ≠ [] → Split (render es) '/' = es) := by
  cases es with
  | nil => exact ⟨by decide, by decide, fun h => absurd rfl h⟩
  | cons e rest =>
    have hr : render (e :: rest) = Join (e :: rest) ['/'] := by simp [render]
    obtain ⟨x, xs, hx⟩ := NF_head_nonempty hnf
    obtain ⟨tail, ht⟩ := Join_head rest x xs hx
    have hxne : x ≠ '/' := by
      intro h
      exact hsep e (List.mem_cons_self _ _) (by rw [hx, h]; exact List.mem_cons_self _ _)
    have hrel : HasPrefix (render (e :: rest)) ['/'] = false := by
      rw [hr, ht]
      exact HasPrefix_slash_cons x tail hxne
    have hsplit : Split (render (e :: rest)) '/' = e :: rest := by
      rw [hr]
      exact Split_Join _ _ (by simp) hsep
    refine ⟨hrel, ?_, fun _ => hsplit⟩
    rw [Clean_rel _ hrel, hsplit, foldl_clean_NF hnf, List.reverse_reverse]

theorem dirGo_sep (a b : Str) (h : '/' ∉ a) : dirGo (a ++ '/' :: b) = ('/' :: b).reverse := by
  induction a with
  | nil => simp [dirGo]
  | cons x rest ih =>
    have hx : x ≠ '/' := fun e => h (by simp [e])
    rw [List.cons_append, dirGo, if_neg hx]
    exact ih (fun e => h (List.mem_cons_of_mem _ e))

theorem dirGo_no_sep (a : Str) (h : '/' ∉ a) : dirGo a = [] := by
  induction a with
  | nil => rfl
  | cons x rest ih =>
    have hx : x ≠ '/' := fun e => h (by simp [e])
    rw [dirGo, if_neg hx]
    exact ih (fun e => h (List.mem_cons_of_mem _ e))

theorem names_NF {es : List Str} (h : ∀ e ∈ es, IsName e) : NF es := ⟨0, es, by simp, h⟩

/-- The `Dir` of the path with the elements `init ++ [last]`, `init` being names. -/
theorem Dir_elems (init : List Str) (last : Str) (hn : ∀ e ∈ init, IsName e)
    (hsep : ∀ e ∈ init, '/' ∉ e) (hlast : '/' ∉ last) :
    Dir (Join (init ++ [last]) ['/']) = render init := by
  unfold Dir
  cases init with
  | nil =>
    simp only [List.nil_append, Join]
    rw [dirGo_no_sep _ (by simpa using hlast)]
    decide
  | cons e rest =>
    rw [Join_append_singleton _ _ _ (by simp), List.reverse_append, List.reverse_cons,
      List.append_assoc, List.singleton_append,
      dirGo_sep _ _ (by simpa using hlast)]
    simp only [List.reverse_cons, List.reverse_reverse]
    have hfacts := render_facts (names_NF hn) hsep
    have hr : render (e :: rest) = Join (e :: rest) ['/'] := by simp [render]
    have hrel : HasPrefix (Join (e :: rest) ['/'] ++ ['/']) ['/'] = false := by
      obtain ⟨x, xs, hx⟩ := NF_head_nonempty (names_NF hn)
      obtain ⟨tail, ht⟩ := Join_head rest x xs hx
      rw [ht]
      refine HasPrefix_slash_cons x _ ?_
      intro h
      exact hsep e (List.mem_cons_self _ _) (by rw [hx, h]; exact List.mem_cons_self _ _)
    rw [Clean_rel _ hrel, Split_append_sep, ← hr, hfacts.2.2 (by simp)]
    have hnil : Split [] '/' = [[]] := rfl
    rw [hnil, List.foldl_append, foldl_clean_NF (names_NF hn)]
    simp only [List.foldl_cons, List.foldl_nil, cleanStep_empty, List.reverse_reverse]

theorem extGo_sep (a b acc : Str) (h : '/' ∉ a) : extGo (a ++ '/' :: b) acc = extGo a acc := by
  induction a generalizing acc with
  | nil => simp [extGo]
  | cons x rest ih =>
    have hx : x ≠ '/' := fun e => h (by simp [e])
    rw [List.cons_append, extGo, extGo, if_neg hx, if_neg hx]
    split
    · rfl
    · exact ih _ (fun e => h (List.mem_cons_of_mem _ e))

theorem Ext_elems (init : List Str) (last : Str) (hlast : '/' ∉ last) :
    Ext (Join (init ++ [last]) ['/']) = Ext last := by
  cases init with
  | nil => rfl
  | cons e rest =>
    rw [Join_append_singleton _ _ _ (by simp)]
    unfold Ext
    rw [List.reverse_append, List.reverse_cons, List.append_assoc, List.singleton_append,
      extGo_sep _ _ _ (by simpa using hlast)]

/-- The name of the output module, on the elements of the name of a file: the
last element loses its extension and gets `_pb`. -/
theorem tsFileName_elems (fdp : FileDescriptorProto) (init : List Str) (last : Str)
    (hname : fdp.name = Join (init ++ [last]) ['/']) (hlast : '/' ∉ last) :
    tsFileName fdp = Join (init ++ [TrimSuffix last (Ext last) ++ "_pb".toList]) ['/'] := by
  unfold tsFileName
  simp only
  rw [hname, Ext_elems init last hlast]
  have hl := TrimSuffix_Ext last
  cases init with
  | nil =>
    simp only [List.nil_append, Join]
  | cons e rest =>
    rw [Join_append_singleton _ _ _ (by simp), Join_append_singleton _ _ _ (by simp)]
    have : Join (e :: rest) ['/'] ++ '/' :: last =
        (Join (e :: rest) ['/'] ++ '/' :: TrimSuffix last (Ext last)) ++ Ext last := by
      conv_lhs => rw [← hl]
      simp
    rw [this, TrimSuffix_append]
    simp

theorem stem_no_sep (last : Str) (hlast : '/' ∉ last) : '/' ∉ TrimSuffix last (Ext last) := by
  intro h
  apply hlast
  rw [← TrimSuffix_Ext last]
  exact List.mem_append_left _ h

theorem IsName_pb (stem : Str) : IsName (stem ++ "_pb".toList) := by
  have hlen : (stem ++ "_pb".toList).length = stem.length + 3 := by simp
  refine ⟨?_, ?_, ?_⟩ <;>
    · intro h
      rw [h] at hlen
      simp at hlen
      try omega

theorem NF_cons_iff (e : Str) (es : List Str) :
    NF (e :: es) ↔ (e = ['.', '.'] ∧ NF es) ∨ (IsName e ∧ ∀ x ∈ es, IsName x) := by
  constructor
  · rintro ⟨k, names, heq, hn⟩
    cases k with
    | zero =>
      simp only [List.replicate_zero, List.nil_append] at heq
      subst heq
      exact Or.inr ⟨hn e (List.mem_cons_self _ _), fun x hx => hn x (List.mem_cons_of_mem _ hx)⟩
    | succ k =>
      simp only [List.replicate_succ, List.cons_append, List.cons.injEq] at heq
      exact Or.inl ⟨heq.1, k, names, heq.2, hn⟩
  · rintro (⟨rfl, k, names, rfl, hn⟩ | ⟨he, hes⟩)
    · exact ⟨k + 1, names, by simp [List.replicate_succ], hn⟩
    · refine ⟨0, e :: es, by simp, ?_⟩
      intro x hx
      rcases List.mem_cons.1 hx with rfl | hx
      · exact he
      · exact hes x hx

theorem NF_nil : NF [] := ⟨0, [], rfl, by simp⟩

theorem NF_of_append (a b : List Str) (h : NF (a ++ b)) : NF a := by
  induction a with
  | nil => exact NF_nil
  | cons e rest ih =>
    rw [List.cons_append] at h
    rcases (NF_cons_iff _ _).1 h with ⟨he, hrest⟩ | ⟨he, hrest⟩
    · exact (NF_cons_iff _ _).2 (Or.inl ⟨he, ih hrest⟩)
    · exact (NF_cons_iff _ _).2
        (Or.inr ⟨he, fun x hx => hrest x (List.mem_append_left _ hx)⟩)

theorem NF_snoc_name (a : List Str) (x : Str) (h : NF a) (hx : IsName x) : NF (a ++ [x]) := by
  obtain ⟨k, names, rfl, hn⟩ := h
  refine ⟨k, names ++ [x], by simp, ?_⟩
  intro n hmem
  rcases List.mem_append.1 hmem with h1 | h1
  · exact hn n h1
  · simp only [List.mem_singleton] at h1
    rw [h1]
    exact hx

/-- The loop of `Rel` on a base of names: a common prefix is dropped, the rest
of the base is climbed, the rest of the target is appended. -/
theorem relGo_names (B : List Str) (hB : ∀ b ∈ B, IsName b) (T : List Str) :
    ∃ C B2 T2, B = C ++ B2 ∧ T = C ++ T2 ∧
      relGo B T = some (List.replicate B2.length ['.', '.'] ++ T2) := by
  induction B generalizing T with
  | nil => exact ⟨[], [], T, rfl, rfl, by simp [relGo]⟩
  | cons b bs ih =>
    cases T with
    | nil => exact ⟨[], b :: bs, [], rfl, rfl, by simp [relGo]⟩
    | cons t ts =>
      by_cases hbt : b = t
      · subst hbt
        obtain ⟨C, B2, T2, h1, h2, h3⟩ := ih (fun x hx => hB x (List.mem_cons_of_mem _ hx)) ts
        refine ⟨b :: C, B2, T2, by rw [h1]; rfl, by rw [h2]; rfl, ?_⟩
        rw [relGo, if_pos rfl, h3]
      · refine ⟨[], b :: bs, t :: ts, rfl, rfl, ?_⟩
        rw [relGo, if_neg hbt, if_neg (hB b (List.mem_cons_self _ _)).2.2]
        rfl

theorem foldl_clean_onto (C T2 : List Str) (hC : ∀ c ∈ C, IsName c) (hT : NF (C ++ T2)) :
    T2.foldl (cleanStep false) C.reverse = (C ++ T2).reverse := by
  cases C with
  | nil => simpa using foldl_clean_NF hT
  | cons c rest =>
    rw [List.cons_append] at hT
    rcases (NF_cons_iff _ _).1 hT with ⟨he, _⟩ | ⟨_, hrest⟩
    · exact absurd he (hC c (List.mem_cons_self _ _)).2.2
    · rw [foldl_clean_names T2 (fun x hx => hrest x (List.mem_append_right _ hx))]
      simp

theorem HasPrefix_append (s t : Str) (hs : s ≠ []) :
    HasPrefix (s ++ t) ['/'] = HasPrefix s ['/'] := by
  cases s with
  | nil => exact absurd rfl hs
  | cons x rest => simp [HasPrefix, List.isPrefixOf]

theorem render_ne_nil {es : List Str} (hnf : NF es) : render es ≠ [] := by
  cases es with
  | nil => simp [render]
  | cons e rest =>
    obtain ⟨x, xs, hx⟩ := NF_head_nonempty hnf
    obtain ⟨tail, ht⟩ := Join_head rest x xs hx
    simp [render, ht]

theorem foldl_clean_render {B : List Str} (hB : ∀ b ∈ B, IsName b) (hsep : ∀ b ∈ B, '/' ∉ b) :
    (Split (render B) '/').foldl (cleanStep false) [] = B.reverse := by
  cases B with
  | nil => decide
  | cons b bs =>
    rw [(render_facts (names_NF hB) hsep).2.2 (by simp), foldl_clean_NF (names_NF hB)]

theorem relElems_render {es : List Str} (hnf : NF es) (hsep : ∀ e ∈ es, '/' ∉ e)
    (hne : es ≠ []) : relElems (render es) = es := by
  have hf := render_facts hnf hsep
  unfold relElems
  rw [if_neg (render_ne_nil hnf), if_neg, hf.2.2 hne]
  intro h
  rw [h] at hf
  exact absurd hf.1 (by decide)

theorem render_names_ne_dot {B : List Str} (hB : ∀ b ∈ B, IsName b) (hsep : ∀ b ∈ B, '/' ∉ b)
    (hne : B ≠ []) : render B ≠ ['.'] := by
  intro h
  have := (render_facts (names_NF hB) hsep).2.2 hne
  rw [h] at this
  have hsp : Split ['.'] '/' = [['.']] := by decide
  rw [hsp] at this
  have hmem : (['.'] : Str) ∈ B := by rw [← this]; exact List.mem_singleton_self _
  exact (hB _ hmem).2.1 rfl

/-- The path that `ToRelativeModule` computes from the directory with the
names `B` to the module with the elements `T`, joined to that directory, is
the module. -/
theorem join_rel_elems (B T : List Str) (hB : ∀ b ∈ B, IsName b) (hBsep : ∀ b ∈ B, '/' ∉ b)
    (hT : NF T) (hTsep : ∀ t ∈ T, '/' ∉ t) (hTne : T ≠ []) :
    filepathJoin (render B) ("./".toList ++ (Rel (render B) (render T)).getD []) = render T := by
  have fB := render_facts (names_NF hB) hBsep
  have fT := render_facts hT hTsep
  have hrelJ : ∀ t : Str, HasPrefix (render B ++ '/' :: t) ['/'] = false := by
    intro t
    rw [HasPrefix_append _ _ (render_ne_nil (names_NF hB))]
    exact fB.1
  unfold filepathJoin Rel
  simp only [fB.2.1, fT.2.1]
  by_cases heq : render T = render B
  · rw [if_pos heq]
    simp only [Option.getD_some]
    have hstr : render B ++ '/' :: ("./".toList ++ ['.']) = render B ++ '/' :: "./.".toList := rfl
    rw [hstr, Clean_rel _ (hrelJ _), Split_append_sep, List.foldl_append,
      foldl_clean_render hB hBsep, heq]
    have hsp : Split "./.".toList '/' = [['.'], ['.']] := by decide
    rw [hsp]
    simp only [List.foldl_cons, List.foldl_nil, cleanStep_dot, List.reverse_reverse]
  · rw [if_neg heq]
    have hbase : relElems (if render B = ['.'] then [] else render B) = B := by
      cases B with
      | nil => decide
      | cons b bs =>
        rw [if_neg (render_names_ne_dot hB hBsep (by simp)),
          relElems_render (names_NF hB) hBsep (by simp)]
    have hrelb : HasPrefix (if render B = ['.'] then [] else render B) ['/'] = false := by
      split
      · decide
      · exact fB.1
    rw [hrelb, fT.1]
    simp only [ne_eq, not_true_eq_false, if_false]
    rw [hbase, relElems_render hT hTsep hTne]
    obtain ⟨C, B2, T2, h1, h2, h3⟩ := relGo_names B hB T
    rw [h3]
    simp only [Option.map_some', Option.getD_some]
    have hRne : List.replicate B2.length ['.', '.'] ++ T2 ≠ [] := by
      intro hnil
      simp only [List.append_eq_nil, List.replicate_eq_nil_iff, List.length_eq_zero] at hnil
      apply heq
      rw [h1, h2, hnil.1, hnil.2]
    have hRsep : ∀ e ∈ List.replicate B2.length ['.', '.'] ++ T2, '/' ∉ e := by
      intro e he
      rcases List.mem_append.1 he with h | h
      · rw [(List.mem_replicate.1 h).2]
        decide
      · exact hTsep e (by rw [h2]; exact List.mem_append_right _ h)
    have hstr : render B ++ '/' ::
        ("./".toList ++ Join (List.replicate B2.length ['.', '.'] ++ T2) ['/']) =
        render B ++ '/' :: (['.'] ++ '/' ::
          Join (List.replicate B2.length ['.', '.'] ++ T2) ['/']) := rfl
    rw [hstr, Clean_rel _ (hrelJ _), Split_append_sep, Split_append_sep,
      Split_Join _ _ hRne hRsep, List.foldl_append, foldl_clean_render hB hBsep]
    have hsp : Split ['.'] '/' = [['.']] := by decide
    rw [hsp, List.foldl_append, List.foldl_append]
    simp only [List.foldl_cons, List.foldl_nil, cleanStep_dot]
    have hC : ∀ c ∈ C, IsName c := fun c hc => hB c (by rw [h1]; exact List.mem_append_left _ hc)
    have hB2 : ∀ c ∈ B2, IsName c :=
      fun c hc => hB c (by rw [h1]; exact List.mem_append_right _ hc)
    rw [h1, List.reverse_append, foldl_clean_pop B2 hB2, foldl_clean_onto C T2 hC (h2 ▸ hT),
      List.reverse_reverse, ← h2]

theorem NF_names_of_no_dd {es : List Str} (h : NF es) (hdd : ['.', '.'] ∉ es) :
    ∀ e ∈ es, IsName e := by
  obtain ⟨k, names, rfl, hn⟩ := h
  cases k with
  | zero => simpa using hn
  | succ k => exact absurd (by simp [List.replicate_succ]) hdd

theorem exists_snoc {α : Type} (l : List α) (h : l ≠ []) : ∃ init last, l = init ++ [last] :=
  ⟨l.dropLast, l.getLast h, (List.dropLast_append_getLast h).symm⟩

/-- The directory of a clean relative name without `..` elements is the path
of a list of names. -/
theorem Dir_clean (cur : Str) (hc : Clean cur = cur) (hrel : HasPrefix cur ['/'] = false)
    (hdd : ['.', '.'] ∉ Split cur '/') :
    ∃ B, (∀ b ∈ B, IsName b) ∧ (∀ b ∈ B, '/' ∉ b) ∧ Dir cur = render B := by
  rcases Clean_fixed cur hrel hc with hdot | hnf
  · subst hdot
    exact ⟨[], by simp, by simp, by decide⟩
  · obtain ⟨init, last, hsplit⟩ := exists_snoc _ (Split_ne_nil cur '/')
    have hnames := NF_names_of_no_dd hnf hdd
    have hsep := Split_elem_no_sep cur '/'
    rw [hsplit] at hnames hsep
    refine ⟨init, fun b hb => hnames b (List.mem_append_left _ hb),
      fun b hb => hsep b (List.mem_append_left _ hb), ?_⟩
    have hjoin : cur = Join (init ++ [last]) ['/'] := by rw [← hsplit, Join_Split]
    conv_lhs => rw [hjoin]
    exact Dir_elems init last (fun b hb => hnames b (List.mem_append_left _ hb))
      (fun b hb => hsep b (List.mem_append_left _ hb))
      (hsep last (List.mem_append_right _ (List.mem_singleton_self _)))

/-- The output module of a file with a clean relative name is the path of a
non-empty list of elements in normal form. -/
theorem tsFileName_clean (fdp : FileDescriptorProto) (hc : Clean fdp.name = fdp.name)
    (hrel : HasPrefix fdp.name ['/'] = false) :
    ∃ T, NF T ∧ (∀ t ∈ T, '/' ∉ t) ∧ T ≠ [] ∧ tsFileName fdp = render T := by
  obtain ⟨init, last, hsplit⟩ := exists_snoc _ (Split_ne_nil fdp.name '/')
  have hsep := Split_elem_no_sep fdp.name '/'
  rw [hsplit] at hsep
  have hlast : '/' ∉ last := hsep last (List.mem_append_right _ (List.mem_singleton_self _))
  have hjoin : fdp.name = Join (init ++ [last]) ['/'] := by rw [← hsplit, Join_Split]
  have hinit : NF init := by
    rcases Clean_fixed fdp.name hrel hc with hdot | hnf
    · rw [hdot] at hsplit
      have hsp : Split ['.'] '/' = [['.']] := by decide
      rw [hsp] at hsplit
      cases init with
      | nil => exact NF_nil
      | cons e rest =>
        have := congrArg List.length hsplit
        simp at this
    · rw [hsplit] at hnf
      exact NF_of_append _ _ hnf
  refine ⟨init ++ [TrimSuffix last (Ext last) ++ "_pb".toList],
    NF_snoc_name _ _ hinit (IsName_pb _), ?_, by simp, ?_⟩
  · intro t ht
    rcases List.mem_append.1 ht with h | h
    · exact hsep t (List.mem_append_left _ h)
    · simp only [List.mem_singleton] at h
      rw [h]
      intro hmem
      rcases List.mem_append.1 hmem with h1 | h1
      · exact stem_no_sep last hlast h1
      · revert h1
        decide
  · rw [tsFileName_elems fdp init last hjoin hlast]
    simp [render]

theorem tsFileName_congr {a b : FileDescriptorProto} (h : a.name = b.name) :
    tsFileName a = tsFileName b := by
  unfold tsFileName
  rw [h]

theorem ToRelativeModule_fresh_path {c fdp : FileDescriptorProto} {mod : modRef}
    (h : (({ currentFile := c, references := [] } : moduleResolver).ToRelativeModule fdp).1
      = some mod) :
    mod.path = "./".toList ++ (Rel (Dir c.name) (tsFileName fdp)).getD [] := by
  unfold moduleResolver.ToRelativeModule at h
  split at h
  · cases h
  · simp only [List.lookup, Option.some.injEq] at h
    rw [← h]

theorem ToRelativeModule_some_path {m : moduleResolver} {target : FileDescriptorProto}
    {mod : modRef} (hinv : m.Inv) (h : (m.ToRelativeModule target).1 = some mod) :
    mod.path = "./".toList ++ (Rel (Dir m.currentFile.name) (tsFileName target)).getD [] := by
  unfold moduleResolver.ToRelativeModule at h
  split at h
  · cases h
  · split at h
    · next mod2 hl =>
      simp only [Option.some.injEq] at h
      subst h
      obtain ⟨_, fdp, hname, hfresh⟩ := hinv.2 _ (lookup_some_mem _ _ _ hl)
      rw [ToRelativeModule_fresh_path hfresh, tsFileName_congr hname]
    · simp only [Option.some.injEq] at h
      rw [← h]

/-- C8, as amended: when the names of the current file and of the target are
relative, clean, slash-separated paths and the name of the current file has
no `..` element, the path of the module reference that `ToRelativeModule`
returns, joined to the directory of the name of the current file, is the
output module of the target: the name of the target with its extension
removed and `_pb` appended. -/
theorem ToRelativeModule_path (m : moduleResolver) (target : FileDescriptorProto) (mod : modRef)
    (hinv : m.Inv)
    (hcur : Clean m.currentFile.name = m.currentFile.name ∧
      HasPrefix m.currentFile.name ['/'] = false)
    (hdd : ['.', '.'] ∉ Split m.currentFile.name '/')
    (htgt : Clean target.name = target.name ∧ HasPrefix target.name ['/'] = false)
    (h : (m.ToRelativeModule target).1 = some mod) :
    filepathJoin (Dir m.currentFile.name) mod.path = tsFileName target ∧
      tsFileName target = TrimSuffix target.name (Ext target.name) ++ "_pb".toList := by
  refine ⟨?_, rfl⟩
  obtain ⟨B, hB, hBsep, hdir⟩ := Dir_clean _ hcur.1 hcur.2 hdd
  obtain ⟨T, hT, hTsep, hTne, hts⟩ := tsFileName_clean target htgt.1 htgt.2
  rw [ToRelativeModule_some_path hinv h, hdir, hts]
  exact join_rel_elems B T hB hBsep hT hTsep hTne

/-- C8 as stated fails for the current file `../x.proto` and the target
`y.proto`, both names being relative, clean, slash-separated paths: `Rel`
fails, the path of the module reference is `./`, which resolved against the
directory `..` of the current file is `..`, not the output module `y_pb`. -/
theorem ToRelativeModule_path_counterexample :
    (Clean exUpCur.name = exUpCur.name ∧ HasPrefix exUpCur.name ['/'] = false) ∧
    (Clean exUpTgt.name = exUpTgt.name ∧ HasPrefix exUpTgt.name ['/'] = false) ∧
    (({ currentFile := exUpCur, references := [] } : moduleResolver).ToRelativeModule exUpTgt).1
      = some { alias_ := "___".toList, path := "./".toList } ∧
    filepathJoin (Dir exUpCur.name) "./".toList = "..".toList ∧
    tsFileName exUpTgt = "y_pb".toList :=
  ⟨by decide!, by decide!, by decide!, by decide!, by decide!⟩

/-- C8, as amended, at the current file `a/x.proto` and the target `a/y.proto`:
the path is `./y_pb`, and resolved against the directory `a` it is `a/y_pb`. -/
theorem ToRelativeModule_path_witness :
    (({ currentFile := exPathCur, references := [] } : moduleResolver).ToRelativeModule
        exPathTgt).1 = some { alias_ := "___y_pb".toList, path := "./y_pb".toList } ∧
    filepathJoin (Dir exPathCur.name) "./y_pb".toList = tsFileName exPathTgt ∧
    tsFileName exPathTgt = "a/y_pb".toList :=
  have h : (({ currentFile := exPathCur, references := [] } : moduleResolver).ToRelativeModule
      exPathTgt).1 = some { alias_ := "___y_pb".toList, path := "./y_pb".toList } := by decide!
  ⟨h, (ToRelativeModule_path { currentFile := exPathCur, references := [] } exPathTgt
      { alias_ := "___y_pb".toList, path := "./y_pb".toList }
      ⟨by simp [moduleResolver.keys], by simp⟩ (by decide!) (by decide!) (by decide!) h).1,
    by decide!⟩

/-! ## Scalar fragments -/

theorem readerOf_eq (t : FieldDescriptorProto_Type) (dec : Str) :
    readerOf t dec = (readMethod t).map fun m => dec ++ '.' :: m ++ "()".toList := by
  unfold readerOf readMethod
  simp only [apply_ite (Option.map (fun m => dec ++ '.' :: m ++ "()".toList)),
    Option.map_some', Option.map_none']
  repeat' (refine ite_congr rfl (fun _ => ?_) (fun _ => ?_))
  all_goals simp [Sprintf, Arg.text]

theorem writerOf_eq (t : FieldDescriptorProto_Type) (enc name : Str) :
    writerOf t enc name =
      (writeMethod t).map fun m => enc ++ '.' :: m ++ "(this.".toList ++ name ++ ")".toList := by
  unfold writerOf writeMethod
  simp only [apply_ite (Option.map
      (fun m => enc ++ '.' :: m ++ "(this.".toList ++ name ++ ")".toList)),
    Option.map_some', Option.map_none']
  repeat' (refine ite_congr rfl (fun _ => ?_) (fun _ => ?_))
  all_goals simp [Sprintf, Arg.text]

theorem replaceGo_zero (old new s : Str) : replaceGo old new 0 0 s = s := by
  induction s with
  | nil => simp [replaceGo]
  | cons c cs ih => simp [replaceGo, ih]

theorem replaceGo_skip (old new : Str) (xs rest : Str) :
    replaceGo old new xs.length 0 (xs ++ rest) = rest := by
  induction xs with
  | nil => simpa using replaceGo_zero old new rest
  | cons c cs ih => simpa [replaceGo] using ih

/-- Replacing the first occurrence of `old` in a text that starts with it. -/
theorem Replace_head (old new rest : Str) (h : old ≠ []) :
    Replace (old ++ rest) old new 1 = new ++ rest := by
  unfold Replace
  by_cases hon : old = new
  · simp [hon]
  · cases old with
    | nil => exact absurd rfl h
    | cons c cs =>
      have hp : (c :: cs).isPrefixOf (c :: (cs ++ rest)) = true := by
        rw [List.isPrefixOf_iff_prefix]
        exact ⟨rest, by simp⟩
      simp only [hon, h, false_or, if_false, show ¬ ((1 : Int) = 0) by decide,
        show ¬ ((1 : Int) < 0) by decide, List.cons_append]
      show replaceGo (c :: cs) new 0 (0 + 1) (c :: (cs ++ rest)) = _
      rw [replaceGo, if_pos hp]
      simp [replaceGo_skip]

theorem replaceGo_scan (old new : Str) (c1 c2 : Char) (tl : Str) (hold : old = c1 :: c2 :: tl)
    (hc : c1 ≠ c2) (pre post : Str) (hpre : Contains pre [c1, c2] = false) (n : Nat) :
    replaceGo old new 0 (n + 1) (pre ++ old ++ post)
      = pre ++ new ++ replaceGo old new (old.length - 1) n ((c2 :: tl) ++ post) := by
  induction pre with
  | nil =>
    have hp : old.isPrefixOf (c1 :: ((c2 :: tl) ++ post)) = true := by
      rw [List.isPrefixOf_iff_prefix, hold]
      exact ⟨post, by simp⟩
    have : ([] : Str) ++ old ++ post = c1 :: ((c2 :: tl) ++ post) := by simp [hold]
    rw [this, replaceGo, if_pos hp]
    simp
  | cons x xs ih =>
    have h1 : Contains xs [c1, c2] = false := by
      simp only [Contains, Bool.or_eq_false_iff] at hpre
      exact hpre.2
    have hnp : old.isPrefixOf (x :: (xs ++ old ++ post)) = false := by
      rw [hold]
      cases xs with
      | nil =>
        simp only [List.nil_append, hold, List.cons_append, List.isPrefixOf]
        simp [hc.symm] 
      | cons y ys =>
        simp only [Contains, Bool.or_eq_false_iff] at hpre
        have := hpre.1
        simp only [List.isPrefixOf, Bool.and_true] at this
        simp only [List.cons_append, List.isPrefixOf]
        simp only [Bool.and_eq_false_iff] at this ⊢
        rcases this with h | h
        · exact Or.inl h
        · exact Or.inr (Or.inl h)
    have : (x :: xs) ++ old ++ post = x :: (xs ++ old ++ post) := by simp
    rw [this, replaceGo]
    simp only [hnp, Bool.false_eq_true, if_false]
    rw [ih h1]
    simp

/-- Replacing the first occurrence of `this.<name>` in a text whose part before
that occurrence has no `th`. -/
theorem Replace_this (pre name new post : Str) (hpre : Contains pre ['t', 'h'] = false) :
    Replace (pre ++ ("this.".toList ++ name) ++ post) ("this.".toList ++ name) new 1
      = pre ++ new ++ post := by
  unfold Replace
  by_cases hon : "this.".toList ++ name = new
  · subst hon
    rw [if_pos (Or.inl rfl)]
  · have hne : ("this.".toList ++ name) ≠ [] := by simp
    simp only [hon, hne, false_or, if_false, show ¬ ((1 : Int) = 0) by decide,
      show ¬ ((1 : Int) < 0) by decide]
    have h := replaceGo_scan ("this.".toList ++ name) new 't' 'h' ('i' :: 's' :: '.' :: name)
      (by simp) (by decide) pre post hpre 0
    have h1 : (1 : Int).toNat = 0 + 1 := by decide
    rw [h1, h]
    have h2 : ("this.".toList ++ name).length - 1 = ('h' :: 'i' :: 's' :: '.' :: name).length := by
      simp
    rw [h2, replaceGo_skip]

theorem scalarKinds_writeMethod (t : FieldDescriptorProto_Type) (h : t ∈ scalarKinds) :
    ∃ m, writeMethod t = some m ∧ Contains ('e' :: '.' :: m ++ ['(']) ['t', 'h'] = false := by
  simp only [scalarKinds, List.mem_cons, List.mem_singleton, List.not_mem_nil, or_false] at h
  rcases h with h | h | h | h | h | h | h | h | h | h | h | h | h | h | h | h <;> subst h <;>
    exact ⟨_, rfl, by decide⟩

theorem scalarKinds_readMethod (t : FieldDescriptorProto_Type) (h : t ∈ scalarKinds) :
    ∃ m, readMethod t = some m := by
  simp only [scalarKinds, List.mem_cons, List.mem_singleton, List.not_mem_nil, or_false] at h
  rcases h with h | h | h | h | h | h | h | h | h | h | h | h | h | h | h | h <;> subst h <;>
    exact ⟨_, rfl⟩

theorem scalarKinds_not_message (f : field) (h : f.fd.GetType ∈ scalarKinds) :
    f.isMessage = false := by
  unfold field.isMessage
  generalize f.fd.GetType = t at h
  simp only [scalarKinds, List.mem_cons, List.mem_singleton, List.not_mem_nil, or_false] at h
  rcases h with h | h | h | h | h | h | h | h | h | h | h | h | h | h | h | h <;> subst h <;>
    decide

theorem Sprintf_writeTag (enc : Str) (n wt : Int) :
    Sprintf "%s.writeTag(%d, %d)".toList [.s enc, .d n, .d wt]
      = enc ++ ".writeTag(".toList ++ itoa n ++ ", ".toList ++ itoa wt ++ ")".toList := by
  simp [Sprintf, Arg.text]

theorem primitiveWriter_eq (f : field) (enc : Str) :
    f.primitiveWriter enc = match writeMethod f.fd.GetType with
      | none => .error (.unknownWriter f.fd.GetType)
      | some m => .ok (enc ++ ".writeTag(".toList ++ itoa f.fd.number ++ ", ".toList
          ++ itoa (writeWireType f.fd.GetType) ++ ")".toList,
          enc ++ '.' :: m ++ "(this.".toList ++ f.varName ++ ")".toList) := by
  unfold field.primitiveWriter
  rw [writerOf_eq]
  cases writeMethod f.fd.GetType with
  | none => rfl
  | some m => simp only [Option.map_some', Sprintf_writeTag]

/-- C13: for a field of a scalar kind, `primitiveWriter` returns the tag write
`<enc>.writeTag(<number>, <wire type>)` with the number of the field and the
wire type of its kind (next to the value write `<enc>.<method>(this.<name>)`):
the wire type is 0 for int32, int64, uint32, uint64, sint32, sint64, bool and
enum, 1 for double, fixed64 and sfixed64, 5 for float, fixed32 and sfixed32,
and 2 for string and bytes. -/
theorem primitiveWriter_tag (f : field) (enc : Str) (hkind : f.fd.GetType ∈ scalarKinds) :
    ∃ (wt : Int) (m : Str),
      f.primitiveWriter enc = .ok
        (enc ++ ".writeTag(".toList ++ itoa f.fd.number ++ ", ".toList ++ itoa wt ++ ")".toList,
         enc ++ ".".toList ++ m ++ "(this.".toList ++ f.varName ++ ")".toList) ∧
      (f.fd.GetType ∈ [TYPE_INT32, TYPE_INT64, TYPE_UINT32, TYPE_UINT64, TYPE_SINT32,
          TYPE_SINT64, TYPE_BOOL, TYPE_ENUM] → wt = 0) ∧
      (f.fd.GetType ∈ [TYPE_DOUBLE, TYPE_FIXED64, TYPE_SFIXED64] → wt = 1) ∧
      (f.fd.GetType ∈ [TYPE_FLOAT, TYPE_FIXED32, TYPE_SFIXED32] → wt = 5) ∧
      (f.fd.GetType ∈ [TYPE_STRING, TYPE_BYTES] → wt = 2) := by
  obtain ⟨m, hm, _⟩ := scalarKinds_writeMethod _ hkind
  refine ⟨writeWireType f.fd.GetType, m, ?_, ?_⟩
  · rw [primitiveWriter_eq, hm]
    simp
  · generalize f.fd.GetType = t
    refine ⟨?_, ?_, ?_, ?_⟩ <;> intro h <;>
      simp only [List.mem_cons, List.mem_singleton, List.not_mem_nil, or_false] at h
    · rcases h with h | h | h | h | h | h | h | h <;> subst h <;> rfl
    · rcases h with h | h | h <;> subst h <;> rfl
    · rcases h with h | h | h <;> subst h <;> rfl
    · rcases h with h | h <;> subst h <;> rfl

/-- C13 at the field `repeated int32 xs = 1`. -/
theorem primitiveWriter_tag_witness :
    exPackedField.fd.GetType ∈ scalarKinds ∧
    ∃ (wt : Int) (m : Str),
      exPackedField.primitiveWriter "e".toList = .ok
        ("e".toList ++ ".writeTag(".toList ++ itoa exPackedField.fd.number ++ ", ".toList
            ++ itoa wt ++ ")".toList,
         "e".toList ++ ".".toList ++ m ++ "(this.".toList ++ exPackedField.varName
            ++ ")".toList) ∧
      (exPackedField.fd.GetType ∈ [TYPE_INT32, TYPE_INT64, TYPE_UINT32, TYPE_UINT64,
          TYPE_SINT32, TYPE_SINT64, TYPE_BOOL, TYPE_ENUM] → wt = 0) ∧
      (exPackedField.fd.GetType ∈ [TYPE_DOUBLE, TYPE_FIXED64, TYPE_SFIXED64] → wt = 1) ∧
      (exPackedField.fd.GetType ∈ [TYPE_FLOAT, TYPE_FIXED32, TYPE_SFIXED32] → wt = 5) ∧
      (exPackedField.fd.GetType ∈ [TYPE_STRING, TYPE_BYTES] → wt = 2) :=
  ⟨by decide, primitiveWriter_tag exPackedField "e".toList (by decide)⟩

/-- C11: for a repeated scalar field that is not a member of a oneof, the decode
fragment of `writeDecoder` is, when the kind is packable, the branch on the
wire type `wt`: under `wt == 2` a nested decoder `packed` is read and
`packed.<method>()` is pushed until `packed` is at its end, otherwise one
`<dec>.<method>()` is pushed, `<method>` being the read method of the kind in
both; when the kind is not packable the fragment is the one push of
`<dec>.<method>()`.  The scalar kinds that are not packable are string and
bytes. -/
theorem writeDecoder_repeated_scalar (f : field) (w : writer) (dec wt : Str)
    (mr : moduleResolver) (hmap : f.isMap = false) (hlabel : f.fd.label = some LABEL_REPEATED)
    (hoo : f.isOneofMember = false) (hkind : f.fd.GetType ∈ scalarKinds) (hdec : dec ≠ []) :
    (∃ m, readMethod f.fd.GetType = some m ∧
      f.writeDecoder w dec wt mr = .ok
        (if isPackable f.fd.GetType then
          w.emit
            [("if (%s == 2) \x7b".toList, [.s wt]),
             ("let packed = %s.readDecoder();".toList, [.s dec]),
             ("while (!packed.isEOF()) \x7b".toList, []),
             ("this.%s.push(%s)".toList,
               [.s f.varName, .s ("packed.".toList ++ m ++ "()".toList)]),
             ("\x7d".toList, []),
             ("\x7d else \x7b".toList, []),
             ("this.%s.push(%s)".toList,
               [.s f.varName, .s (dec ++ ".".toList ++ m ++ "()".toList)]),
             ("\x7d".toList, [])]
        else
          w.emit
            [("this.%s.push(%s)".toList,
               [.s f.varName, .s (dec ++ ".".toList ++ m ++ "()".toList)])], mr)) ∧
    (isPackable f.fd.GetType = false ↔
      f.fd.GetType = TYPE_STRING ∨ f.fd.GetType = TYPE_BYTES) := by
  obtain ⟨m, hm⟩ := scalarKinds_readMethod _ hkind
  have hmsg := scalarKinds_not_message f hkind
  refine ⟨⟨m, hm, ?_⟩, ?_⟩
  · have hrep : Replace (dec ++ '.' :: m ++ "()".toList) dec "packed".toList 1
        = "packed".toList ++ ('.' :: m ++ "()".toList) := by
      have := Replace_head dec "packed".toList ('.' :: m ++ "()".toList) hdec
      simpa using this
    unfold field.writeDecoder
    rw [readerOf_eq, hm]
    simp only [hmap, hmsg, hoo, field.isRepeated, hlabel, Bool.false_eq_true, if_false,
      Option.map_some', bind, Except.bind, pure, Except.pure, hrep]
    cases hp : isPackable f.fd.GetType <;> simp [writer.emit]
  · generalize f.fd.GetType = t at hkind
    simp only [scalarKinds, List.mem_cons, List.mem_singleton, List.not_mem_nil, or_false] at hkind
    rcases hkind with h | h | h | h | h | h | h | h | h | h | h | h | h | h | h | h <;> subst h <;>
      decide

/-- C11 at the field `repeated int32 xs = 1`: the fragment is the branch on the
wire type. -/
theorem writeDecoder_repeated_scalar_witness :
    exPackedField.isMap = false ∧ exPackedField.fd.label = some LABEL_REPEATED ∧
    exPackedField.isOneofMember = false ∧ exPackedField.fd.GetType ∈ scalarKinds ∧
    "d".toList ≠ [] ∧
    ∃ m, readMethod exPackedField.fd.GetType = some m ∧
      exPackedField.writeDecoder { w := [], i := 0 } "d".toList "wt".toList
          { currentFile := exPackedFile, references := [] } = .ok
        (if isPackable exPackedField.fd.GetType then
          ({ w := [], i := 0 } : writer).emit
            [("if (%s == 2) \x7b".toList, [.s "wt".toList]),
             ("let packed = %s.readDecoder();".toList, [.s "d".toList]),
             ("while (!packed.isEOF()) \x7b".toList, []),
             ("this.%s.push(%s)".toList,
               [.s exPackedField.varName, .s ("packed.".toList ++ m ++ "()".toList)]),
             ("\x7d".toList, []),
             ("\x7d else \x7b".toList, []),
             ("this.%s.push(%s)".toList,
               [.s exPackedField.varName, .s ("d".toList ++ ".".toList ++ m ++ "()".toList)]),
             ("\x7d".toList, [])]
        else
          ({ w := [], i := 0 } : writer).emit
            [("this.%s.push(%s)".toList,
               [.s exPackedField.varName, .s ("d".toList ++ ".".toList ++ m ++ "()".toList)])],
         { currentFile := exPackedFile, references := [] }) :=
  ⟨rfl, rfl, rfl, by decide, by decide,
    (writeDecoder_repeated_scalar exPackedField { w := [], i := 0 } "d".toList "wt".toList
      { currentFile := exPackedFile, references := [] } rfl rfl rfl (by decide) (by decide)).1⟩

/-- The value write of `primitiveWriter "e"` with `this.<name>` replaced. -/
theorem Replace_value (m name new : Str)
    (h : Contains ('e' :: '.' :: m ++ ['(']) ['t', 'h'] = false) :
    Replace ("e".toList ++ '.' :: m ++ "(this.".toList ++ name ++ ")".toList)
        ("this.".toList ++ name) new 1
      = "e.".toList ++ m ++ "(".toList ++ new ++ ")".toList := by
  have := Replace_this ('e' :: '.' :: m ++ ['(']) name new [')'] h
  simpa using this

/-- C12: `isPacked` holds exactly for the kinds int32, int64, uint32, uint64,
sint32, sint64, fixed32, fixed64, sfixed32, sfixed64, float, double, bool and
enum, and not for string, bytes, message and group.  For a repeated scalar
field the encode fragment of `writeEncoder` (on the encoder `e`) is, when the
kind is packed, a block that creates one nested encoder `packed`, writes each
element with `packed.<method>(elem)` and no tag, and after the loop writes
`packed` once under the number of the field with `e.writeEncoder`; otherwise
it is a loop that writes, per element, the tag `e.writeTag(<number>, <wire
type>)` and then the value `e.<method>(elem)`. -/
theorem writeEncoder_repeated_scalar (f : field) (w : writer) (libMod : modRef)
    (alwaysEmitDefaultValue : Bool) (mr : moduleResolver) :
    (f.isPacked = true ↔
      f.fd.GetType ∈ [TYPE_INT32, TYPE_INT64, TYPE_UINT32, TYPE_UINT64, TYPE_SINT32,
        TYPE_SINT64, TYPE_FIXED32, TYPE_FIXED64, TYPE_SFIXED32, TYPE_SFIXED64, TYPE_FLOAT,
        TYPE_DOUBLE, TYPE_BOOL, TYPE_ENUM]) ∧
    (f.fd.GetType ∈ [TYPE_STRING, TYPE_BYTES, TYPE_MESSAGE, TYPE_GROUP] → f.isPacked = false) ∧
    (f.isMap = false → f.fd.label = some LABEL_REPEATED → f.fd.GetType ∈ scalarKinds →
      ∃ m, writeMethod f.fd.GetType = some m ∧
        f.writeEncoder w libMod "e".toList alwaysEmitDefaultValue mr = .ok
          (if f.isPacked then
            w.emit
              [("\x7b".toList, []),
               ("const packed = new %s.Internal.Encoder();".toList, [.s libMod.alias_]),
               ("for (let elem of this.%s) \x7b".toList, [.s f.varName]),
               ("packed.".toList ++ m ++ "(elem);".toList, []),
               ("\x7d".toList, []),
               ("%s.writeEncoder(packed, %d);".toList, [.s "e".toList, .d f.fd.number]),
               ("\x7d".toList, [])]
          else
            w.emit
              [("for (let elem of this.%s) \x7b".toList, [.s f.varName]),
               ("e.writeTag(".toList ++ itoa f.fd.number ++ ", ".toList
                  ++ itoa (writeWireType f.fd.GetType) ++ ");".toList, []),
               ("e.".toList ++ m ++ "(elem);".toList, []),
               ("\x7d".toList, [])], mr)) := by
  refine ⟨?_, ?_, ?_⟩
  · unfold field.isPacked isPackable
    simp only [Bool.or_eq_true, decide_eq_true_eq, List.mem_cons, List.mem_singleton,
      List.not_mem_nil, or_false]
    tauto
  · unfold field.isPacked
    generalize f.fd.GetType = t
    intro h
    simp only [List.mem_cons, List.mem_singleton, List.not_mem_nil, or_false] at h
    rcases h with h | h | h | h <;> subst h <;> decide
  · intro hmap hlabel hkind
    obtain ⟨m, hm, hth⟩ := scalarKinds_writeMethod _ hkind
    have hmsg := scalarKinds_not_message f hkind
    refine ⟨m, hm, ?_⟩
    have h1 := Replace_value m f.varName "elem".toList hth
    have h2 : Replace ("e.".toList ++ m ++ "(".toList ++ "elem".toList ++ ")".toList)
        "e".toList "packed".toList 1 = "packed".toList ++ ('.' :: m ++ "(elem)".toList) := by
      have := Replace_head "e".toList "packed".toList ('.' :: m ++ "(elem)".toList) (by simp)
      simpa using this
    unfold field.writeEncoder
    rw [primitiveWriter_eq, hm]
    simp only [hmap, hmsg, field.isRepeated, hlabel, Bool.false_eq_true, if_false,
      bind, Except.bind, pure, Except.pure, h1, h2]
    cases hp : f.isPacked <;> simp [writer.emit]

/-- C12 at the field `repeated int32 xs = 1`: the fragment is the packed block. -/
theorem writeEncoder_repeated_scalar_witness :
    exPackedField.isMap = false ∧ exPackedField.fd.label = some LABEL_REPEATED ∧
    exPackedField.fd.GetType ∈ scalarKinds ∧ exPackedField.isPacked = true ∧
    ∃ m, writeMethod exPackedField.fd.GetType = some m ∧
      exPackedField.writeEncoder { w := [], i := 0 }
          { alias_ := "__pb__".toList, path := "protobuf".toList } "e".toList false
          { currentFile := exPackedFile, references := [] } = .ok
        (if exPackedField.isPacked then
          ({ w := [], i := 0 } : writer).emit
            [("\x7b".toList, []),
             ("const packed = new %s.Internal.Encoder();".toList, [.s "__pb__".toList]),
             ("for (let elem of this.%s) \x7b".toList, [.s exPackedField.varName]),
             ("packed.".toList ++ m ++ "(elem);".toList, []),
             ("\x7d".toList, []),
             ("%s.writeEncoder(packed, %d);".toList,
               [.s "e".toList, .d exPackedField.fd.number]),
             ("\x7d".toList, [])]
        else
          ({ w := [], i := 0 } : writer).emit
            [("for (let elem of this.%s) \x7b".toList, [.s exPackedField.varName]),
             ("e.writeTag(".toList ++ itoa exPackedField.fd.number ++ ", ".toList
                ++ itoa (writeWireType exPackedField.fd.GetType) ++ ");".toList, []),
             ("e.".toList ++ m ++ "(elem);".toList, []),
             ("\x7d".toList, [])],
         { currentFile := exPackedFile, references := [] }) :=
  ⟨rfl, rfl, by decide, by decide,
    (writeEncoder_repeated_scalar exPackedField { w := [], i := 0 }
      { alias_ := "__pb__".toList, path := "protobuf".toList } false
      { currentFile := exPackedFile, references := [] }).2.2 rfl rfl (by decide)⟩

/-! ## Message fragments -/

/-- C14: for a field of kind message or group that is not a map, the decode
fragment of `writeDecoder` is: for a repeated field, a block that creates a
new instance, merges the nested decoder into it and pushes it; for a singular
member of a oneof, a block that creates a new instance, merges the nested
decoder into it and assigns to the property of the oneof a new variant of the
member built from it; for a singular field outside a oneof, the assignment of
a new instance under the test that the property is null, followed by the merge
of the nested decoder into the property, and no other assignment. -/
theorem writeDecoder_message_merge (f : field) (w : writer) (dec wt : Str) (mr : moduleResolver)
    (l : FieldDescriptorProto_Label) (oo : oneofRef)
    (hmap : f.isMap = false) (hmsg : f.isMessage = true) (hl : f.fd.label = some l)
    (hoo : f.isOneofMember = true → f.oneof = some oo) :
    f.writeDecoder w dec wt mr = .ok
      (if l = LABEL_REPEATED then
        w.emit
          [("\x7b".toList, []),
           ("let obj = new %s();".toList, [.s f.typeTsName]),
           ("obj.MergeFrom(%s.readDecoder());".toList, [.s dec]),
           ("this.%s.push(obj)".toList, [.s f.varName]),
           ("\x7d".toList, [])]
      else if f.isOneofMember then
        w.emit
          [("\x7b".toList, []),
           ("let msg = new %s();".toList, [.s f.typeTsName]),
           ("msg.MergeFrom(%s.readDecoder());".toList, [.s dec]),
           ("this.%s = new %s.%s(msg);".toList,
             [.s oo.odp.name, .s oo.fqNamespace, .s f.varName]),
           ("\x7d".toList, [])]
      else
        w.emit
          [("if (this.%s == null) this.%s = new %s();".toList,
             [.s f.varName, .s f.varName, .s f.typeTsName]),
           ("this.%s.MergeFrom(%s.readDecoder());".toList, [.s f.varName, .s dec])], mr) := by
  unfold field.writeDecoder
  simp only [hmap, hmsg, field.isRepeated, hl, Bool.false_eq_true, if_false, if_true,
    bind, Except.bind, pure, Except.pure]
  by_cases hr : l = LABEL_REPEATED
  · simp only [hr, decide_True, if_true, writer.emit, List.foldl]
  · cases hm : f.isOneofMember
    · simp only [hr, decide_False, Bool.false_eq_true, if_false, writer.emit, List.foldl]
    · rw [hoo hm]
      simp only [hr, decide_False, Bool.false_eq_true, if_false, if_true, writer.emit,
        List.foldl]

/-- C14 at the member `Child child = 2` of the oneof `choice`: the fragment
assigns a new variant to the property `choice`. -/
theorem writeDecoder_message_merge_witness :
    exMemberField.isMap = false ∧ exMemberField.isMessage = true ∧
    exMemberField.fd.label = some LABEL_OPTIONAL ∧
    (exMemberField.isOneofMember = true → exMemberField.oneof
      = some { odp := { name := "choice".toList }, fqNamespace := "M.choice".toList,
               typeName := "oneof_type".toList }) ∧
    exMemberField.writeDecoder { w := [], i := 0 } "d".toList "wt".toList
        { currentFile := exPackedFile, references := [] } = .ok
      (({ w := [], i := 0 } : writer).emit
          [("\x7b".toList, []),
           ("let msg = new %s();".toList, [.s "Child".toList]),
           ("msg.MergeFrom(%s.readDecoder());".toList, [.s "d".toList]),
           ("this.%s = new %s.%s(msg);".toList,
             [.s "choice".toList, .s "M.choice".toList, .s "child".toList]),
           ("\x7d".toList, [])],
       { currentFile := exPackedFile, references := [] }) :=
  ⟨rfl, rfl, rfl, fun _ => rfl,
    writeDecoder_message_merge exMemberField { w := [], i := 0 } "d".toList "wt".toList
      { currentFile := exPackedFile, references := [] } LABEL_OPTIONAL
      { odp := { name := "choice".toList }, fqNamespace := "M.choice".toList,
        typeName := "oneof_type".toList } rfl rfl rfl (fun _ => rfl)⟩

/-! ## Map fields -/

theorem newField_fd {fd : FieldDescriptorProto} {ns : Option Namespace} {mr mr1 : moduleResolver}
    {f : field} (h : newField fd ns mr = .ok (f, mr1)) : f.fd = fd := by
  unfold newField at h
  split at h
  · split at h
    · cases h
    · split at h
      · cases h
      · simp only [Except.ok.injEq, Prod.mk.injEq] at h
        rw [← h.1]
  · simp only [Except.ok.injEq, Prod.mk.injEq] at h
    rw [← h.1]

theorem newField_isMap {fd : FieldDescriptorProto} {ns : Option Namespace}
    {mr mr1 : moduleResolver} {f : field} (h : newField fd ns mr = .ok (f, mr1)) :
    (f.isMap = true ↔ fd.typeName ≠ [] ∧
      ∃ n scope name dp file, ns = some n ∧
        n.FindFullyQualifiedName fd.typeName = .ok (scope, name, .message dp, file) ∧
        f.typeDescriptor = some (.message dp) ∧ dp.mapEntry = true) := by
  unfold newField at h
  split at h
  · next hne =>
    split at h
    · cases h
    · next n =>
      split at h
      · cases h
      · next typeNs typeName i typeFdp hfind =>
        simp only [Except.ok.injEq, Prod.mk.injEq] at h
        obtain ⟨hf, _⟩ := h
        subst hf
        cases i with
        | message dp =>
          simp only [hne, ne_eq, not_false_eq_true, true_and]
          constructor
          · intro hm
            exact ⟨n, typeNs, typeName, dp, typeFdp, rfl, hfind, rfl, hm⟩
          · rintro ⟨n2, s2, nm2, dp2, fl2, hn, hf2, htd, hme⟩
            cases hn
            simp only [Option.some.injEq, TypeDescriptor.message.injEq] at htd
            subst htd
            exact hme
        | enum ed =>
          simp only [hne, ne_eq, not_false_eq_true, true_and, Bool.false_eq_true, false_iff]
          rintro ⟨n2, s2, nm2, dp2, fl2, hn, hf2, htd, hme⟩
          cases htd
  · next hne =>
    simp only [Except.ok.injEq, Prod.mk.injEq] at h
    obtain ⟨hf, _⟩ := h
    subst hf
    simp only [ne_eq, Decidable.not_not] at hne
    simp [hne]

theorem mapFields_iff (f : field) (dp : DescriptorProto) (htd : f.typeDescriptor = some (.message dp))
    (m m2 : moduleResolver) (k v : field) :
    f.mapFields m = .ok (k, v, m2) ↔
      ∃ kfd vfd rest m1, dp.field = kfd :: vfd :: rest ∧
        newField kfd f.typeNs m = .ok (k, m1) ∧ newField vfd f.typeNs m1 = .ok (v, m2) := by
  unfold field.mapFields
  simp only [htd]
  constructor
  · intro h
    split at h
    · cases h
    · next kfd rest hfs =>
      split at h
      · cases h
      · next k1 m1 hk =>
        split at h
        · cases h
        · next vfd rest2 =>
          split at h
          · cases h
          · next v1 mv hv =>
            simp only [Except.ok.injEq, Prod.mk.injEq] at h
            obtain ⟨rfl, rfl, rfl⟩ := h
            exact ⟨kfd, vfd, rest2, m1, hfs, hk, hv⟩
  · rintro ⟨kfd, vfd, rest, m1, hfs, hk, hv⟩
    simp only [hfs, hk, hv]

theorem Sprintf_Map (K V : Str) :
    Sprintf "Map<%s, %s>".toList [.s K, .s V]
      = "Map<".toList ++ K ++ ", ".toList ++ V ++ ">".toList := by
  simp [Sprintf, Arg.text]

theorem Sprintf_new (t : Str) :
    Sprintf "new %s()".toList [.s t] = "new ".toList ++ t ++ "()".toList := by
  simp [Sprintf, Arg.text]

theorem map_labeledType (f : field) (hmap : f.isMap = true) (m m2 : moduleResolver) (k v : field)
    (K V : Str) (hkv : f.mapFields m = .ok (k, v, m2)) (hK : k.tsType = .ok K)
    (hV : v.tsType = .ok V) :
    f.labeledType m = .ok ("Map<".toList ++ K ++ ", ".toList ++ V ++ ">".toList, m2) := by
  unfold field.labeledType
  rw [if_pos hmap, hkv]
  simp only [hK, hV, Sprintf_Map]

theorem map_defaultValue (f : field) (hmap : f.isMap = true) (m m2 : moduleResolver) (k v : field)
    (K V : Str) (hkv : f.mapFields m = .ok (k, v, m2)) (hK : k.tsType = .ok K)
    (hV : v.tsType = .ok V) :
    f.defaultValue m = .ok
      ("new Map<".toList ++ K ++ ", ".toList ++ V ++ ">()".toList, m2) := by
  unfold field.defaultValue
  rw [if_pos hmap, map_labeledType f hmap m m2 k v K V hkv hK hV]
  simp only [Sprintf_new]
  simp

theorem map_writeDecoder (f : field) (hmap : f.isMap = true) (m m2 : moduleResolver) (k v : field)
    (V : Str) (hkv : f.mapFields m = .ok (k, v, m2)) (hV : v.tsType = .ok V)
    (w : writer) (dec wt : Str) :
    f.writeDecoder w dec wt m = .ok
      (w.emit
        [("\x7b".toList, []),
         ("let obj = new %s();".toList, [.s f.typeTsName]),
         ("obj.MergeFrom(%s.readDecoder());".toList, [.s dec]),
         (if v.isMessage then
            ("this.%s.set(obj.key, obj.value == null ? new %s() : obj.value);".toList,
              [.s f.varName, .s V])
          else ("this.%s.set(obj.key, obj.value);".toList, [.s f.varName])),
         ("\x7d".toList, [])], m2) := by
  unfold field.writeDecoder
  rw [if_pos hmap]
  simp only [bind, Except.bind, pure, Except.pure, hkv, hV]
  cases hvm : v.isMessage
  · simp only [Bool.false_eq_true, if_false, writer.emit, List.foldl]
  · simp only [if_true, writer.emit, List.foldl]

theorem map_writeEncoder (f : field) (hmap : f.isMap = true) (w : writer) (libMod : modRef)
    (enc : Str) (b : Bool) (m : moduleResolver) :
    f.writeEncoder w libMod enc b m = .ok
      (w.emit
        [("for (const [k, v] of this.%s) \x7b".toList, [.s f.varName]),
         ("let obj = new %s();".toList, [.s f.typeTsName]),
         ("obj.key = k;".toList, []),
         ("obj.value = v;".toList, []),
         ("let nested = new %s.Internal.Encoder();".toList, [.s libMod.alias_]),
         ("obj.WriteTo(nested);".toList, []),
         ("%s.writeEncoder(nested, %d);".toList, [.s enc, .d f.fd.number]),
         ("\x7d".toList, [])], m) := by
  unfold field.writeEncoder
  rw [if_pos hmap]
  simp only [pure, Except.pure, writer.emit, List.foldl]

/-- C20: `newField` classifies a field as a map exactly when the field names a
type and the name resolves to a message descriptor whose options flag it as a
map entry; the name of the type plays no part.  For such a field `mapFields`
wraps the fields at positions 0 and 1 of the entry as key and value; with the
types `K` and `V` that `tsType` gives for them the labeled type is
`Map<K, V>` and the default value `new Map<K, V>()`; the decode fragment
merges the nested decoder into a new entry and sets the key of the entry to its
value, to `new V()` in place of a null value when the value is a message; the
encode fragment writes, per pair of the map, one entry with this key and value
through a nested encoder under the number of the field. -/
theorem newField_map_classification (fd : FieldDescriptorProto) (ns : Option Namespace)
    (mr mr1 : moduleResolver) (f : field) (h : newField fd ns mr = .ok (f, mr1)) :
    (f.isMap = true ↔ fd.typeName ≠ [] ∧
      ∃ n scope name dp file, ns = some n ∧
        n.FindFullyQualifiedName fd.typeName = .ok (scope, name, .message dp, file) ∧
        f.typeDescriptor = some (.message dp) ∧ dp.mapEntry = true) ∧
    (f.isMap = true → ∃ dp, f.typeDescriptor = some (.message dp) ∧
      (∀ m k v m2, f.mapFields m = .ok (k, v, m2) ↔
        ∃ kfd vfd rest m1, dp.field = kfd :: vfd :: rest ∧
          newField kfd f.typeNs m = .ok (k, m1) ∧ newField vfd f.typeNs m1 = .ok (v, m2)) ∧
      (∀ m k v m2 K V, f.mapFields m = .ok (k, v, m2) → k.tsType = .ok K → v.tsType = .ok V →
        f.labeledType m = .ok ("Map<".toList ++ K ++ ", ".toList ++ V ++ ">".toList, m2) ∧
        f.defaultValue m
          = .ok ("new Map<".toList ++ K ++ ", ".toList ++ V ++ ">()".toList, m2) ∧
        ∀ w dec wt, f.writeDecoder w dec wt m = .ok
          (w.emit
            [("\x7b".toList, []),
             ("let obj = new %s();".toList, [.s f.typeTsName]),
             ("obj.MergeFrom(%s.readDecoder());".toList, [.s dec]),
             (if v.isMessage then
                ("this.%s.set(obj.key, obj.value == null ? new %s() : obj.value);".toList,
                  [.s f.varName, .s V])
              else ("this.%s.set(obj.key, obj.value);".toList, [.s f.varName])),
             ("\x7d".toList, [])], m2)) ∧
      ∀ w libMod enc b m, f.writeEncoder w libMod enc b m = .ok
        (w.emit
          [("for (const [k, v] of this.%s) \x7b".toList, [.s f.varName]),
           ("let obj = new %s();".toList, [.s f.typeTsName]),
           ("obj.key = k;".toList, []),
           ("obj.value = v;".toList, []),
           ("let nested = new %s.Internal.Encoder();".toList, [.s libMod.alias_]),
           ("obj.WriteTo(nested);".toList, []),
           ("%s.writeEncoder(nested, %d);".toList, [.s enc, .d f.fd.number]),
           ("\x7d".toList, [])], m)) := by
  refine ⟨newField_isMap h, fun hmap => ?_⟩
  obtain ⟨_, n, scope, name, dp, file, _, _, htd, _⟩ := (newField_isMap h).1 hmap
  exact ⟨dp, htd, fun m k v m2 => mapFields_iff f dp htd m m2 k v,
    fun m k v m2 K V hkv hK hV =>
      ⟨map_labeledType f hmap m m2 k v K V hkv hK hV,
        map_defaultValue f hmap m m2 k v K V hkv hK hV,
        fun w dec wt => map_writeDecoder f hmap m m2 k v V hkv hV w dec wt⟩,
    fun w libMod enc b m => map_writeEncoder f hmap w libMod enc b m⟩

/-- C20 at the field `map<string, int32> attrs = 1`: the type `.M.AttrsEntry`
resolves to the entry message, and the field is a map. -/
theorem newField_map_classification_witness :
    newField exMapFd (some exMapNs) { currentFile := exMapFile, references := [] }
      = .ok (exMapField, { currentFile := exMapFile, references := [] }) ∧
    exMapField.isMap = true ∧
    (exMapField.isMap = true ↔ exMapFd.typeName ≠ [] ∧
      ∃ n scope name dp file, some exMapNs = some n ∧
        n.FindFullyQualifiedName exMapFd.typeName = .ok (scope, name, .message dp, file) ∧
        exMapField.typeDescriptor = some (.message dp) ∧ dp.mapEntry = true) :=
  have h : newField exMapFd (some exMapNs) { currentFile := exMapFile, references := [] }
      = .ok (exMapField, { currentFile := exMapFile, references := [] }) := by rfl
  ⟨h, rfl, (newField_map_classification exMapFd (some exMapNs)
    { currentFile := exMapFile, references := [] }
    { currentFile := exMapFile, references := [] } exMapField h).1⟩

/-! ## Kind table -/

theorem GetType_of_type {f : field} {t : FieldDescriptorProto_Type} (ht : f.fd.type = some t) :
    f.fd.GetType = t := by
  simp [FieldDescriptorProto.GetType, ht]

theorem fieldKinds_cases {t : FieldDescriptorProto_Type} (h : t ∈ fieldKinds) :
    t ∈ scalarKinds ∨ t = TYPE_MESSAGE ∨ t = TYPE_GROUP := by
  simp only [fieldKinds, scalarKinds, List.mem_cons, List.mem_singleton, List.not_mem_nil,
    or_false] at h ⊢
  tauto

theorem tsType_ok (f : field) (t : FieldDescriptorProto_Type) (ht : f.fd.type = some t)
    (hk : t ∈ fieldKinds) : ∃ s, f.tsType = .ok s := by
  unfold field.tsType
  simp only [ht]
  simp only [fieldKinds, List.mem_cons, List.mem_singleton, List.not_mem_nil, or_false] at hk
  rcases hk with h | h | h | h | h | h | h | h | h | h | h | h | h | h | h | h | h | h <;>
    subst h <;> exact ⟨_, rfl⟩

theorem defaultValue_ok (f : field) (t : FieldDescriptorProto_Type)
    (l : FieldDescriptorProto_Label) (ht : f.fd.type = some t) (hk : t ∈ fieldKinds)
    (hl : f.fd.label = some l) (hmap : f.isMap = false) (mr : moduleResolver) :
    ∃ s, f.defaultValue mr = .ok (s, mr) := by
  unfold field.defaultValue
  simp only [hmap, Bool.false_eq_true, if_false, field.isRepeated, hl, ht]
  by_cases hr : l = LABEL_REPEATED
  · simp only [hr, decide_True]
    exact ⟨_, rfl⟩
  · simp only [hr, decide_False]
    simp only [fieldKinds, List.mem_cons, List.mem_singleton, List.not_mem_nil, or_false] at hk
    rcases hk with h | h | h | h | h | h | h | h | h | h | h | h | h | h | h | h | h | h <;>
      subst h <;> exact ⟨_, rfl⟩

theorem writeDecoder_message_ok (f : field) (w : writer) (dec wt : Str) (mr : moduleResolver)
    (l : FieldDescriptorProto_Label) (hmap : f.isMap = false) (hmsg : f.isMessage = true)
    (hl : f.fd.label = some l) (hoo : f.isOneofMember = true → f.oneof ≠ none) :
    ∃ w2, f.writeDecoder w dec wt mr = .ok (w2, mr) := by
  unfold field.writeDecoder
  simp only [hmap, hmsg, field.isRepeated, hl, Bool.false_eq_true, if_false, if_true,
    bind, Except.bind, pure, Except.pure]
  by_cases hr : l = LABEL_REPEATED
  · simp only [hr, decide_True, if_true]
    exact ⟨_, rfl⟩
  · cases hm : f.isOneofMember
    · simp only [hr, decide_False, Bool.false_eq_true, if_false]
      exact ⟨_, rfl⟩
    · cases ho : f.oneof with
      | none => exact absurd ho (hoo hm)
      | some oo =>
        simp only [hr, decide_False, Bool.false_eq_true, if_false, if_true]
        exact ⟨_, rfl⟩

theorem writeDecoder_ok (f : field) (t : FieldDescriptorProto_Type)
    (l : FieldDescriptorProto_Label) (ht : f.fd.type = some t) (hk : t ∈ fieldKinds)
    (hl : f.fd.label = some l) (hmap : f.isMap = false)
    (hoo : f.isOneofMember = true → f.oneof ≠ none) (w : writer) (dec wt : Str)
    (mr : moduleResolver) : ∃ w2, f.writeDecoder w dec wt mr = .ok (w2, mr) := by
  have hg := GetType_of_type ht
  cases hmsg : f.isMessage
  · have hs : f.fd.GetType ∈ scalarKinds := by
      rw [hg]
      rcases fieldKinds_cases hk with h | h | h
      · exact h
      · rw [field.isMessage, hg, h] at hmsg
        cases hmsg
      · rw [field.isMessage, hg, h] at hmsg
        cases hmsg
    obtain ⟨m, hm⟩ := scalarKinds_readMethod _ hs
    unfold field.writeDecoder
    rw [readerOf_eq, hm]
    simp only [hmap, hmsg, field.isRepeated, hl, Bool.false_eq_true, if_false,
      Option.map_some', bind, Except.bind, pure, Except.pure]
    cases hmem : f.isOneofMember
    · simp only [Bool.false_eq_true, if_false]
      by_cases hr : l = LABEL_REPEATED
      · simp only [hr, decide_True, Bool.not_true, Bool.false_eq_true, if_false]
        exact ⟨_, rfl⟩
      · simp only [hr, decide_False, Bool.not_false, if_true]
        exact ⟨_, rfl⟩
    · simp only [if_true]
      cases ho : f.oneof with
      | none => exact absurd ho (hoo hmem)
      | some oo => exact ⟨_, rfl⟩
  · cases hmem : f.isOneofMember
    · exact writeDecoder_message_ok f w dec wt mr l hmap hmsg hl
        (by intro h; rw [hmem] at h; cases h)
    · exact writeDecoder_message_ok f w dec wt mr l hmap hmsg hl hoo

theorem writeEncoder_ok (f : field) (t : FieldDescriptorProto_Type)
    (l : FieldDescriptorProto_Label) (ht : f.fd.type = some t) (hk : t ∈ fieldKinds)
    (hl : f.fd.label = some l) (hmap : f.isMap = false) (w : writer) (libMod : modRef)
    (enc : Str) (b : Bool) (mr : moduleResolver) :
    ∃ w2, f.writeEncoder w libMod enc b mr = .ok (w2, mr) := by
  have hg := GetType_of_type ht
  cases hmsg : f.isMessage
  · have hs : f.fd.GetType ∈ scalarKinds := by
      rw [hg]
      rcases fieldKinds_cases hk with h | h | h
      · exact h
      · rw [field.isMessage, hg, h] at hmsg
        cases hmsg
      · rw [field.isMessage, hg, h] at hmsg
        cases hmsg
    obtain ⟨m, hm, _⟩ := scalarKinds_writeMethod _ hs
    obtain ⟨dv, hdv⟩ := defaultValue_ok f t l ht hk hl hmap mr
    unfold field.writeEncoder
    rw [primitiveWriter_eq, hm]
    simp only [hmap, hmsg, field.isRepeated, hl, Bool.false_eq_true, if_false,
      bind, Except.bind, pure, Except.pure]
    by_cases hr : l = LABEL_REPEATED
    · simp only [hr, decide_True, Bool.not_true, Bool.false_eq_true, if_false]
      cases f.isPacked <;> exact ⟨_, rfl⟩
    · simp only [hr, decide_False, Bool.not_false, if_true]
      cases b
      · simp only [Bool.not_false, if_true]
        by_cases hb : f.fd.GetType = TYPE_BYTES
        · simp only [hb, if_true]
          exact ⟨_, rfl⟩
        · simp only [hb, if_false, hdv]
          exact ⟨_, rfl⟩
      · simp only [Bool.not_true, Bool.false_eq_true, if_false]
        exact ⟨_, rfl⟩
  · unfold field.writeEncoder
    simp only [hmap, hmsg, field.isRepeated, hl, Bool.false_eq_true, if_false, if_true,
      bind, Except.bind, pure, Except.pure]
    by_cases hr : l = LABEL_REPEATED
    · simp only [hr, decide_True, if_true]
      exact ⟨_, rfl⟩
    · simp only [hr, decide_False, Bool.false_eq_true, if_false]
      exact ⟨_, rfl⟩

theorem unknown_kind {t : FieldDescriptorProto_Type} (h : t ∉ fieldKinds) :
    readMethod t = none ∧ writeMethod t = none ∧ typeString t = itoa t ∧
      (t = TYPE_MESSAGE ∨ t = TYPE_GROUP) = False := by
  simp only [fieldKinds, List.mem_cons, List.mem_singleton, List.not_mem_nil, or_false,
    not_or] at h
  obtain ⟨h1, h2, h3, h4, h5, h6, h7, h8, h9, h10, h11, h12, h13, h14, h15, h16, h17, h18⟩ := h
  refine ⟨?_, ?_, ?_, ?_⟩
  · simp [readMethod, *]
  · simp [writeMethod, *]
  · have e : ∀ k : Int, ¬ t = k → (t == k) = false := fun k hk => by simpa using hk
    simp only [typeString, typeNames, List.lookup, e _ h1, e _ h2, e _ h3, e _ h4, e _ h5,
      e _ h6, e _ h7, e _ h8, e _ h9, e _ h10, e _ h11, e _ h12, e _ h13, e _ h14, e _ h15,
      e _ h16, e _ h17, e _ h18]
  · simp [*]

/-- C19: for a field whose kind is one of double, float, int32, int64, uint32,
uint64, sint32, sint64, fixed32, fixed64, sfixed32, sfixed64, bool, string,
bytes, enum, message and group, `tsType` returns a type; with any label, for a
field that is not a map, `defaultValue` and `writeEncoder` return, and so does
`writeDecoder` when a member of a oneof points at its oneof; for a map field
whose key and value fields are of these kinds the three return as well.  For a
field of any other kind that is not a map, `writeDecoder` and `writeEncoder`
panic, and the message of the panic ends with the number of the kind. -/
theorem kind_table_exhaustive (f : field) (t : FieldDescriptorProto_Type)
    (ht : f.fd.type = some t) :
    (t ∈ fieldKinds →
      (∃ s, f.tsType = .ok s) ∧
      (∀ l, f.fd.label = some l → f.isMap = false →
        (∀ mr, ∃ s, f.defaultValue mr = .ok (s, mr)) ∧
        (∀ w libMod enc b mr, ∃ w2, f.writeEncoder w libMod enc b mr = .ok (w2, mr)) ∧
        ((f.isOneofMember = true → f.oneof ≠ none) →
          ∀ w dec wt mr, ∃ w2, f.writeDecoder w dec wt mr = .ok (w2, mr))) ∧
      (f.isMap = true → ∀ mr k v mr2 tk tv, f.mapFields mr = .ok (k, v, mr2) →
        k.fd.type = some tk → tk ∈ fieldKinds → v.fd.type = some tv → tv ∈ fieldKinds →
        (∃ s, f.defaultValue mr = .ok (s, mr2)) ∧
        (∀ w dec wt, ∃ w2, f.writeDecoder w dec wt mr = .ok (w2, mr2)) ∧
        (∀ w libMod enc b, ∃ w2, f.writeEncoder w libMod enc b mr = .ok (w2, mr)))) ∧
    (t ∉ fieldKinds → f.isMap = false →
      (∀ w dec wt mr, f.writeDecoder w dec wt mr = .error (.unknownReader t)) ∧
      (∀ w libMod enc b mr, f.writeEncoder w libMod enc b mr = .error (.unknownWriter t)) ∧
      (CodegenPanic.unknownReader t).message = "unknown reader for fd type: ".toList ++ itoa t ∧
      (CodegenPanic.unknownWriter t).message
        = "unknown primitive writer for fd type: ".toList ++ itoa t) := by
  have hg := GetType_of_type ht
  refine ⟨fun hk => ⟨tsType_ok f t ht hk, ?_, ?_⟩, ?_⟩
  · intro l hl hmap
    exact ⟨fun mr => defaultValue_ok f t l ht hk hl hmap mr,
      fun w libMod enc b mr => writeEncoder_ok f t l ht hk hl hmap w libMod enc b mr,
      fun hoo w dec wt mr => writeDecoder_ok f t l ht hk hl hmap hoo w dec wt mr⟩
  · intro hmap mr k v mr2 tk tv hkv htk hk1 htv hk2
    obtain ⟨K, hK⟩ := tsType_ok k tk htk hk1
    obtain ⟨V, hV⟩ := tsType_ok v tv htv hk2
    exact ⟨⟨_, map_defaultValue f hmap mr mr2 k v K V hkv hK hV⟩,
      fun w dec wt => ⟨_, map_writeDecoder f hmap mr mr2 k v V hkv hV w dec wt⟩,
      fun w libMod enc b => ⟨_, map_writeEncoder f hmap w libMod enc b mr⟩⟩
  · intro hk hmap
    obtain ⟨h1, h2, h3, h4⟩ := unknown_kind hk
    have hmsg : f.isMessage = false := by
      unfold field.isMessage
      rw [hg]
      simpa using h4
    refine ⟨?_, ?_, ?_, ?_⟩
    · intro w dec wt mr
      unfold field.writeDecoder
      rw [readerOf_eq, hg, h1]
      simp only [hmap, hmsg, Bool.false_eq_true, if_false, Option.map_none', throw, throwThe,
        MonadExceptOf.throw]
    · intro w libMod enc b mr
      unfold field.writeEncoder
      rw [primitiveWriter_eq, hg, h2]
      simp only [hmap, hmsg, Bool.false_eq_true, if_false, bind, Except.bind]
    · simp only [CodegenPanic.message, h3]
      simp [Sprintf, Arg.text]
    · simp only [CodegenPanic.message, h3]
      simp [Sprintf, Arg.text]

/-- C19 at the field `repeated int32 xs = 1`. -/
theorem kind_table_exhaustive_witness :
    exPackedField.fd.type = some TYPE_INT32 ∧ TYPE_INT32 ∈ fieldKinds ∧
    exPackedField.fd.label = some LABEL_REPEATED ∧ exPackedField.isMap = false ∧
    (∃ s, exPackedField.tsType = .ok s) ∧
    (∀ mr, ∃ s, exPackedField.defaultValue mr = .ok (s, mr)) ∧
    (∀ w libMod enc b mr, ∃ w2, exPackedField.writeEncoder w libMod enc b mr = .ok (w2, mr)) ∧
    ((exPackedField.isOneofMember = true → exPackedField.oneof ≠ none) →
      ∀ w dec wt mr, ∃ w2, exPackedField.writeDecoder w dec wt mr = .ok (w2, mr)) :=
  ⟨rfl, by decide, rfl, rfl,
    ((kind_table_exhaustive exPackedField TYPE_INT32 rfl).1 (by decide)).1,
    ((kind_table_exhaustive exPackedField TYPE_INT32 rfl).1 (by decide)).2.1
      LABEL_REPEATED rfl rfl⟩

/-! ## Services -/

theorem foldl_skip {α β : Type} (p : α → Bool) (g : β → α → β) (xs : List α) (b : β) :
    xs.foldl (fun b x => if p x then b else g b x) b = (xs.filter fun x => !p x).foldl g b := by
  induction xs generalizing b with
  | nil => rfl
  | cons x rest ih =>
    cases hp : p x
    · simp only [List.foldl_cons, hp, Bool.false_eq_true, if_false, List.filter_cons,
        Bool.not_false, if_true]
      exact ih _
    · simp only [List.foldl_cons, hp, if_true, List.filter_cons, Bool.not_true,
        Bool.false_eq_true, if_false]
      exact ih _

theorem foldlM_collect {α β σ : Type} (g : σ → α → Except CodegenPanic (β × σ))
    (R : α → β → Prop) (hR : ∀ x s y s2, g s x = .ok (y, s2) → R x y) (xs : List α) :
    ∀ (acc : List β) (s : σ) (ys : List β) (s2 : σ),
      xs.foldlM (fun (st : List β × σ) x => do
          let (y, s) ← g st.2 x
          pure (st.1 ++ [y], s)) (acc, s) = .ok (ys, s2) →
      ∃ zs, ys = acc ++ zs ∧ List.Forall₂ R xs zs := by
  induction xs with
  | nil =>
    intro acc s ys s2 h
    simp only [List.foldlM_nil, pure, Except.pure, Except.ok.injEq, Prod.mk.injEq] at h
    exact ⟨[], by simp [h.1], List.Forall₂.nil⟩
  | cons x rest ih =>
    intro acc s ys s2 h
    rw [List.foldlM_cons] at h
    simp only [bind, Except.bind, pure, Except.pure] at h
    cases hx : g s x with
    | error e => simp [hx] at h
    | ok r =>
      obtain ⟨y, s1⟩ := r
      simp only [hx] at h
      obtain ⟨zs, hz, hf⟩ := ih _ _ _ _ h
      exact ⟨y :: zs, by simp [hz], List.Forall₂.cons (hR _ _ _ _ hx) hf⟩

theorem newMethod_names {mdp : MethodDescriptorProto} {ns : Namespace} {mr mr2 : moduleResolver}
    {m : method} (h : newMethod mdp ns mr = .ok (m, mr2)) : m.mdp = mdp ∧ m.TsName = mdp.name := by
  unfold newMethod at h
  simp only [bind, Except.bind, pure, Except.pure] at h
  split at h
  · cases h
  · split at h
    · cases h
    · simp only [Except.ok.injEq, Prod.mk.injEq] at h
      rw [← h.1]
      exact ⟨rfl, rfl⟩

theorem genOptions_grpc (params : List Str) :
    ∀ (g : Bool) (l : Str) (o : Bool × Str), genOptions params (g, l) = .ok o →
      (o.1 = true ↔ g = true ∨ "plugin=grpc".toList ∈ params) := by
  induction params with
  | nil =>
    intro g l o h
    simp only [genOptions, Except.ok.injEq] at h
    subst h
    simp
  | cons p ps ih =>
    intro g l o h
    by_cases h1 : p = "plugin=grpc".toList
    · rw [genOptions, if_pos h1] at h
      rw [ih _ _ _ h]
      simp [h1]
    · by_cases h2 : HasPrefix p "library_import=".toList = true
      · rw [genOptions, if_neg h1, if_pos h2] at h
        rw [ih _ _ _ h]
        constructor
        · rintro (hg | hm)
          · exact Or.inl hg
          · exact Or.inr (List.mem_cons_of_mem _ hm)
        · rintro (hg | hm)
          · exact Or.inl hg
          · rcases List.mem_cons.1 hm with hp | hm
            · exact absurd hp.symm h1
            · exact Or.inr hm
      · rw [genOptions, if_neg h1, if_neg h2] at h
        cases h

theorem writeService_eq {w w3 : writer} {sdp : ServiceDescriptorProto} {pkg : Str}
    {ns : Namespace} {mr mr3 : moduleResolver} {libMod : modRef}
    (h : writeService w sdp pkg ns mr libMod = .ok (w3, mr3)) :
    ∃ methods : List method,
      List.Forall₂ (fun mdp m => m.mdp = mdp ∧ m.TsName = mdp.name ∧
        ∃ mA mB, newMethod mdp ns mA = .ok (m, mB)) sdp.method methods ∧
      w3 = ((methods.filter fun m => !m.isStreaming).foldl
          (fun w m => w.ln.emit
            [("async %s(min: %s, ...co: %s.Grpc.CallOption[]): Promise<%s> \x7b".toList,
               [.s m.TsName, .s m.InputTsName, .s libMod.alias_, .s m.OutputTsName]),
             ("let mout = new %s();".toList, [.s m.OutputTsName]),
             ("await this.cc.Invoke('/%s/%s', min, mout, ...co);".toList,
               [.s (if pkg ≠ [] then pkg ++ ".".toList ++ sdp.name else sdp.name),
                .s m.mdp.name]),
             ("return mout;".toList, []),
             ("\x7d".toList, [])])
          (w.emit
            [("export class %sClient \x7b".toList, [.s sdp.name]),
             ("private cc: %s.Grpc.ClientConn;".toList, [.s libMod.alias_]),
             ("constructor(cc: %s.Grpc.ClientConn) \x7b".toList, [.s libMod.alias_]),
             ("this.cc = cc;".toList, []),
             ("\x7d".toList, [])])).p "\x7d".toList [] := by
  unfold writeService at h
  simp only [bind, Except.bind, pure, Except.pure] at h
  split at h
  · cases h
  · next r hr =>
    obtain ⟨methods, mr1⟩ := r
    simp only [Except.ok.injEq, Prod.mk.injEq] at h
    obtain ⟨zs, hz, hf⟩ := foldlM_collect (fun s mdp => newMethod mdp ns s)
      (fun mdp m => m.mdp = mdp ∧ m.TsName = mdp.name ∧
        ∃ mA mB, newMethod mdp ns mA = .ok (m, mB))
      (fun x s y s2 hx => ⟨(newMethod_names hx).1, (newMethod_names hx).2, s, s2, hx⟩)
      sdp.method [] mr methods mr1 hr
    simp only [List.nil_append] at hz
    subst hz
    refine ⟨methods, hf, ?_⟩
    rw [← h.1, foldl_skip]
    rfl

theorem writeFileBody_services {ord : MapOrder} {w w2 : writer} {fdp : FileDescriptorProto}
    {ns : Namespace} {libMod : modRef} {gs : Bool} {imports : Str}
    (h : writeFileBody ord w fdp ns libMod gs = .ok (imports, w2)) :
    ∃ (w1 : writer) (mr1 mr2 : moduleResolver),
      fdp.messageType.foldlM
          (fun (st : writer × moduleResolver) dp => writeDescriptor st.1 ns st.2 libMod [] dp)
          (fdp.enumType.foldl (fun w edp => writeEnum w edp [])
            (((w.emit
              [("// Generated by the protocol buffer compiler.  DO NOT EDIT!".toList, []),
               ("// Source: %s".toList, [.s fdp.name])]).ln.p importPlaceholder []).ln),
           { currentFile := fdp, references := [] }) = .ok (w1, mr1) ∧
      if gs then
        fdp.service.foldlM
          (fun (st : writer × moduleResolver) sdp =>
            writeService st.1 sdp fdp.package ns st.2 libMod) (w1, mr1) = .ok (w2, mr2)
      else w2 = w1 := by
  unfold writeFileBody at h
  simp only [bind, Except.bind, pure, Except.pure] at h
  split at h
  · cases h
  · next r hr =>
    obtain ⟨w1, mr1⟩ := r
    cases gs
    · simp only [Bool.false_eq_true, if_false, Except.ok.injEq, Prod.mk.injEq] at h
      exact ⟨w1, mr1, mr1, hr, by simp [h.2]⟩
    · simp only [if_true] at h
      split at h
      · cases h
      · next r2 hr2 =>
        obtain ⟨w3, mr3⟩ := r2
        simp only [Except.ok.injEq, Prod.mk.injEq] at h
        refine ⟨w1, mr1, mr3, hr, ?_⟩
        simp only [if_true]
        rw [hr2, h.2]

/-- C18: in a run whose options are accepted, services are generated exactly
when `plugin=grpc` is one of the option items: the text of a file ends with its
messages when the option is not given, and is followed by the services of the
file, written by `writeService` in order, when it is.  `writeService` emits
the class `<Service>Client` and in it, for the methods that are neither
client-streaming nor server-streaming, in the order of the declaration, one
method `async <Method>(...)` each, and nothing for the other methods; the
method creates `mout` as a new instance of the output type, invokes the path
`/<package>.<Service>/<Method>`, or `/<Service>/<Method>` when the package is
empty, and returns `mout`. -/
theorem writeService_client (ord : MapOrder) (req : CodeGeneratorRequest) (gs : Bool) (lib : Str)
    (w w2 : writer) (fdp : FileDescriptorProto) (rootNs : Namespace) (libMod : modRef)
    (imports : Str)
    (ho : genOptions (Split req.parameter ',') (false, "protobuf".toList) = .ok (gs, lib))
    (h : writeFile ord w fdp rootNs libMod gs = .ok (imports, w2)) :
    (gs = true ↔ "plugin=grpc".toList ∈ Split req.parameter ',') ∧
    ∃ (ns : Namespace) (w1 : writer) (mr1 mr2 : moduleResolver),
      rootNs.FindFullyQualifiedNamespace (".".toList ++ fdp.package) = some ns ∧
      fdp.messageType.foldlM
          (fun (st : writer × moduleResolver) dp => writeDescriptor st.1 ns st.2 libMod [] dp)
          (fdp.enumType.foldl (fun w edp => writeEnum w edp [])
            (((w.emit
              [("// Generated by the protocol buffer compiler.  DO NOT EDIT!".toList, []),
               ("// Source: %s".toList, [.s fdp.name])]).ln.p importPlaceholder []).ln),
           { currentFile := fdp, references := [] }) = .ok (w1, mr1) ∧
      (if gs then
        fdp.service.foldlM
          (fun (st : writer × moduleResolver) sdp =>
            writeService st.1 sdp fdp.package ns st.2 libMod) (w1, mr1) = .ok (w2, mr2)
      else w2 = w1) ∧
      ∀ (w w3 : writer) (sdp : ServiceDescriptorProto) (mr mr3 : moduleResolver),
        writeService w sdp fdp.package ns mr libMod = .ok (w3, mr3) →
        ∃ methods : List method,
          List.Forall₂ (fun mdp m => m.mdp = mdp ∧ m.TsName = mdp.name ∧
            ∃ mA mB, newMethod mdp ns mA = .ok (m, mB)) sdp.method methods ∧
          w3 = ((methods.filter fun m => !m.isStreaming).foldl
              (fun w m => w.ln.emit
                [("async %s(min: %s, ...co: %s.Grpc.CallOption[]): Promise<%s> \x7b".toList,
                   [.s m.TsName, .s m.InputTsName, .s libMod.alias_, .s m.OutputTsName]),
                 ("let mout = new %s();".toList, [.s m.OutputTsName]),
                 ("await this.cc.Invoke('/%s/%s', min, mout, ...co);".toList,
                   [.s (if fdp.package ≠ [] then fdp.package ++ ".".toList ++ sdp.name
                        else sdp.name),
                    .s m.mdp.name]),
                 ("return mout;".toList, []),
                 ("\x7d".toList, [])])
              (w.emit
                [("export class %sClient \x7b".toList, [.s sdp.name]),
                 ("private cc: %s.Grpc.ClientConn;".toList, [.s libMod.alias_]),
                 ("constructor(cc: %s.Grpc.ClientConn) \x7b".toList, [.s libMod.alias_]),
                 ("this.cc = cc;".toList, []),
                 ("\x7d".toList, [])])).p "\x7d".toList [] := by
  refine ⟨?_, ?_⟩
  · have := genOptions_grpc _ _ _ _ ho
    simpa using this
  · unfold writeFile at h
    split at h
    · cases h
    · split at h
      · cases h
      · next ns hns =>
        split at h
        · cases h
        · next r hbody =>
          simp only [Except.ok.injEq] at h
          subst h
          obtain ⟨w1, mr1, mr2, hm, hs⟩ := writeFileBody_services hbody
          exact ⟨ns, w1, mr1, mr2, hns, hm, hs, fun w w3 sdp mr mr3 hw => writeService_eq hw⟩

set_option maxRecDepth 100000 in
/-- C18 at `s.proto` of `exSvcReq`, whose service `Greeter` has the unary
method `Hello` and the streaming method `Watch`: the client class has the
method `Hello`, which invokes `/pkg.Greeter/Hello`, and no method `Watch`. -/
theorem writeService_client_witness :
    genOptions (Split exSvcReq.parameter ',') (false, "protobuf".toList)
        = .ok (true, "protobuf".toList) ∧
      writeFile MapOrder.insertion { w := [], i := 0 } exSvcFile exSvcNs
        { alias_ := "__pb__".toList, path := "protobuf".toList } true = .ok exSvcOut ∧
      (true = true ↔ "plugin=grpc".toList ∈ Split exSvcReq.parameter ',') ∧
      Contains exSvcOut.2.w
        ("export class GreeterClient \x7b\n" ++
         "  private cc: __pb__.Grpc.ClientConn;\n" ++
         "  constructor(cc: __pb__.Grpc.ClientConn) \x7b\n" ++
         "    this.cc = cc;\n" ++
         "  \x7d\n" ++
         "\n" ++
         "  async Hello(min: Req, ...co: __pb__.Grpc.CallOption[]): Promise<Resp> \x7b\n" ++
         "    let mout = new Resp();\n" ++
         "    await this.cc.Invoke('/pkg.Greeter/Hello', min, mout, ...co);\n" ++
         "    return mout;\n" ++
         "  \x7d\n" ++
         "\x7d\n").toList = true ∧
      Contains exSvcOut.2.w "Watch".toList = false :=
  have ho : genOptions (Split exSvcReq.parameter ',') (false, "protobuf".toList)
      = .ok (true, "protobuf".toList) := by decide!
  have h : writeFile MapOrder.insertion { w := [], i := 0 } exSvcFile exSvcNs
      { alias_ := "__pb__".toList, path := "protobuf".toList } true = .ok exSvcOut := by
    decide!
  ⟨ho, h,
    (writeService_client MapOrder.insertion exSvcReq true "protobuf".toList
      { w := [], i := 0 } exSvcOut.2 exSvcFile exSvcNs
      { alias_ := "__pb__".toList, path := "protobuf".toList } exSvcOut.1 ho h).1,
    by decide!, by decide!⟩

/-! ## Resolver growth -/

theorem Grows.unchanged (m : moduleResolver) : Grows m m := ⟨rfl, [], by simp⟩

theorem Grows.chain {a b c : moduleResolver} (h1 : Grows a b) (h2 : Grows b c) : Grows a c := by
  obtain ⟨e1, x1, hx1⟩ := h1
  obtain ⟨e2, x2, hx2⟩ := h2
  exact ⟨e2.trans e1, x1 ++ x2, by rw [hx2, hx1, List.append_assoc]⟩

theorem lookup_append_some (l e : List (Str × modRef)) (k : Str) (v : modRef)
    (h : l.lookup k = some v) : (l ++ e).lookup k = some v := by
  induction l with
  | nil => simp [List.lookup] at h
  | cons x rest ih =>
    obtain ⟨a, b⟩ := x
    by_cases hk : k = a
    · subst hk
      simp only [List.lookup, beq_self_eq_true, List.cons_append] at h ⊢
      exact h
    · have h3 : (k == a) = false := by simpa using hk
      simp only [List.lookup, h3, List.cons_append] at h ⊢
      exact ih h

theorem ToRelativeModule_grows (m : moduleResolver) (t : FileDescriptorProto) :
    Grows m (m.ToRelativeModule t).2 := by
  unfold moduleResolver.ToRelativeModule
  split
  · exact Grows.unchanged m
  · split
    · exact Grows.unchanged m
    · exact ⟨rfl, _, rfl⟩

theorem ToRelativeModule_stable (m m2 : moduleResolver) (t : FileDescriptorProto)
    (h : Grows (m.ToRelativeModule t).2 m2) :
    m2.ToRelativeModule t = ((m.ToRelativeModule t).1, m2) := by
  unfold moduleResolver.ToRelativeModule at h ⊢
  obtain ⟨hc, extra, he⟩ := h
  by_cases hs : t.name = m.currentFile.name
  · rw [if_pos hs] at hc he ⊢
    rw [if_pos (hs.trans (by rw [hc]))]
  · rw [if_neg hs] at hc he ⊢
    cases hl : m.references.lookup t.name with
    | some mod =>
      simp only [hl] at hc he ⊢
      rw [if_neg (by rw [hc]; exact hs), he, lookup_append_some _ _ _ _ hl]
    | none =>
      simp only [hl] at hc he ⊢
      rw [if_neg (by rw [hc]; exact hs), he,
        lookup_append_some _ _ _ _ (lookup_append_new _ _ _ hl)]

theorem newField_grows {fd : FieldDescriptorProto} {ns : Option Namespace}
    {m m1 : moduleResolver} {f : field} (h : newField fd ns m = .ok (f, m1)) : Grows m m1 := by
  unfold newField at h
  split at h
  · split at h
    · cases h
    · split at h
      · cases h
      · simp only [Except.ok.injEq, Prod.mk.injEq] at h
        rw [← h.2]
        exact ToRelativeModule_grows _ _
  · simp only [Except.ok.injEq, Prod.mk.injEq] at h
    rw [← h.2]
    exact Grows.unchanged m

theorem newField_stable {fd : FieldDescriptorProto} {ns : Option Namespace}
    {m m1 m2 : moduleResolver} {f : field} (h : newField fd ns m = .ok (f, m1))
    (hg : Grows m1 m2) : newField fd ns m2 = .ok (f, m2) := by
  unfold newField at h ⊢
  by_cases hne : fd.typeName ≠ []
  · rw [if_pos hne] at h ⊢
    cases ns with
    | none => cases h
    | some n =>
      simp only at h ⊢
      cases hfind : n.FindFullyQualifiedName fd.typeName with
      | error e => simp [hfind] at h
      | ok r =>
        obtain ⟨typeNs, typeName, i, typeFdp⟩ := r
        simp only [hfind, Except.ok.injEq, Prod.mk.injEq] at h ⊢
        obtain ⟨hf, hm⟩ := h
        rw [← hm] at hg
        rw [ToRelativeModule_stable _ _ _ hg]
        simpa using hf
  · rw [if_neg hne] at h ⊢
    simp only [Except.ok.injEq, Prod.mk.injEq] at h ⊢
    exact ⟨h.1, trivial⟩

theorem mapFields_grows {f k v : field} {m m1 : moduleResolver}
    (h : f.mapFields m = .ok (k, v, m1)) : Grows m m1 := by
  cases htd : f.typeDescriptor with
  | none => simp [field.mapFields, htd] at h
  | some d =>
    cases d with
    | enum ed => simp [field.mapFields, htd] at h
    | message dp =>
      obtain ⟨kfd, vfd, rest, mk, _, hk, hv⟩ := (mapFields_iff f dp htd m m1 k v).1 h
      exact (newField_grows hk).chain (newField_grows hv)

theorem mapFields_stable {f k v : field} {m m1 m2 : moduleResolver}
    (h : f.mapFields m = .ok (k, v, m1)) (hg : Grows m1 m2) :
    f.mapFields m2 = .ok (k, v, m2) := by
  cases htd : f.typeDescriptor with
  | none => simp [field.mapFields, htd] at h
  | some d =>
    cases d with
    | enum ed => simp [field.mapFields, htd] at h
    | message dp =>
      obtain ⟨kfd, vfd, rest, mk, hfs, hk, hv⟩ := (mapFields_iff f dp htd m m1 k v).1 h
      exact (mapFields_iff f dp htd m2 m2 k v).2 ⟨kfd, vfd, rest, m2, hfs,
        newField_stable hk ((newField_grows hv).chain hg), newField_stable hv hg⟩

theorem labeledType_cases {f : field} {m m1 : moduleResolver} {lt : Str}
    (h : f.labeledType m = .ok (lt, m1)) :
    (f.isMap = true ∧ ∃ k v kt vt, f.mapFields m = .ok (k, v, m1) ∧ k.tsType = .ok kt ∧
      v.tsType = .ok vt ∧ lt = Sprintf "Map<%s, %s>".toList [.s kt, .s vt]) ∨
    (f.isMap = false ∧ m1 = m ∧ ∀ m2, f.labeledType m2 = .ok (lt, m2)) := by
  unfold field.labeledType at h ⊢
  by_cases hm : f.isMap = true
  · left
    rw [if_pos hm] at h
    cases hkv : f.mapFields m with
    | error e => simp [hkv] at h
    | ok r =>
      obtain ⟨k, v, mv⟩ := r
      simp only [hkv] at h
      cases hkt : k.tsType with
      | error e => simp [hkt] at h
      | ok kt =>
        simp only [hkt] at h
        cases hvt : v.tsType with
        | error e => simp [hvt] at h
        | ok vt =>
          simp only [hvt, Except.ok.injEq, Prod.mk.injEq] at h
          obtain ⟨rfl, rfl⟩ := h
          exact ⟨hm, k, v, kt, vt, rfl, hkt, hvt, rfl⟩
  · right
    rw [if_neg hm] at h
    simp only [hm, Bool.false_eq_true, if_false]
    refine ⟨by simp [hm], ?_⟩
    cases hr : f.isRepeated with
    | error e => simp [hr] at h
    | ok b =>
      cases ht : f.tsType with
      | error e =>
        cases b <;> simp only [hr, ht, Except.map] at h
        · split at h <;> cases h
        · cases h
      | ok t =>
        cases b
        · simp only [hr, ht, Except.map] at h ⊢
          by_cases hmsg : f.isMessage = true
          · simp only [hmsg, if_true, Except.ok.injEq, Prod.mk.injEq] at h ⊢
            exact ⟨h.2.symm, fun m2 => ⟨h.1, trivial⟩⟩
          · simp only [hmsg, Bool.false_eq_true, if_false, Except.ok.injEq, Prod.mk.injEq] at h ⊢
            exact ⟨h.2.symm, fun m2 => ⟨h.1, trivial⟩⟩
        · simp only [hr, ht, Except.map, Except.ok.injEq, Prod.mk.injEq] at h ⊢
          exact ⟨h.2.symm, fun m2 => ⟨h.1, trivial⟩⟩

theorem labeledType_grows {f : field} {m m1 : moduleResolver} {lt : Str}
    (h : f.labeledType m = .ok (lt, m1)) : Grows m m1 := by
  rcases labeledType_cases h with ⟨_, k, v, kt, vt, hkv, _⟩ | ⟨_, rfl, _⟩
  · exact mapFields_grows hkv
  · exact Grows.unchanged _

/-- A second evaluation of `labeledType`, on a resolver that has grown since
the first, returns the same type and leaves the resolver as it is. -/
theorem labeledType_stable {f : field} {m m1 m2 : moduleResolver} {lt : Str}
    (h : f.labeledType m = .ok (lt, m1)) (hg : Grows m1 m2) :
    f.labeledType m2 = .ok (lt, m2) := by
  rcases labeledType_cases h with ⟨hm, k, v, kt, vt, hkv, hkt, hvt, rfl⟩ | ⟨_, _, hall⟩
  · unfold field.labeledType
    rw [if_pos hm]
    simp only [mapFields_stable hkv hg, hkt, hvt]
  · exact hall m2

/-! ## Writer growth -/

theorem Extends.nothing (w : writer) : Extends w w := ⟨[], by simp⟩

theorem Extends.more {a b c : writer} (h1 : Extends a b) (h2 : Extends b c) : Extends a c := by
  obtain ⟨t1, h1⟩ := h1
  obtain ⟨t2, h2⟩ := h2
  exact ⟨t1 ++ t2, by rw [h2, h1, List.append_assoc]⟩

theorem Extends.ln {a b : writer} (h : Extends a b) : Extends a b.ln := by
  obtain ⟨t, h⟩ := h
  exact ⟨t ++ "\n".toList, by simp [writer.ln, h]⟩

theorem p_extends (w : writer) (format : Str) (args : List Arg) :
    Extends w (w.p format args) := by
  unfold writer.p writer.ln
  dsimp only
  split <;> exact ⟨_, List.append_assoc _ _ _⟩

theorem Extends.p {a b : writer} (h : Extends a b) (format : Str) (args : List Arg) :
    Extends a (b.p format args) :=
  h.more (p_extends b format args)

theorem Extends.pdebug {a b : writer} (h : Extends a b) (format : Str) (args : List Arg) :
    Extends a (b.pdebug format args) := by
  unfold writer.pdebug
  simpa [genDebug] using h

theorem Extends.ite {a b c : writer} (k : Prop) [Decidable k] (h1 : Extends a b)
    (h2 : Extends a c) : Extends a (if k then b else c) := by
  split
  · exact h1
  · exact h2

theorem Extends.foldl {α : Type} (g : writer → α → writer)
    (hg : ∀ w x, Extends w (g w x)) (xs : List α) {a b : writer} (h : Extends a b) :
    Extends a (xs.foldl g b) := by
  induction xs generalizing b with
  | nil => exact h
  | cons x rest ih => exact ih (h.more (hg b x))

theorem Extends.emit {a b : writer} (h : Extends a b) (ls : List (Str × List Arg)) :
    Extends a (b.emit ls) :=
  Extends.foldl (fun w (l : Str × List Arg) => w.p l.1 l.2)
    (fun w l => p_extends w l.1 l.2) ls h

theorem Extends.foldlM {α σ : Type} (π : σ → writer) (g : σ → α → Except CodegenPanic σ)
    (xs : List α) (hg : ∀ x ∈ xs, ∀ s s2, g s x = .ok s2 → Extends (π s) (π s2)) :
    ∀ s s2, xs.foldlM g s = .ok s2 → Extends (π s) (π s2) := by
  induction xs with
  | nil =>
    intro s s2 h
    simp only [List.foldlM_nil, pure, Except.pure, Except.ok.injEq] at h
    subst h
    exact Extends.nothing _
  | cons x rest ih =>
    intro s s2 h
    rw [List.foldlM_cons] at h
    cases hx : g s x with
    | error e => simp [hx, bind, Except.bind] at h
    | ok s1 =>
      simp only [hx, bind, Except.bind] at h
      exact (hg x (List.mem_cons_self _ _) s s1 hx).more
        (ih (fun y hy => hg y (List.mem_cons_of_mem _ hy)) s1 s2 h)

theorem writeEnum_extends (w : writer) (edp : EnumDescriptorProto) (prefixNames : List Str) :
    Extends w (writeEnum w edp prefixNames) := by
  unfold writeEnum
  refine Extends.ln ?_
  refine Extends.ite _ (Extends.p ?_ _ _) ?_ <;>
  · refine Extends.p ?_ _ _
    refine Extends.foldl _ (fun w v => (Extends.nothing w).p _ _) _ ?_
    refine Extends.p ?_ _ _
    exact Extends.ite _ ((Extends.nothing w).p _ _) (Extends.nothing w)

/-! ## Oneof variants -/

theorem writeMethod_scalar {t : FieldDescriptorProto_Type} {m : Str}
    (h : writeMethod t = some m) : t ∈ scalarKinds := by
  by_contra hn
  simp only [scalarKinds, List.mem_cons, List.mem_singleton, List.not_mem_nil, or_false,
    not_or] at hn
  obtain ⟨h1, h2, h3, h4, h5, h6, h7, h8, h9, h10, h11, h12, h13, h14, h15, h16⟩ := hn
  have : writeMethod t = none := by simp [writeMethod, *]
  rw [this] at h
  cases h

theorem foldlM_eq_foldl {α σ τ : Type} (π : σ → τ) (g : σ → α → Except CodegenPanic σ)
    (g2 : τ → α → τ) (xs : List α)
    (hg : ∀ x ∈ xs, ∀ s s2, g s x = .ok s2 → π s2 = g2 (π s) x) :
    ∀ s s2, xs.foldlM g s = .ok s2 → π s2 = xs.foldl g2 (π s) := by
  induction xs with
  | nil =>
    intro s s2 h
    simp only [List.foldlM_nil, pure, Except.pure, Except.ok.injEq] at h
    subst h
    rfl
  | cons x rest ih =>
    intro s s2 h
    rw [List.foldlM_cons] at h
    cases hx : g s x with
    | error e => simp [hx, bind, Except.bind] at h
    | ok s1 =>
      simp only [hx, bind, Except.bind] at h
      rw [ih (fun y hy => hg y (List.mem_cons_of_mem _ hy)) s1 s2 h,
        hg x (List.mem_cons_self _ _) s s1 hx]
      rfl

theorem foldlM_eq_foldl_zip {α β σ τ : Type} (π : σ → τ) (g : σ → α → Except CodegenPanic σ)
    (g2 : τ → α × β → τ) (R : α → β → Prop) (xs : List α)
    (hg : ∀ x ∈ xs, ∀ s s2, g s x = .ok s2 → ∃ y, R x y ∧ π s2 = g2 (π s) (x, y)) :
    ∀ s s2, xs.foldlM g s = .ok s2 →
      ∃ ys, List.Forall₂ R xs ys ∧ π s2 = (xs.zip ys).foldl g2 (π s) := by
  induction xs with
  | nil =>
    intro s s2 h
    simp only [List.foldlM_nil, pure, Except.pure, Except.ok.injEq] at h
    subst h
    exact ⟨[], List.Forall₂.nil, rfl⟩
  | cons x rest ih =>
    intro s s2 h
    rw [List.foldlM_cons] at h
    cases hx : g s x with
    | error e => simp [hx, bind, Except.bind] at h
    | ok s1 =>
      simp only [hx, bind, Except.bind] at h
      obtain ⟨y, hy, hs1⟩ := hg x (List.mem_cons_self _ _) s s1 hx
      obtain ⟨ys, hf, hs2⟩ := ih (fun y hy => hg y (List.mem_cons_of_mem _ hy)) s1 s2 h
      refine ⟨y :: ys, List.Forall₂.cons hy hf, ?_⟩
      rw [hs2, hs1]
      rfl

theorem foldlM_all {α σ : Type} (g : σ → α → Except CodegenPanic σ) (P : α → Prop)
    (xs : List α) (hg : ∀ x ∈ xs, ∀ s s2, g s x = .ok s2 → P x) :
    ∀ s s2, xs.foldlM g s = .ok s2 → ∀ x ∈ xs, P x := by
  induction xs with
  | nil => intro s s2 _ x hx; cases hx
  | cons x rest ih =>
    intro s s2 h
    rw [List.foldlM_cons] at h
    cases hx : g s x with
    | error e => simp [hx, bind, Except.bind] at h
    | ok s1 =>
      simp only [hx, bind, Except.bind] at h
      intro y hy
      rcases List.mem_cons.1 hy with rfl | hy
      · exact hg _ (List.mem_cons_self _ _) s s1 hx
      · exact ih (fun y hy => hg y (List.mem_cons_of_mem _ hy)) s1 s2 h y hy

theorem Sprintf_value (name : Str) :
    Sprintf "(oo as %s).value".toList [.s name]
      = "(oo as ".toList ++ name ++ ").value".toList := by
  simp [Sprintf, Arg.text]

theorem writeMethod_th {t : FieldDescriptorProto_Type} {m : Str} (hm : writeMethod t = some m) :
    Contains ('e' :: '.' :: m ++ ['(']) ['t', 'h'] = false := by
  obtain ⟨m2, hm2, h2⟩ := scalarKinds_writeMethod _ (writeMethod_scalar hm)
  rw [hm] at hm2
  cases hm2
  exact h2

theorem foldl_names (A : writer → field × Str → writer) :
    ∀ (xs : List field) (ys : List Str) (w0 : writer) (cn0 : List Str),
      xs.length = ys.length →
      (xs.zip ys).foldl
          (fun (t : writer × List Str) x => (A t.1 x, t.2 ++ [x.1.varName])) (w0, cn0)
        = ((xs.zip ys).foldl A w0, cn0 ++ xs.map field.varName) := by
  intro xs
  induction xs with
  | nil => intro ys w0 cn0 _; simp
  | cons x rest ih =>
    intro ys w0 cn0 hl
    cases ys with
    | nil => simp at hl
    | cons y ys =>
      simp only [List.zip_cons_cons, List.foldl_cons, List.map_cons]
      rw [ih ys _ _ (by simpa using hl)]
      simp

theorem Sprintf_notSet (a : Str) :
    Sprintf "%s.OneofNotSet".toList [.s a] = a ++ ".OneofNotSet".toList := by
  simp [Sprintf, Arg.text]

theorem writeOneof_eq {w w2 : writer} {oo : oneof} {libMod : modRef} {prefixNames : List Str}
    {mr mr2 : moduleResolver} (h : writeOneof w oo libMod prefixNames mr = .ok (w2, mr2)) :
    ∃ lts : List Str,
      List.Forall₂ (fun f lt => ∃ mA mB, f.labeledType mA = .ok (lt, mB)) oo.fields lts ∧
      (∀ f ∈ oo.fields, f.isMessage = false → ∃ m, writeMethod f.fd.GetType = some m) ∧
      w2 =
        ((fun (wd : writer) => if prefixNames.length > 0 then wd.p "\x7d".toList [] else wd)
          ((oo.fields.foldl (dispatchCase libMod)
            (((((oo.fields.zip lts).foldl variantClass
                (if prefixNames.length > 0 then
                  w.p "export namespace %s \x7b".toList
                    [.s (Join (prefixNames ++ [oo.odp.name]) ".".toList)]
                else w)).p "export type %s = %s;".toList
                  [.s oo.typeName,
                   .s (Join ((libMod.alias_ ++ ".OneofNotSet".toList)
                        :: oo.fields.map field.varName) " | ".toList)]).ln).emit
              [("export function WriteTo(oo: %s, e: %s.Internal.Encoder):void \x7b".toList,
                 [.s oo.typeName, .s libMod.alias_]),
               ("switch (oo.kind) \x7b".toList, [])])).emit
            [("\x7d".toList, []), ("\x7d".toList, [])])).ln := by
  unfold writeOneof at h
  simp only [bind, Except.bind, pure, Except.pure] at h
  split at h
  · cases h
  · next r1 hr1 =>
    obtain ⟨w1, cn1, mr1⟩ := r1
    simp only at h
    split at h
    · cases h
    · next wd hr2 =>
      simp only [Except.ok.injEq, Prod.mk.injEq] at h
      obtain ⟨hw, _⟩ := h
      obtain ⟨lts, hf, hpair⟩ := foldlM_eq_foldl_zip
        (fun (s : writer × List Str × moduleResolver) => (s.1, s.2.1)) _
        (fun (t : writer × List Str) (x : field × Str) =>
          (variantClass t.1 x, t.2 ++ [x.1.varName]))
        (fun f lt => ∃ mA mB, f.labeledType mA = .ok (lt, mB)) oo.fields (by
          intro f _ s s2 hs
          obtain ⟨ws, cns, mrs⟩ := s
          simp only at hs
          cases h1 : f.labeledType mrs with
          | error e => simp [h1] at hs
          | ok r =>
            obtain ⟨lt, mrA⟩ := r
            have h2 := labeledType_stable h1 (Grows.unchanged mrA)
            simp only [h1, h2, Except.ok.injEq] at hs
            subst hs
            exact ⟨lt, ⟨mrs, mrA, h1⟩, rfl⟩) _ _ hr1
      rw [foldl_names variantClass _ _ _ _ hf.length_eq] at hpair
      simp only [Prod.mk.injEq] at hpair
      obtain ⟨hw1, hcn1⟩ := hpair
      have hcases := foldlM_eq_foldl (fun (s : writer) => s) _ (dispatchCase libMod) oo.fields
        (by
          intro f _ s s2 hs
          rw [Sprintf_value] at hs
          cases hmsg : f.isMessage
          · simp only [hmsg, Bool.false_eq_true, if_false, primitiveWriter_eq] at hs
            cases hm : writeMethod f.fd.GetType with
            | none => simp [hm] at hs
            | some m =>
              simp only [hm, Replace_value m f.varName _ (writeMethod_th hm),
                Except.ok.injEq] at hs
              subst hs
              simp only [dispatchCase, hmsg, Bool.false_eq_true, if_false, hm,
                Option.getD_some, writer.emit, List.foldl_cons, List.foldl_nil]
              congr 1
              simp
          · simp only [hmsg, if_true, Except.ok.injEq] at hs
            subst hs
            simp only [dispatchCase, hmsg, if_true, writer.emit, List.foldl_cons,
              List.foldl_nil]) _ _ hr2
      have hmeth := foldlM_all _
        (fun f : field => f.isMessage = false → ∃ m, writeMethod f.fd.GetType = some m)
        oo.fields (by
          intro f _ s s2 hs hmsg
          simp only [hmsg, Bool.false_eq_true, if_false, primitiveWriter_eq] at hs
          cases hm : writeMethod f.fd.GetType with
          | none => simp [hm] at hs
          | some m => exact ⟨m, rfl⟩) _ _ hr2
      refine ⟨lts, hf, hmeth, ?_⟩
      dsimp only at hcases hw1 hcn1
      rw [← hw, hcases, hw1, hcn1, Sprintf_notSet]
      simp only [writer.emit, List.foldl_cons, List.foldl_nil, List.singleton_append]

theorem mem_wrapOneofs {dp : DescriptorProto} {fields : List field} {nextNames : List Str}
    {oo : oneof} (h : oo ∈ wrapOneofs dp fields nextNames) :
    (∃ i : Nat, dp.oneofDecl[i]? = some oo.odp ∧
      oo.fields = fields.filter fun f => f.isOneofMember && f.fd.GetOneofIndex = (i : Int)) ∧
    oo.fqNamespace = Join (nextNames ++ [oo.odp.name]) ".".toList ∧
    oo.typeName = "oneof_type".toList := by
  unfold wrapOneofs at h
  rw [List.mem_map] at h
  obtain ⟨⟨i, od⟩, hmem, rfl⟩ := h
  rw [List.mem_enum_iff_getElem?] at hmem
  exact ⟨⟨i, hmem, rfl⟩, rfl, rfl⟩

theorem member_decode_scalar (f : field) (oo : oneofRef) (rm : Str) (w : writer) (dec wt : Str)
    (m : moduleResolver) (hmap : f.isMap = false) (hmem : f.isOneofMember = true)
    (hoo : f.oneof = some oo) (hrm : readMethod f.fd.GetType = some rm) :
    f.writeDecoder w dec wt m = .ok
      (w.emit
        [("this.%s = new %s.%s(%s);".toList,
          [.s oo.odp.name, .s oo.fqNamespace, .s f.varName,
           .s (dec ++ ".".toList ++ rm ++ "()".toList)])], m) := by
  have hmsg : f.isMessage = false := by
    cases hm : f.isMessage
    · rfl
    · unfold field.isMessage at hm
      simp only [Bool.or_eq_true, decide_eq_true_eq] at hm
      rcases hm with hm | hm <;> rw [hm] at hrm <;> cases hrm
  unfold field.writeDecoder
  rw [readerOf_eq, hrm]
  simp only [hmap, hmsg, hmem, hoo, Bool.false_eq_true, if_false, if_true, Option.map_some',
    pure, Except.pure, writer.emit, List.foldl_cons, List.foldl_nil]
  simp

theorem member_decode_message (f : field) (oo : oneofRef) (l : FieldDescriptorProto_Label)
    (w : writer) (dec wt : Str) (m : moduleResolver) (hmap : f.isMap = false)
    (hmsg : f.isMessage = true) (hl : f.fd.label = some l) (hrep : l ≠ LABEL_REPEATED)
    (hmem : f.isOneofMember = true) (hoo : f.oneof = some oo) :
    f.writeDecoder w dec wt m = .ok
      (w.emit
        [("\x7b".toList, []),
         ("let msg = new %s();".toList, [.s f.typeTsName]),
         ("msg.MergeFrom(%s.readDecoder());".toList, [.s dec]),
         ("this.%s = new %s.%s(msg);".toList,
           [.s oo.odp.name, .s oo.fqNamespace, .s f.varName]),
         ("\x7d".toList, [])], m) := by
  unfold field.writeDecoder
  simp only [hmap, hmsg, field.isRepeated, hl, hrep, hmem, hoo, Bool.false_eq_true, if_false,
    if_true, decide_False, bind, Except.bind, pure, Except.pure, writer.emit,
    List.foldl_cons, List.foldl_nil]

/-! ## Growth of the emitters -/

theorem Extends_iff_initial (a b : writer) : Extends a b ↔ a.w <+: b.w :=
  ⟨fun ⟨t, h⟩ => ⟨t, h.symm⟩, fun ⟨t, h⟩ => ⟨t, h.symm⟩⟩

theorem p_text (w : writer) (format : Str) (args : List Arg) :
    (w.p format args).w = w.w ++ w.line format args := by
  unfold writer.p writer.ln writer.line
  dsimp only
  split <;> exact List.append_assoc _ _ _

theorem ln_text (w : writer) : w.ln.w = w.w ++ "\n".toList := rfl

theorem ite_text (c : Prop) [Decidable c] (a b : writer) :
    (if c then a else b).w = if c then a.w else b.w := by
  split <;> rfl

theorem ite_append_text (c : Prop) [Decidable c] (a b t : Str) :
    (if c then a else b) ++ t = if c then a ++ t else b ++ t := by
  split <;> rfl

theorem initial_ite (c : Prop) [Decidable c] (l a b : Str) :
    (l <+: if c then a else b) ↔ if c then l <+: a else l <+: b := by
  split <;> rfl

theorem writeDecoder_extends {f : field} {w w2 : writer} {dec wt : Str} {mr mr2 : moduleResolver}
    (h : f.writeDecoder w dec wt mr = .ok (w2, mr2)) : Extends w w2 := by
  unfold field.writeDecoder at h
  simp only [bind, Except.bind, pure, Except.pure, throw, throwThe, MonadExceptOf.throw] at h
  repeat' split at h
  all_goals first
    | (simp at h; done)
    | (simp only [Except.ok.injEq, Prod.mk.injEq] at h
       rw [← h.1, Extends_iff_initial]
       simp only [p_text, ite_text, ite_append_text, List.append_assoc, initial_ite,
         List.prefix_append, List.prefix_refl, ite_self])

theorem writeEncoder_extends {f : field} {w w2 : writer} {libMod : modRef} {enc : Str} {a : Bool}
    {mr mr2 : moduleResolver} (h : f.writeEncoder w libMod enc a mr = .ok (w2, mr2)) :
    Extends w w2 := by
  unfold field.writeEncoder at h
  simp only [bind, Except.bind, pure, Except.pure, throw, throwThe, MonadExceptOf.throw] at h
  repeat' split at h
  all_goals first
    | (simp at h; done)
    | (simp only [Except.ok.injEq, Prod.mk.injEq] at h
       rw [← h.1, Extends_iff_initial]
       simp only [p_text, ite_text, ite_append_text, List.append_assoc, initial_ite,
         List.prefix_append, List.prefix_refl, ite_self])

theorem dispatchCase_extends (libMod : modRef) (w : writer) (f : field) :
    Extends w (dispatchCase libMod w f) := by
  unfold dispatchCase
  exact Extends.ite _ (Extends.emit (Extends.nothing _) _) (Extends.emit (Extends.nothing _) _)

theorem writeOneof_extends {w w2 : writer} {oo : oneof} {libMod : modRef}
    {prefixNames : List Str} {mr mr2 : moduleResolver}
    (h : writeOneof w oo libMod prefixNames mr = .ok (w2, mr2)) : Extends w w2 := by
  obtain ⟨lts, _, _, hw⟩ := writeOneof_eq h
  rw [hw]
  refine Extends.ln ?_
  dsimp only
  refine Extends.ite _ (Extends.p ?_ _ _) ?_ <;>
  · refine Extends.emit ?_ _
    refine Extends.foldl _ (dispatchCase_extends libMod) _ ?_
    refine Extends.emit (Extends.ln (Extends.p ?_ _ _)) _
    refine Extends.foldl _ (fun w x => ?_) _ ?_
    · unfold variantClass
      exact Extends.ln (Extends.emit (Extends.nothing _) _)
    · exact Extends.ite _ (Extends.p (Extends.nothing _) _ _) (Extends.nothing _)

/-- The wrapped fields of a message are the results of `newField` for the
declared fields, in order. -/
theorem wrapFields_fields {fds : List FieldDescriptorProto} {ns : Namespace}
    {mr mr2 : moduleResolver} {fields : List field}
    (h : wrapFields fds ns mr = .ok (fields, mr2)) :
    List.Forall₂ (fun fd f => f.fd = fd ∧ ∃ mA mB, newField fd (some ns) mA = .ok (f, mB))
      fds fields := by
  unfold wrapFields at h
  obtain ⟨zs, hz, hf⟩ := foldlM_collect (fun s fd => newField fd (some ns) s)
    (fun fd f => f.fd = fd ∧ ∃ mA mB, newField fd (some ns) mA = .ok (f, mB))
    (fun x s y s2 hx => ⟨newField_fd hx, s, s2, hx⟩) fds [] mr fields mr2 h
  simp only [List.nil_append] at hz
  subst hz
  exact hf

/-- Pointing the members at their oneofs changes the field `oneof` only. -/
theorem pointAtOneofs_fields (oneofs : List oneof) :
    ∀ (fields0 fields : List field), pointAtOneofs fields0 oneofs = .ok fields →
      List.Forall₂ (fun f0 f => f = { f0 with oneof := f.oneof } ∧
        (f.isOneofMember = true → ∃ oo ∈ oneofs,
          f.oneof = some { odp := oo.odp, fqNamespace := oo.fqNamespace,
                           typeName := oo.typeName })) fields0 fields := by
  intro fields0
  unfold pointAtOneofs
  induction fields0 with
  | nil =>
    intro fields h
    simp only [List.mapM_nil, pure, Except.pure, Except.ok.injEq] at h
    subst h
    exact List.Forall₂.nil
  | cons f0 rest ih =>
    intro fields h
    rw [List.mapM_cons] at h
    simp only [bind, Except.bind, pure, Except.pure] at h
    split at h
    · cases h
    · next f hf =>
      split at h
      · cases h
      · next fs hfs =>
        simp only [Except.ok.injEq] at h
        subst h
        refine List.Forall₂.cons ?_ (ih fs hfs)
        split at hf
        · next hmem =>
          split at hf
          · cases hf
          · next oo hoo =>
            simp only [Except.ok.injEq] at hf
            subst hf
            refine ⟨rfl, fun _ => ⟨oo, ?_, rfl⟩⟩
            split at hoo
            · cases hoo
            · exact List.get?_mem hoo
        · next hmem =>
          simp only [Except.ok.injEq] at hf
          subst hf
          exact ⟨rfl, fun h => absurd h hmem⟩

theorem foldlM_filter {α σ : Type} (p : α → Bool) (g g2 : σ → α → Except CodegenPanic σ)
    (hg : ∀ s x, p x = false → g s x = g2 s x) (hp : ∀ s x, p x = true → g s x = .ok s)
    (xs : List α) : ∀ s, xs.foldlM g s = (xs.filter fun x => !p x).foldlM g2 s := by
  induction xs with
  | nil => intro s; rfl
  | cons x rest ih =>
    intro s
    cases hx : p x
    · simp only [List.foldlM_cons, List.filter_cons, hx, Bool.not_false, if_true, hg s x hx,
        ih]
    · simp only [List.foldlM_cons, List.filter_cons, hx, Bool.not_true, Bool.false_eq_true,
        if_false, hp s x hx, bind, Except.bind, ih]

/-- The parts of the text of a message: the writer `wC` before the method
`MergeFrom`, the loop over the fields inside `switch(fn)`, which ends in `wD`,
and the method `WriteTo`, which ends in `wE`. -/
theorem writeMessage_parts {w w2 : writer} {dp : DescriptorProto} {ns : Namespace}
    {mr mr2 : moduleResolver} {libMod : modRef} {prefixNames : List Str}
    (h : writeMessage w dp ns mr libMod prefixNames = .ok (w2, mr2)) :
    ∃ (fields0 fields : List field) (m0 : moduleResolver) (wC wD wE : writer)
      (mC mD mE : moduleResolver),
      wrapFields dp.field ns mr = .ok (fields0, m0) ∧
      pointAtOneofs fields0 (wrapOneofs dp fields0 (prefixNames ++ [dp.name])) = .ok fields ∧
      Extends w wC ∧
      fields.foldlM
        (fun (st : writer × moduleResolver) f => do
          let (wf, mf) ← f.writeDecoder (st.1.p "case %d:".toList [.d f.fd.number])
            "d".toList "wt".toList st.2
          pure (wf.p "break;".toList [], mf))
        (wC.emit
          [("MergeFrom(d: %s.Internal.Decoder): void \x7b".toList, [.s libMod.alias_]),
           ("while (!d.isEOF()) \x7b".toList, []),
           ("let [fn, wt] = d.readTag();".toList, []),
           ("switch(fn) \x7b".toList, [])], mC) = .ok (wD, mD) ∧
      (if fields.length < 1 then
        wE = ((wD.emit
          [("default:".toList, []), ("d.skipWireType(wt)".toList, []), ("\x7d".toList, []),
           ("\x7d".toList, []), ("\x7d".toList, [])]).ln).p
            "WriteTo(_: %s.Internal.Encoder): void \x7b\x7d".toList [.s libMod.alias_]
      else
        ∃ w1,
          (fields.filter fun f => !f.isOneofMember).foldlM
            (fun (st : writer × moduleResolver) f =>
              f.writeEncoder st.1 libMod "e".toList false st.2)
            (((wD.emit
              [("default:".toList, []), ("d.skipWireType(wt)".toList, []),
               ("\x7d".toList, []), ("\x7d".toList, []), ("\x7d".toList, [])]).ln).p
                "WriteTo(e: %s.Internal.Encoder): void \x7b".toList [.s libMod.alias_], mD)
            = .ok (w1, mE) ∧
          wE = ((wrapOneofs dp fields0 (prefixNames ++ [dp.name])).foldl
            (fun w oo => w.p "%s.WriteTo(this.%s, e);".toList
              [.s oo.fqNamespace, .s oo.odp.name]) w1).p "\x7d".toList []) ∧
      Extends ((wD.emit
          [("default:".toList, []), ("d.skipWireType(wt)".toList, []), ("\x7d".toList, []),
           ("\x7d".toList, []), ("\x7d".toList, [])]).ln) wE ∧
      Extends wE w2 := by
  unfold writeMessage at h
  simp only [bind, Except.bind, pure, Except.pure, writer.pdebug, genDebug, Bool.not_false,
    if_true] at h
  split at h
  · cases h
  · next r1 h1 =>
    obtain ⟨fields0, m0⟩ := r1
    simp only at h
    split at h
    · cases h
    · next fields h2 =>
      split at h
      · cases h
      · next r3 h3 =>
        split at h
        · cases h
        · next r4 h4 =>
          split at h
          · cases h
          · next r5 h5 =>
            obtain ⟨wP, mP⟩ := r3
            obtain ⟨wK, mK⟩ := r4
            obtain ⟨wD, mD⟩ := r5
            have e3 : Extends w wP := by
              refine Extends.more ?_
                (Extends.foldlM (fun s : writer × moduleResolver => s.1) _ fields ?_ _ _ h3)
              · rw [Extends_iff_initial]
                simp only [p_text, ite_text, ite_append_text, List.append_assoc, initial_ite,
                  List.prefix_append, List.prefix_refl, ite_self]
              intro f _ s s2 hs
              split at hs
              · simp only [Except.ok.injEq] at hs
                subst hs
                exact Extends.nothing _
              · split at hs
                · cases hs
                · simp only [Except.ok.injEq] at hs
                  subst hs
                  exact Extends.p (Extends.nothing _) _ _
            have e4 : Extends wP wK := by
              refine Extends.more ?_
                (Extends.foldlM (fun s : writer × moduleResolver => s.1) _ fields ?_ _ _ h4)
              · exact Extends.p (Extends.ln (Extends.foldl _
                  (fun w oo => Extends.p (Extends.nothing w) _ _) _ (Extends.nothing wP))) _ _
              intro f _ s s2 hs
              split at hs
              · simp only [Except.ok.injEq] at hs
                subst hs
                exact Extends.nothing _
              · split at hs
                · cases hs
                · simp only [Except.ok.injEq] at hs
                  subst hs
                  exact Extends.p (Extends.nothing _) _ _
            have eC : Extends wK
                (((wrapOneofs dp fields0 (prefixNames ++ [dp.name])).foldl
                  (fun w oo => w.p "this.%s = %s.OneofNotSet.singleton;".toList
                    [.s oo.odp.name, .s libMod.alias_]) wK).p "\x7d".toList []).ln :=
              Extends.ln (Extends.p (Extends.foldl _
                (fun w oo => Extends.p (Extends.nothing w) _ _) _ (Extends.nothing wK)) _ _)
            split at h
            · next hlen =>
              split at h
              · cases h
              · next r7 h7 =>
                simp only [Except.ok.injEq, Prod.mk.injEq] at h
                obtain ⟨hw2, _⟩ := h
                refine ⟨fields0, fields, m0, _, wD,
                  ((wD.emit
                    [("default:".toList, []), ("d.skipWireType(wt)".toList, []),
                     ("\x7d".toList, []), ("\x7d".toList, []), ("\x7d".toList, [])]).ln).p
                      "WriteTo(_: %s.Internal.Encoder): void \x7b\x7d".toList [.s libMod.alias_],
                  mK, mD, mD, h1, h2, (e3.more e4).more eC, h5, ?_, ?_, ?_⟩
                · rw [if_pos hlen]
                · exact Extends.p (Extends.nothing _) _ _
                · rw [← hw2]
                  refine Extends.foldl _ (fun w e => writeEnum_extends w e _) _ ?_
                  refine Extends.more ?_ (Extends.foldlM
                    (fun s : writer × moduleResolver => s.1) _ _
                    (fun oo _ s s2 hs => writeOneof_extends hs) _ _ h7)
                  rw [Extends_iff_initial]
                  simp only [writer.emit, List.foldl_cons, List.foldl_nil, p_text, ln_text,
                    ite_text, ite_append_text, List.append_assoc, initial_ite,
                    List.prefix_append_right_inj, List.prefix_append, List.prefix_refl, ite_self]
            · next hlen =>
              split at h
              · cases h
              · next r6 h6 =>
                obtain ⟨w1, mE⟩ := r6
                split at h
                · cases h
                · next r7 h7 =>
                  simp only [Except.ok.injEq, Prod.mk.injEq] at h
                  obtain ⟨hw2, _⟩ := h
                  have h6b := h6
                  rw [foldlM_filter (fun f : field => f.isOneofMember) _
                    (fun (st : writer × moduleResolver) f =>
                      f.writeEncoder st.1 libMod "e".toList false st.2)
                    (by
                      intro s x hx
                      simp only [hx, Bool.false_eq_true, if_false]
                      cases x.writeEncoder s.1 libMod "e".toList false s.2 <;> rfl)
                    (by
                      intro s x hx
                      simp only [hx, if_true])] at h6b
                  refine ⟨fields0, fields, m0, _, wD,
                    ((wrapOneofs dp fields0 (prefixNames ++ [dp.name])).foldl
                      (fun w oo => w.p "%s.WriteTo(this.%s, e);".toList
                        [.s oo.fqNamespace, .s oo.odp.name]) w1).p "\x7d".toList [],
                    mK, mD, mE, h1, h2, (e3.more e4).more eC, h5, ?_, ?_, ?_⟩
                  · rw [if_neg hlen]
                    exact ⟨w1, h6b, rfl⟩
                  · refine Extends.p (Extends.foldl _
                      (fun w oo => Extends.p (Extends.nothing w) _ _) _ ?_) _ _
                    refine Extends.more ?_ (Extends.foldlM
                      (fun s : writer × moduleResolver => s.1) _ _
                      (fun f _ s s2 hs => writeEncoder_extends hs) _ _ h6b)
                    exact Extends.p (Extends.nothing _) _ _
                  · rw [← hw2]
                    refine Extends.foldl _ (fun w e => writeEnum_extends w e _) _ ?_
                    refine Extends.more ?_ (Extends.foldlM
                      (fun s : writer × moduleResolver => s.1) _ _
                      (fun oo _ s s2 hs => writeOneof_extends hs) _ _ h7)
                    rw [Extends_iff_initial]
                    simp only [p_text, ln_text, ite_text, ite_append_text, List.append_assoc,
                      initial_ite, List.prefix_append_right_inj, List.prefix_append,
                      List.prefix_refl, ite_self]

theorem writeMessage_extends {w w2 : writer} {dp : DescriptorProto} {ns : Namespace}
    {mr mr2 : moduleResolver} {libMod : modRef} {prefixNames : List Str}
    (h : writeMessage w dp ns mr libMod prefixNames = .ok (w2, mr2)) : Extends w w2 := by
  obtain ⟨fields0, fields, m0, wC, wD, wE, mC, mD, mE, _, _, eC, hD, _, eE, e2⟩ :=
    writeMessage_parts h
  refine ((eC.more ?_).more eE).more e2
  refine Extends.ln (Extends.emit ?_ _)
  refine Extends.more (Extends.emit (Extends.nothing _) _)
    (Extends.foldlM (fun s : writer × moduleResolver => s.1) _ fields ?_ _ _ hD)
  intro f _ s s2 hs
  simp only [bind, Except.bind, pure, Except.pure] at hs
  split at hs
  · cases hs
  · next r hr =>
    simp only [Except.ok.injEq] at hs
    subst hs
    exact Extends.p ((Extends.p (Extends.nothing _) _ _).more (writeDecoder_extends hr)) _ _

mutual

theorem writeDescriptor_extends (ns : Namespace) (libMod : modRef) :
    (dp : DescriptorProto) → ∀ (w : writer) (mr : moduleResolver) (prefixNames : List Str)
      (w2 : writer) (mr2 : moduleResolver),
      writeDescriptor w ns mr libMod prefixNames dp = .ok (w2, mr2) → Extends w w2
  | ⟨name, field, nestedType, enumType, oneofDecl, mapEntry⟩ => by
    intro w mr prefixNames w2 mr2 h
    rw [writeDescriptor] at h
    split at h
    · cases h
    · next w1 mr1 hmsg =>
      exact (writeMessage_extends hmsg).more
        (writeNested_extends ns libMod nestedType w1 mr1 _ w2 mr2 h)

theorem writeNested_extends (ns : Namespace) (libMod : modRef) :
    (dps : List DescriptorProto) → ∀ (w : writer) (mr : moduleResolver) (nextNames : List Str)
      (w2 : writer) (mr2 : moduleResolver),
      writeDescriptor.writeNested w ns mr libMod nextNames dps = .ok (w2, mr2) → Extends w w2
  | [] => by
    intro w mr nextNames w2 mr2 h
    rw [writeDescriptor.writeNested] at h
    simp only [Except.ok.injEq, Prod.mk.injEq] at h
    rw [← h.1]
    exact Extends.nothing _
  | dp :: rest => by
    intro w mr nextNames w2 mr2 h
    rw [writeDescriptor.writeNested] at h
    split at h
    · cases h
    · next w1 mr1 hdp =>
      exact (writeDescriptor_extends ns libMod dp w mr nextNames w1 mr1 hdp).more
        (writeNested_extends ns libMod rest w1 mr1 nextNames w2 mr2 h)

end

theorem writeDescriptor_message {w w2 : writer} {ns : Namespace} {mr mr2 : moduleResolver}
    {libMod : modRef} {prefixNames : List Str} {dp : DescriptorProto}
    (h : writeDescriptor w ns mr libMod prefixNames dp = .ok (w2, mr2)) :
    ∃ w1 mr1, writeMessage w dp ns mr libMod prefixNames = .ok (w1, mr1) ∧ Extends w1 w2 := by
  obtain ⟨name, field, nestedType, enumType, oneofDecl, mapEntry⟩ := dp
  rw [writeDescriptor] at h
  split at h
  · cases h
  · next w1 mr1 hmsg =>
    exact ⟨w1, mr1, hmsg, writeNested_extends ns libMod nestedType w1 mr1 _ w2 mr2 h⟩

theorem forall2_comp {α β γ : Type} {R : α → β → Prop} {S : β → γ → Prop} {T : α → γ → Prop}
    (hT : ∀ a b c, R a b → S b c → T a c) :
    ∀ {xs : List α} {ys : List β} {zs : List γ},
      List.Forall₂ R xs ys → List.Forall₂ S ys zs → List.Forall₂ T xs zs := by
  intro xs ys zs h1
  induction h1 generalizing zs with
  | nil =>
    intro h2
    cases h2
    exact List.Forall₂.nil
  | cons hx _ ih =>
    intro h2
    cases h2 with
    | cons hy hrest => exact List.Forall₂.cons (hT _ _ _ hx hy) (ih hrest)

theorem wrapped_fields {dp : DescriptorProto} {ns : Namespace} {mr m0 : moduleResolver}
    {fields0 fields : List field} {oneofs : List oneof}
    (h1 : wrapFields dp.field ns mr = .ok (fields0, m0))
    (h2 : pointAtOneofs fields0 oneofs = .ok fields) :
    List.Forall₂ (fun fd f => f.fd = fd ∧
      ∃ mA mB f0, newField fd (some ns) mA = .ok (f0, mB) ∧ f = { f0 with oneof := f.oneof })
      dp.field fields := by
  refine forall2_comp ?_ (wrapFields_fields h1) (pointAtOneofs_fields oneofs fields0 fields h2)
  rintro fd f0 f ⟨hfd, mA, mB, hn⟩ ⟨hy, _⟩
  refine ⟨?_, mA, mB, f0, hn, hy⟩
  rw [hy]
  exact hfd

theorem wrapOneofs_odp (dp : DescriptorProto) (fields : List field) (nextNames : List Str) :
    (wrapOneofs dp fields nextNames).map (fun oo => oo.odp) = dp.oneofDecl := by
  unfold wrapOneofs
  rw [List.map_map]
  have : ((fun oo : oneof => oo.odp) ∘ fun (x : Nat × OneofDescriptorProto) =>
      ({ odp := x.2
         fields := fields.filter fun f => f.isOneofMember && f.fd.GetOneofIndex = (x.1 : Int)
         typeName := "oneof_type".toList
         fqNamespace := Join (nextNames ++ [x.2.name]) ".".toList } : oneof)) = Prod.snd := by
    funext x
    rfl
  rw [this, List.enum_map_snd]

/-! ## Decode loop -/

/-- C15: the text that `writeDescriptor` writes for a message contains the
method `MergeFrom`, whose `switch(fn)` has, for the wrapped fields of the
message, one per declared field and in the order of the declaration, members
of oneofs included, the line `case <number>:`, the decode fragment of the
field and `break;`; the cases are followed by `default:` and the one line
`d.skipWireType(wt)`, after which the switch, the loop and the method are
closed. -/
theorem writeDescriptor_decode_loop (w w2 : writer) (ns : Namespace) (mr mr2 : moduleResolver)
    (libMod : modRef) (prefixNames : List Str) (dp : DescriptorProto)
    (h : writeDescriptor w ns mr libMod prefixNames dp = .ok (w2, mr2)) :
    ∃ (fields : List field) (w0 w1 : writer) (m0 m1 : moduleResolver) (post : Str),
      List.Forall₂ (fun fd f => f.fd = fd ∧
        ∃ mA mB f0, newField fd (some ns) mA = .ok (f0, mB) ∧ f = { f0 with oneof := f.oneof })
        dp.field fields ∧
      (∃ pre, w0.w = w.w ++ pre) ∧
      fields.foldlM
        (fun (st : writer × moduleResolver) f => do
          let (wf, mf) ← f.writeDecoder (st.1.p "case %d:".toList [.d f.fd.number])
            "d".toList "wt".toList st.2
          pure (wf.p "break;".toList [], mf))
        (w0.emit
          [("MergeFrom(d: %s.Internal.Decoder): void \x7b".toList, [.s libMod.alias_]),
           ("while (!d.isEOF()) \x7b".toList, []),
           ("let [fn, wt] = d.readTag();".toList, []),
           ("switch(fn) \x7b".toList, [])], m0) = .ok (w1, m1) ∧
      w2.w = (w1.emit
          [("default:".toList, []), ("d.skipWireType(wt)".toList, []), ("\x7d".toList, []),
           ("\x7d".toList, []), ("\x7d".toList, [])]).w ++ post := by
  obtain ⟨wm, mrm, hmsg, ext⟩ := writeDescriptor_message h
  obtain ⟨fields0, fields, m0, wC, wD, wE, mC, mD, mE, h1, h2, eC, hD, _, eE, e2⟩ :=
    writeMessage_parts hmsg
  obtain ⟨post, hpost⟩ := (((Extends.ln (Extends.nothing _)).more eE).more e2).more ext
  exact ⟨fields, wC, wD, mC, mD, post, wrapped_fields h1 h2, eC, hD, hpost⟩

theorem writeDescriptor_decode_loop_witness :
    writeDescriptor exOneofStart exOneofNs exOneofResolver exOneofLib [] exOneofMsg
      = .ok exOneofOut ∧
    (∃ (fields : List field) (w0 w1 : writer) (m0 m1 : moduleResolver) (post : Str),
      List.Forall₂ (fun fd f => f.fd = fd ∧
        ∃ mA mB f0, newField fd (some exOneofNs) mA = .ok (f0, mB) ∧ f = { f0 with oneof := f.oneof })
        exOneofMsg.field fields ∧
      (∃ pre, w0.w = exOneofStart.w ++ pre) ∧
      fields.foldlM
        (fun (st : writer × moduleResolver) f => do
          let (wf, mf) ← f.writeDecoder (st.1.p "case %d:".toList [.d f.fd.number])
            "d".toList "wt".toList st.2
          pure (wf.p "break;".toList [], mf))
        (w0.emit
          [("MergeFrom(d: %s.Internal.Decoder): void \x7b".toList, [.s exOneofLib.alias_]),
           ("while (!d.isEOF()) \x7b".toList, []),
           ("let [fn, wt] = d.readTag();".toList, []),
           ("switch(fn) \x7b".toList, [])], m0) = .ok (w1, m1) ∧
      exOneofOut.1.w = (w1.emit
          [("default:".toList, []), ("d.skipWireType(wt)".toList, []), ("\x7d".toList, []),
           ("\x7d".toList, []), ("\x7d".toList, [])]).w ++ post) ∧
    Contains exOneofOut.1.w
      ("      switch(fn) \x7b\n" ++
       "        case 1:\n" ++
       "        this.choice = new M.choice.a(d.readVarInt32());\n" ++
       "        break;\n" ++
       "        case 2:\n" ++
       "        \x7b\n" ++
       "          let msg = new Child();\n" ++
       "          msg.MergeFrom(d.readDecoder());\n" ++
       "          this.choice = new M.choice.b(msg);\n" ++
       "        \x7d\n" ++
       "        break;\n" ++
       "        case 3:\n" ++
       "        this.s = d.readString();\n" ++
       "        break;\n" ++
       "        default:\n" ++
       "        d.skipWireType(wt)\n" ++
       "      \x7d\n" ++
       "    \x7d\n" ++
       "  \x7d\n").toList = true :=
  have h : writeDescriptor exOneofStart exOneofNs exOneofResolver exOneofLib [] exOneofMsg
      = .ok exOneofOut := by rfl
  ⟨h,
    writeDescriptor_decode_loop exOneofStart exOneofOut.1 exOneofNs exOneofResolver exOneofOut.2
      exOneofLib [] exOneofMsg h,
    by decide!⟩

/-! ## Encode method -/

/-- C17: the method `WriteTo` that `writeDescriptor` writes for a message with
at least one field consists of the encode fragments of the fields that are not
members of a oneof, in order, followed by one call `<oneof>.WriteTo(this.<name>,
e);` per declared oneof, in order, and has no fragment for a member; a message
without fields has the empty method, and then no oneof has a member.  The
function `WriteTo` that `writeOneof` writes for a oneof of the message is a
`switch` with one case per member, in order: under `case <number>:` a message
is written through a nested encoder by `e.writeEncoder(nested, <number>)` and
a scalar by its tag `e.writeTag(<number>, <wire type>)` and its value, and the
case returns. -/
theorem writeDescriptor_encode_members (w w2 : writer) (ns : Namespace)
    (mr mr2 : moduleResolver) (libMod : modRef) (prefixNames : List Str) (dp : DescriptorProto)
    (h : writeDescriptor w ns mr libMod prefixNames dp = .ok (w2, mr2)) :
    ∃ (fields : List field) (oneofs : List oneof) (w0 w1 : writer) (m0 m1 : moduleResolver)
      (post : Str),
      List.Forall₂ (fun fd f => f.fd = fd ∧
        ∃ mA mB f0, newField fd (some ns) mA = .ok (f0, mB) ∧ f = { f0 with oneof := f.oneof })
        dp.field fields ∧
      oneofs.map (fun oo => oo.odp) = dp.oneofDecl ∧
      (∃ pre, w0.w = w.w ++ pre) ∧
      (if dp.field.length < 1 then
        (∀ oo ∈ oneofs, oo.fields = []) ∧
        w2.w = (w0.p "WriteTo(_: %s.Internal.Encoder): void \x7b\x7d".toList
          [.s libMod.alias_]).w ++ post
      else
        (fields.filter fun f => !f.isOneofMember).foldlM
            (fun (st : writer × moduleResolver) f =>
              f.writeEncoder st.1 libMod "e".toList false st.2)
            (w0.p "WriteTo(e: %s.Internal.Encoder): void \x7b".toList [.s libMod.alias_], m0)
          = .ok (w1, m1) ∧
        w2.w = ((oneofs.foldl
          (fun w oo => w.p "%s.WriteTo(this.%s, e);".toList [.s oo.fqNamespace, .s oo.odp.name])
          w1).p "\x7d".toList []).w ++ post) ∧
      ∀ oo ∈ oneofs, ∀ (wa wb : writer) (ma mb : moduleResolver),
        writeOneof wa oo libMod (prefixNames ++ [dp.name]) ma = .ok (wb, mb) →
        ∃ wc : writer, (∃ pre, wc.w = wa.w ++ pre) ∧
          wb = ((((oo.fields.foldl (dispatchCase libMod)
            (wc.emit
              [("export function WriteTo(oo: %s, e: %s.Internal.Encoder):void \x7b".toList,
                 [.s oo.typeName, .s libMod.alias_]),
               ("switch (oo.kind) \x7b".toList, [])])).emit
            [("\x7d".toList, []), ("\x7d".toList, [])]).p "\x7d".toList []).ln) := by
  obtain ⟨wm, mrm, hmsg, ext⟩ := writeDescriptor_message h
  obtain ⟨fields0, fields, m0, wC, wD, wE, mC, mD, mE, h1, h2, eC, hD, hE, eE, e2⟩ :=
    writeMessage_parts hmsg
  have hF := wrapped_fields h1 h2
  have hlen : fields.length = dp.field.length := hF.length_eq.symm
  have hlen0 : fields0.length = dp.field.length := (wrapFields_fields h1).length_eq.symm
  obtain ⟨post, hpost⟩ := e2.more ext
  have eD : Extends wC wD := by
    refine Extends.more (Extends.emit (Extends.nothing _) _)
      (Extends.foldlM (fun s : writer × moduleResolver => s.1) _ fields ?_ _ _ hD)
    intro f _ s s2 hs
    simp only [bind, Except.bind, pure, Except.pure] at hs
    split at hs
    · cases hs
    · next r hr =>
      simp only [Except.ok.injEq] at hs
      subst hs
      exact Extends.p ((Extends.p (Extends.nothing _) _ _).more (writeDecoder_extends hr)) _ _
  have hdisp : ∀ oo ∈ wrapOneofs dp fields0 (prefixNames ++ [dp.name]),
      ∀ (wa wb : writer) (ma mb : moduleResolver),
      writeOneof wa oo libMod (prefixNames ++ [dp.name]) ma = .ok (wb, mb) →
      ∃ wc : writer, (∃ pre, wc.w = wa.w ++ pre) ∧
        wb = ((((oo.fields.foldl (dispatchCase libMod)
          (wc.emit
            [("export function WriteTo(oo: %s, e: %s.Internal.Encoder):void \x7b".toList,
               [.s oo.typeName, .s libMod.alias_]),
             ("switch (oo.kind) \x7b".toList, [])])).emit
          [("\x7d".toList, []), ("\x7d".toList, [])]).p "\x7d".toList []).ln) := by
    intro oo hoo wa wb ma mb hw
    obtain ⟨lts, _, _, hwb⟩ := writeOneof_eq hw
    have hpos : (prefixNames ++ [dp.name]).length > 0 := by simp
    refine ⟨((((oo.fields.zip lts).foldl variantClass
        (wa.p "export namespace %s \x7b".toList
          [.s (Join ((prefixNames ++ [dp.name]) ++ [oo.odp.name]) ".".toList)])).p
        "export type %s = %s;".toList
        [.s oo.typeName,
         .s (Join ((libMod.alias_ ++ ".OneofNotSet".toList)
              :: oo.fields.map field.varName) " | ".toList)]).ln), ?_, ?_⟩
    rotate_left
    · rw [hwb]
      simp only [hpos, if_true]
    · refine Extends.ln (Extends.p (Extends.foldl _ (fun w x => ?_) _
        (Extends.p (Extends.nothing _) _ _)) _ _)
      unfold variantClass
      exact Extends.ln (Extends.emit (Extends.nothing _) _)
  have e0 : Extends w ((wD.emit
      [("default:".toList, []), ("d.skipWireType(wt)".toList, []), ("\x7d".toList, []),
       ("\x7d".toList, []), ("\x7d".toList, [])]).ln) :=
    (eC.more eD).more (Extends.ln (Extends.emit (Extends.nothing _) _))
  by_cases hl : fields.length < 1
  · rw [if_pos hl] at hE
    have hl2 : dp.field.length < 1 := hlen ▸ hl
    have hf0 : fields0 = [] := by
      apply List.eq_nil_of_length_eq_zero
      rw [hlen0]
      omega
    refine ⟨fields, wrapOneofs dp fields0 (prefixNames ++ [dp.name]), _, wD, mD, mE, post, hF,
      wrapOneofs_odp _ _ _, e0, ?_, hdisp⟩
    rw [if_pos hl2]
    refine ⟨?_, ?_⟩
    · intro oo hoo
      obtain ⟨⟨i, _, hfl⟩, _⟩ := mem_wrapOneofs hoo
      rw [hfl, hf0]
      rfl
    · rw [hpost, hE]
  · rw [if_neg hl] at hE
    have hl2 : ¬ dp.field.length < 1 := hlen ▸ hl
    obtain ⟨w1, hw1, hwE⟩ := hE
    refine ⟨fields, wrapOneofs dp fields0 (prefixNames ++ [dp.name]), _, w1, mD, mE, post, hF,
      wrapOneofs_odp _ _ _, e0, ?_, hdisp⟩
    rw [if_neg hl2]
    exact ⟨hw1, by rw [hpost, hwE]⟩

theorem writeDescriptor_encode_members_witness :
    writeDescriptor exOneofStart exOneofNs exOneofResolver exOneofLib [] exOneofMsg
      = .ok exOneofOut ∧
    (∃ (fields : List field) (oneofs : List oneof) (w0 w1 : writer) (m0 m1 : moduleResolver)
      (post : Str),
      List.Forall₂ (fun fd f => f.fd = fd ∧
        ∃ mA mB f0, newField fd (some exOneofNs) mA = .ok (f0, mB) ∧ f = { f0 with oneof := f.oneof })
        exOneofMsg.field fields ∧
      oneofs.map (fun oo => oo.odp) = exOneofMsg.oneofDecl ∧
      (∃ pre, w0.w = exOneofStart.w ++ pre) ∧
      (if exOneofMsg.field.length < 1 then
        (∀ oo ∈ oneofs, oo.fields = []) ∧
        exOneofOut.1.w = (w0.p "WriteTo(_: %s.Internal.Encoder): void \x7b\x7d".toList
          [.s exOneofLib.alias_]).w ++ post
      else
        (fields.filter fun f => !f.isOneofMember).foldlM
            (fun (st : writer × moduleResolver) f =>
              f.writeEncoder st.1 exOneofLib "e".toList false st.2)
            (w0.p "WriteTo(e: %s.Internal.Encoder): void \x7b".toList [.s exOneofLib.alias_], m0)
          = .ok (w1, m1) ∧
        exOneofOut.1.w = ((oneofs.foldl
          (fun w oo => w.p "%s.WriteTo(this.%s, e);".toList [.s oo.fqNamespace, .s oo.odp.name])
          w1).p "\x7d".toList []).w ++ post) ∧
      ∀ oo ∈ oneofs, ∀ (wa wb : writer) (ma mb : moduleResolver),
        writeOneof wa oo exOneofLib ([] ++ [exOneofMsg.name]) ma = .ok (wb, mb) →
        ∃ wc : writer, (∃ pre, wc.w = wa.w ++ pre) ∧
          wb = ((((oo.fields.foldl (dispatchCase exOneofLib)
            (wc.emit
              [("export function WriteTo(oo: %s, e: %s.Internal.Encoder):void \x7b".toList,
                 [.s oo.typeName, .s exOneofLib.alias_]),
               ("switch (oo.kind) \x7b".toList, [])])).emit
            [("\x7d".toList, []), ("\x7d".toList, [])]).p "\x7d".toList []).ln)) ∧
    Contains exOneofOut.1.w
      ("  WriteTo(e: __pb__.Internal.Encoder): void \x7b\n" ++
       "    if (this.s != \"\") \x7b\n" ++
       "      e.writeTag(3, 2);\n" ++
       "      e.writeString(this.s);\n" ++
       "    \x7d\n" ++
       "    M.choice.WriteTo(this.choice, e);\n" ++
       "  \x7d\n").toList = true ∧
    Contains exOneofOut.1.w
      ("  export function WriteTo(oo: oneof_type, e: __pb__.Internal.Encoder):void \x7b\n" ++
       "    switch (oo.kind) \x7b\n" ++
       "      case 1:\n" ++
       "      e.writeTag(1, 0);\n" ++
       "      e.writeNumberAsVarint((oo as a).value);\n" ++
       "      return;\n" ++
       "      case 2:\n" ++
       "      \x7b\n" ++
       "        let nested = new __pb__.Internal.Encoder();\n" ++
       "        let msg = (oo as b).value;\n" ++
       "        if (msg != null) \x7b\n" ++
       "          msg.WriteTo(nested);\n" ++
       "        \x7d\n" ++
       "        e.writeEncoder(nested, 2);\n" ++
       "        return\n" ++
       "      \x7d\n" ++
       "    \x7d\n" ++
       "  \x7d\n" ++
       "\x7d\n").toList = true :=
  have h : writeDescriptor exOneofStart exOneofNs exOneofResolver exOneofLib [] exOneofMsg
      = .ok exOneofOut := by rfl
  ⟨h,
    writeDescriptor_encode_members exOneofStart exOneofOut.1 exOneofNs exOneofResolver
      exOneofOut.2 exOneofLib [] exOneofMsg h,
    by decide!, by decide!⟩

/-! ## No options -/

/-- C22 fails at every request whose parameter is the empty string, such as
`exNoOptionReq`: the option string splits into the one item that is the empty
string, which is neither `plugin=grpc` nor begins with `library_import=`, so
the run panics with the message `unknown compiler option: ` before a file is
looked at.  The same file is generated with the defaults when an option that
names the default is given. -/
theorem gen_empty_parameter_panics (ord : MapOrder) (req : CodeGeneratorRequest) :
    Split ([] : Str) ',' = [[]] ∧
    gen ord { req with parameter := [] } = .error (.unknownOption []) ∧
    gen ord exNoOptionReq = .error (.unknownOption []) ∧
    (Panic.unknownOption []).message = "unknown compiler option: ".toList ∧
    genOptions (Split "library_import=protobuf".toList ',') (false, "protobuf".toList)
      = .ok (false, "protobuf".toList) ∧
    (contents (gen MapOrder.insertion
      { exNoOptionReq with parameter := "library_import=protobuf".toList })).map
        (fun c => Contains c "import * as __pb__ from 'protobuf'\n".toList) = [true] := by
  refine ⟨rfl, ?_, ?_, rfl, by decide!, by decide!⟩
  · unfold gen
    rfl
  · unfold gen
    rfl

/-! ## Imports of skipped methods -/

theorem newMethod_streaming (mdp : MethodDescriptorProto) (ns : Namespace) (mr : moduleResolver)
    (b c : Bool) :
    (newMethod { mdp with clientStreaming := b, serverStreaming := c } ns mr).map Prod.snd
      = (newMethod mdp ns mr).map Prod.snd := by
  unfold newMethod
  simp only [bind, Except.bind, pure, Except.pure]
  cases ns.FindFullyQualifiedName mdp.inputType with
  | error e => rfl
  | ok r1 =>
    obtain ⟨a1, t1, d1, f1⟩ := r1
    simp only
    cases ns.FindFullyQualifiedName mdp.outputType with
    | error e => rfl
    | ok r2 => rfl

set_option maxRecDepth 100000 in
/-- C21 fails at `exStreamReq`: the only reference of `s.proto` to a type of
`b.proto` is through the input and output type of the streaming method `Watch`,
for which `writeService` writes nothing; all the same the import block of the
generated file has the line `import * as ___b_pb from './b_pb'`, and the alias
`___b_pb` occurs nowhere in the text that `writeFile` wrote.  For every method,
what `newMethod` records in the reference table is the same whether the method
is streaming or not. -/
theorem gen_streaming_import_unused :
    writeFile MapOrder.insertion { w := [], i := 0 } exStreamFile exStreamNs
        { alias_ := "__pb__".toList, path := "protobuf".toList } true = .ok exStreamOut ∧
    exStreamOut.1 =
      ("import * as __pb__ from 'protobuf'\n" ++
       "import * as ___b_pb from './b_pb'\n").toList ∧
    Contains exStreamOut.2.w "___b_pb".toList = false ∧
    Contains exStreamOut.2.w "Watch".toList = false ∧
    contents (gen MapOrder.insertion exStreamReq) =
      [("// Generated by the protocol buffer compiler.  DO NOT EDIT!\n" ++
        "// Source: s.proto\n" ++
        "\n" ++
        "import * as __pb__ from 'protobuf'\n" ++
        "import * as ___b_pb from './b_pb'\n" ++
        "\n" ++
        "\n" ++
        "export class FeedClient \x7b\n" ++
        "  private cc: __pb__.Grpc.ClientConn;\n" ++
        "  constructor(cc: __pb__.Grpc.ClientConn) \x7b\n" ++
        "    this.cc = cc;\n" ++
        "  \x7d\n" ++
        "\x7d\n").toList] ∧
    ∀ (mdp : MethodDescriptorProto) (ns : Namespace) (mr : moduleResolver) (b c : Bool),
      (newMethod { mdp with clientStreaming := b, serverStreaming := c } ns mr).map Prod.snd
        = (newMethod mdp ns mr).map Prod.snd :=
  ⟨by rfl, by decide!, by decide!, by decide!, by decide!, newMethod_streaming⟩

/-! ## Import aliases -/

set_option maxRecDepth 100000 in
/-- C23 fails for the current file `m.proto` and the targets `a/b.proto` and
`a_b.proto`: their output modules `a/b_pb` and `a_b_pb` differ, and so do the
paths of the two module references, but both references have the alias
`___a_b_pb`, whether the second target is resolved by a fresh resolver or after
the first; the file generated for `exAliasReq` declares the alias twice, and
uses it for the types of both files. -/
theorem ToRelativeModule_alias_collision :
    tsFileName exAliasB = "a/b_pb".toList ∧ tsFileName exAliasC = "a_b_pb".toList ∧
    (({ currentFile := exAliasM, references := [] } : moduleResolver).ToRelativeModule exAliasB).1
      = some { alias_ := "___a_b_pb".toList, path := "./a/b_pb".toList } ∧
    (({ currentFile := exAliasM, references := [] } : moduleResolver).ToRelativeModule exAliasC).1
      = some { alias_ := "___a_b_pb".toList, path := "./a_b_pb".toList } ∧
    ((({ currentFile := exAliasM, references := [] } : moduleResolver).ToRelativeModule
        exAliasB).2.ToRelativeModule exAliasC).2.references
      = [("a/b.proto".toList, { alias_ := "___a_b_pb".toList, path := "./a/b_pb".toList }),
         ("a_b.proto".toList, { alias_ := "___a_b_pb".toList, path := "./a_b_pb".toList })] ∧
    (contents (gen MapOrder.insertion exAliasReq)).map (fun c =>
        (Contains c
          ("import * as ___a_b_pb from './a/b_pb'\n" ++
           "import * as ___a_b_pb from './a_b_pb'\n").toList,
         Contains c "  y: ___a_b_pb.Y | null;\n  z: ___a_b_pb.Z | null;\n".toList))
      = [(true, true)] :=
  ⟨by decide!, by decide!, by decide!, by decide!, by decide!, by decide!⟩

set_option maxRecDepth 100000 in
/-- C24 fails for the current file `a/x.proto` and the target `b/y.proto`: the
path of the target's module relative to the directory `a` is `../b/y_pb`, only
its slashes are replaced, and the alias is `___.._b_y_pb`, which has two dots;
the file generated for `exDotsReq` has that alias after `import * as` and as
the qualifier of the type `Y`. -/
theorem ToRelativeModule_alias_dots :
    (({ currentFile := exDotsX, references := [] } : moduleResolver).ToRelativeModule exDotsY).1
      = some { alias_ := "___.._b_y_pb".toList, path := "./../b/y_pb".toList } ∧
    ((({ currentFile := exDotsX, references := [] } : moduleResolver).ToRelativeModule
        exDotsY).1.map fun mod => mod.alias_.all identChar) = some false ∧
    (exDotsX.name ++ exDotsY.name).all (fun c => identChar c || c == '/' || c == '.') = true ∧
    (contents (gen MapOrder.insertion exDotsReq)).map (fun c =>
        (Contains c "import * as ___.._b_y_pb from './../b/y_pb'\n".toList,
         Contains c "  y: ___.._b_y_pb.Y | null;\n".toList))
      = [(true, true)] :=
  ⟨by decide!, by decide!, by decide!, by decide!⟩

/-! ## Oneofs of a message -/

theorem forall2_both {α β : Type} {R S : α → β → Prop} {l1 : List α} {l2 : List β}
    (hR : List.Forall₂ R l1 l2) (hS : List.Forall₂ S l1 l2) :
    List.Forall₂ (fun a b => R a b ∧ S a b) l1 l2 := by
  induction hR with
  | nil => exact List.Forall₂.nil
  | cons hab _ ih =>
    cases hS with
    | cons hs hrest => exact List.Forall₂.cons ⟨hab, hs⟩ (ih hrest)

theorem forall2_mem {α β : Type} {R : α → β → Prop} {l1 : List α} {l2 : List β}
    (hR : List.Forall₂ R l1 l2) (L : List α) (hL : ∀ a ∈ l1, a ∈ L) :
    List.Forall₂ (fun a b => a ∈ L ∧ R a b) l1 l2 := by
  induction hR with
  | nil => exact List.Forall₂.nil
  | cons hab _ ih =>
    exact List.Forall₂.cons ⟨hL _ (List.mem_cons_self _ _), hab⟩
      (ih fun a ha => hL a (List.mem_cons_of_mem _ ha))

theorem wrapOneofs_get {dp : DescriptorProto} {fields : List field} {nextNames : List Str}
    {i : Nat} {oo : oneof} (h : (wrapOneofs dp fields nextNames)[i]? = some oo) :
    dp.oneofDecl[i]? = some oo.odp ∧
    oo.fqNamespace = Join (nextNames ++ [oo.odp.name]) ".".toList ∧
    oo.typeName = "oneof_type".toList ∧
    oo.fields = fields.filter fun f => f.isOneofMember && f.fd.GetOneofIndex = (i : Int) := by
  unfold wrapOneofs at h
  rw [List.getElem?_map, List.getElem?_enum] at h
  cases hd : dp.oneofDecl[i]? with
  | none =>
    rw [hd] at h
    cases h
  | some od =>
    rw [hd] at h
    simp only [Option.map_some', Option.some.injEq] at h
    subst h
    exact ⟨rfl, rfl, rfl, rfl⟩

/-- Pointing the members at their oneofs points each member at the oneof that
stands at the oneof index of the member, and leaves the other fields as they
are. -/
theorem pointAtOneofs_index (oneofs : List oneof) :
    ∀ (fields0 fields : List field), pointAtOneofs fields0 oneofs = .ok fields →
      List.Forall₂ (fun f0 f =>
        (f0.isOneofMember = true → ∃ (i : Nat) (oo : oneof),
          f0.fd.GetOneofIndex = (i : Int) ∧ oneofs[i]? = some oo ∧
          f = { f0 with oneof := some { odp := oo.odp, fqNamespace := oo.fqNamespace,
                                        typeName := oo.typeName } }) ∧
        (f0.isOneofMember = false → f = f0)) fields0 fields := by
  intro fields0
  unfold pointAtOneofs
  induction fields0 with
  | nil =>
    intro fields h
    simp only [List.mapM_nil, pure, Except.pure, Except.ok.injEq] at h
    subst h
    exact List.Forall₂.nil
  | cons f0 rest ih =>
    intro fields h
    rw [List.mapM_cons] at h
    simp only [bind, Except.bind, pure, Except.pure] at h
    split at h
    · cases h
    · next f hf =>
      split at h
      · cases h
      · next fs hfs =>
        simp only [Except.ok.injEq] at h
        subst h
        refine List.Forall₂.cons ?_ (ih fs hfs)
        split at hf
        · next hmem =>
          split at hf
          · cases hf
          · next oo hoo =>
            simp only [Except.ok.injEq] at hf
            subst hf
            refine ⟨fun _ => ?_, fun hn => ?_⟩
            · split at hoo
              · cases hoo
              · next hneg =>
                refine ⟨f0.fd.GetOneofIndex.toNat, oo, ?_, ?_, rfl⟩
                · exact (Int.toNat_of_nonneg (Int.not_lt.mp hneg)).symm
                · rw [← List.get?_eq_getElem?]
                  exact hoo
            · rw [hmem] at hn
              cases hn
        · next hmem =>
          simp only [Except.ok.injEq] at hf
          subst hf
          refine ⟨fun h => absurd h hmem, fun _ => rfl⟩

/-- The oneofs of a message are written by `writeOneof`, one after the other,
and what they write is part of the text of the message. -/
theorem writeMessage_oneofs {w w2 : writer} {dp : DescriptorProto} {ns : Namespace}
    {mr mr2 : moduleResolver} {libMod : modRef} {prefixNames : List Str}
    (h : writeMessage w dp ns mr libMod prefixNames = .ok (w2, mr2)) :
    ∃ (fields0 : List field) (m0 : moduleResolver) (wa wb : writer) (ma mb : moduleResolver),
      wrapFields dp.field ns mr = .ok (fields0, m0) ∧
      (wrapOneofs dp fields0 (prefixNames ++ [dp.name])).foldlM
        (fun (st : writer × moduleResolver) oo =>
          writeOneof st.1 oo libMod (prefixNames ++ [dp.name]) st.2) (wa, ma) = .ok (wb, mb) ∧
      Extends wb w2 := by
  unfold writeMessage at h
  simp only [bind, Except.bind, pure, Except.pure, writer.pdebug, genDebug, Bool.not_false,
    if_true] at h
  split at h
  · cases h
  · next r1 h1 =>
    obtain ⟨fields0, m0⟩ := r1
    simp only at h
    split at h
    · cases h
    · next fields h2 =>
      split at h
      · cases h
      · next r3 h3 =>
        split at h
        · cases h
        · next r4 h4 =>
          split at h
          · cases h
          · next r5 h5 =>
            split at h
            · next hlen =>
              split at h
              · cases h
              · next r7 h7 =>
                simp only [Except.ok.injEq, Prod.mk.injEq] at h
                obtain ⟨hw2, _⟩ := h
                refine ⟨fields0, m0, _, r7.1, _, r7.2, h1, h7, ?_⟩
                rw [← hw2]
                exact Extends.foldl _ (fun w e => writeEnum_extends w e _) _ (Extends.nothing _)
            · next hlen =>
              split at h
              · cases h
              · next r6 h6 =>
                split at h
                · cases h
                · next r7 h7 =>
                  simp only [Except.ok.injEq, Prod.mk.injEq] at h
                  obtain ⟨hw2, _⟩ := h
                  refine ⟨fields0, m0, _, r7.1, _, r7.2, h1, h7, ?_⟩
                  rw [← hw2]
                  exact Extends.foldl _ (fun w e => writeEnum_extends w e _) _ (Extends.nothing _)

/-- The classes of the members and the union type begin the text that
`writeOneof` writes for a oneof of a message. -/
theorem writeOneof_classes {w w2 : writer} {oo : oneof} {libMod : modRef}
    {nextNames : List Str} {mr mr2 : moduleResolver}
    (hfq : oo.fqNamespace = Join (nextNames ++ [oo.odp.name]) ".".toList)
    (htn : oo.typeName = "oneof_type".toList) (hlen : nextNames.length > 0)
    (h : writeOneof w oo libMod nextNames mr = .ok (w2, mr2)) :
    ∃ (lts : List Str) (post : Str),
      List.Forall₂ (fun f lt => ∃ mA mB, f.labeledType mA = .ok (lt, mB)) oo.fields lts ∧
      w2.w =
        (((oo.fields.zip lts).foldl variantClass
            (w.p "export namespace %s \x7b".toList [.s oo.fqNamespace])).p
          "export type %s = %s;".toList
          [.s "oneof_type".toList,
           .s (Join ((libMod.alias_ ++ ".OneofNotSet".toList) :: oo.fields.map field.varName)
                " | ".toList)]).w ++ post := by
  obtain ⟨lts, hf, _, hw⟩ := writeOneof_eq h
  have hext : Extends
      (((oo.fields.zip lts).foldl variantClass
          (w.p "export namespace %s \x7b".toList [.s oo.fqNamespace])).p
        "export type %s = %s;".toList
        [.s "oneof_type".toList,
         .s (Join ((libMod.alias_ ++ ".OneofNotSet".toList) :: oo.fields.map field.varName)
              " | ".toList)]) w2 := by
    rw [hw, if_pos hlen, ← hfq, htn]
    simp only [hlen, if_true]
    refine Extends.ln (Extends.p (Extends.emit ?_ _) _ _)
    refine Extends.foldl _ (fun w f => ?_) _ ?_
    · unfold dispatchCase
      exact Extends.ite _ (Extends.emit (Extends.nothing _) _) (Extends.emit (Extends.nothing _) _)
    · exact Extends.emit (Extends.ln (Extends.nothing _)) _
  obtain ⟨post, hpost⟩ := hext
  exact ⟨lts, post, hf, hpost⟩

/-- C16: for a message that `writeDescriptor` writes, the oneofs are wrapped one
per declared oneof, in order, the members of the oneof at index `i` being the
fields with that oneof index, in the order of their declaration, and the
namespace of the oneof being that of the message followed by the name of the
oneof.  For each oneof `writeOneof` opens its namespace and writes in it one
variant class per member, in that order: the class has the name of the
member, its `kind`, static and per instance, is the number of the member, and
its `value` has the labeled type of the member; then it writes the union type
`oneof_type`, which lists `<alias>.OneofNotSet` first and then the classes of
the members in the same order.  Each member field, as the decode loop of the
message sees it after the members have been pointed at their oneofs, belongs to
the oneof at its own oneof index, and its decode fragment assigns to the
property of that oneof a new instance of the class of the member in the
namespace of that oneof, built from the value read for a scalar member and
from a new, merged message for a singular message member.  The decode loop
over these fields and the text of `writeOneof` for these oneofs are part of
the text of the message. -/
theorem writeDescriptor_oneof_variants (w w2 : writer) (ns : Namespace) (mr mr2 : moduleResolver)
    (libMod : modRef) (prefixNames : List Str) (dp : DescriptorProto)
    (h : writeDescriptor w ns mr libMod prefixNames dp = .ok (w2, mr2)) :
    ∃ (fields0 fields : List field) (oneofs : List oneof) (m0 : moduleResolver),
      wrapFields dp.field ns mr = .ok (fields0, m0) ∧
      oneofs = wrapOneofs dp fields0 (prefixNames ++ [dp.name]) ∧
      pointAtOneofs fields0 oneofs = .ok fields ∧
      oneofs.map (fun oo => oo.odp) = dp.oneofDecl ∧
      (∀ (i : Nat) (oo : oneof), oneofs[i]? = some oo →
        oo.fqNamespace = Join (prefixNames ++ [dp.name] ++ [oo.odp.name]) ".".toList ∧
        oo.fields = (fields0.filter fun f => f.isOneofMember && f.fd.GetOneofIndex = (i : Int)) ∧
        ∀ (wa wb : writer) (ma mb : moduleResolver),
          writeOneof wa oo libMod (prefixNames ++ [dp.name]) ma = .ok (wb, mb) →
          ∃ (lts : List Str) (post : Str),
            List.Forall₂ (fun f lt => ∃ mA mB, f.labeledType mA = .ok (lt, mB)) oo.fields lts ∧
            wb.w =
              (((oo.fields.zip lts).foldl variantClass
                  (wa.p "export namespace %s \x7b".toList [.s oo.fqNamespace])).p
                "export type %s = %s;".toList
                [.s "oneof_type".toList,
                 .s (Join ((libMod.alias_ ++ ".OneofNotSet".toList)
                      :: oo.fields.map field.varName) " | ".toList)]).w ++ post) ∧
      List.Forall₂ (fun g0 g =>
        g = { g0 with oneof := g.oneof } ∧
        (g0.isOneofMember = true →
          ∃ (i : Nat) (oo : oneof), g0.fd.GetOneofIndex = (i : Int) ∧ oneofs[i]? = some oo ∧
            g0 ∈ oo.fields ∧
            (g.isMap = false → ∀ (wd : writer) (dec wt : Str) (m : moduleResolver),
              (∀ rm, readMethod g.fd.GetType = some rm →
                g.writeDecoder wd dec wt m
                  = .ok (wd.emit
                      [("this.%s = new %s.%s(%s);".toList,
                        [.s oo.odp.name, .s oo.fqNamespace, .s g.varName,
                         .s (dec ++ ".".toList ++ rm ++ "()".toList)])], m)) ∧
              (g.isMessage = true → ∀ l, g.fd.label = some l → l ≠ LABEL_REPEATED →
                g.writeDecoder wd dec wt m
                  = .ok (wd.emit
                      [("\x7b".toList, []),
                       ("let msg = new %s();".toList, [.s g.typeTsName]),
                       ("msg.MergeFrom(%s.readDecoder());".toList, [.s dec]),
                       ("this.%s = new %s.%s(msg);".toList,
                         [.s oo.odp.name, .s oo.fqNamespace, .s g.varName]),
                       ("\x7d".toList, [])], m)))))
        fields0 fields ∧
      (∃ (w0 w1 : writer) (mC mD : moduleResolver) (post : Str),
        fields.foldlM
          (fun (st : writer × moduleResolver) f => do
            let (wf, mf) ← f.writeDecoder (st.1.p "case %d:".toList [.d f.fd.number])
              "d".toList "wt".toList st.2
            pure (wf.p "break;".toList [], mf))
          (w0.emit
            [("MergeFrom(d: %s.Internal.Decoder): void \x7b".toList, [.s libMod.alias_]),
             ("while (!d.isEOF()) \x7b".toList, []),
             ("let [fn, wt] = d.readTag();".toList, []),
             ("switch(fn) \x7b".toList, [])], mC) = .ok (w1, mD) ∧
        w2.w = w1.w ++ post) ∧
      ∃ (wa wb : writer) (ma mb : moduleResolver) (post : Str),
        oneofs.foldlM
          (fun (st : writer × moduleResolver) oo => writeOneof st.1 oo libMod (prefixNames ++ [dp.name]) st.2)
          (wa, ma) = .ok (wb, mb) ∧
        w2.w = wb.w ++ post := by
  obtain ⟨wm, mrm, hmsg, ext⟩ := writeDescriptor_message h
  obtain ⟨fields0, fields, m0, wC, wD, wE, mC, mD, mE, h1, h2, eC, hD, _, eE, e2⟩ :=
    writeMessage_parts hmsg
  obtain ⟨fields0b, m0b, wa, wb, ma, mb, h1b, hO, eO⟩ := writeMessage_oneofs hmsg
  rw [h1] at h1b
  simp only [Except.ok.injEq, Prod.mk.injEq] at h1b
  obtain ⟨hf0, _⟩ := h1b
  subst hf0
  have hlen : (prefixNames ++ [dp.name]).length > 0 := by simp
  refine ⟨fields0, fields, _, m0, h1, rfl, h2, wrapOneofs_odp _ _ _, ?_, ?_, ?_, ?_⟩
  · intro i oo hi
    obtain ⟨_, hfq, htn, hfl⟩ := wrapOneofs_get hi
    refine ⟨?_, hfl, fun wa wb ma mb hw => writeOneof_classes hfq htn hlen hw⟩
    rw [hfq]
  · refine List.Forall₂.imp ?_
      (forall2_mem (forall2_both (pointAtOneofs_fields _ fields0 fields h2)
        (pointAtOneofs_index _ fields0 fields h2)) fields0 (fun _ ha => ha))
    rintro g0 g ⟨hin, ⟨hg, _⟩, hmemb, _⟩
    refine ⟨hg, fun hmem => ?_⟩
    obtain ⟨i, oo, hidx, hi, hgo⟩ := hmemb hmem
    obtain ⟨_, _, _, hfl⟩ := wrapOneofs_get hi
    have hg0 : g0 ∈ oo.fields := by
      rw [hfl, List.mem_filter]
      refine ⟨hin, ?_⟩
      simp only [hmem, hidx, Bool.true_and, decide_True]
    refine ⟨i, oo, hidx, hi, hg0, ?_⟩
    rw [hgo]
    intro hmap wd dec wt m
    refine ⟨fun rm hrm => ?_, fun hmsg l hl hrep => ?_⟩
    · exact member_decode_scalar
        { g0 with oneof := some { odp := oo.odp, fqNamespace := oo.fqNamespace,
                                  typeName := oo.typeName } }
        { odp := oo.odp, fqNamespace := oo.fqNamespace, typeName := oo.typeName }
        rm wd dec wt m hmap hmem rfl hrm
    · exact member_decode_message
        { g0 with oneof := some { odp := oo.odp, fqNamespace := oo.fqNamespace,
                                  typeName := oo.typeName } }
        { odp := oo.odp, fqNamespace := oo.fqNamespace, typeName := oo.typeName }
        l wd dec wt m hmap hmsg hl hrep hmem rfl
  · obtain ⟨post, hpost⟩ :=
      (((Extends.ln (Extends.emit (Extends.nothing wD) _)).more eE).more e2).more ext
    exact ⟨wC, wD, mC, mD, post, hD, hpost⟩
  · obtain ⟨post, hpost⟩ := eO.more ext
    exact ⟨wa, wb, ma, mb, post, hO, hpost⟩

set_option maxRecDepth 100000 in
/-- C16 at the message `T` of `t.proto`, which has the oneof `first` with the
member `int32 a = 1` and the oneof `second` with the members `string b = 2` and
`Child c = 3`: the member `a` is decoded into `this.first`, the members `b`
and `c` into `this.second`, and each oneof has its classes and its union. -/
theorem writeDescriptor_oneof_variants_witness :
    writeDescriptor exOneofStart exTwoNs exTwoResolver exOneofLib [] exTwoMsg = .ok exTwoOut ∧
    (∃ (fields0 fields : List field) (oneofs : List oneof) (m0 : moduleResolver),
      wrapFields exTwoMsg.field exTwoNs exTwoResolver = .ok (fields0, m0) ∧
      oneofs = wrapOneofs exTwoMsg fields0 (([] : List Str) ++ [exTwoMsg.name]) ∧
      pointAtOneofs fields0 oneofs = .ok fields ∧
      oneofs.map (fun oo => oo.odp) = exTwoMsg.oneofDecl ∧
      (∀ (i : Nat) (oo : oneof), oneofs[i]? = some oo →
        oo.fqNamespace = Join (([] : List Str) ++ [exTwoMsg.name] ++ [oo.odp.name]) ".".toList ∧
        oo.fields = (fields0.filter fun f => f.isOneofMember && f.fd.GetOneofIndex = (i : Int)) ∧
        ∀ (wa wb : writer) (ma mb : moduleResolver),
          writeOneof wa oo exOneofLib (([] : List Str) ++ [exTwoMsg.name]) ma = .ok (wb, mb) →
          ∃ (lts : List Str) (post : Str),
            List.Forall₂ (fun f lt => ∃ mA mB, f.labeledType mA = .ok (lt, mB)) oo.fields lts ∧
            wb.w =
              (((oo.fields.zip lts).foldl variantClass
                  (wa.p "export namespace %s \x7b".toList [.s oo.fqNamespace])).p
                "export type %s = %s;".toList
                [.s "oneof_type".toList,
                 .s (Join ((exOneofLib.alias_ ++ ".OneofNotSet".toList)
                      :: oo.fields.map field.varName) " | ".toList)]).w ++ post) ∧
      List.Forall₂ (fun g0 g =>
        g = { g0 with oneof := g.oneof } ∧
        (g0.isOneofMember = true →
          ∃ (i : Nat) (oo : oneof), g0.fd.GetOneofIndex = (i : Int) ∧ oneofs[i]? = some oo ∧
            g0 ∈ oo.fields ∧
            (g.isMap = false → ∀ (wd : writer) (dec wt : Str) (m : moduleResolver),
              (∀ rm, readMethod g.fd.GetType = some rm →
                g.writeDecoder wd dec wt m
                  = .ok (wd.emit
                      [("this.%s = new %s.%s(%s);".toList,
                        [.s oo.odp.name, .s oo.fqNamespace, .s g.varName,
                         .s (dec ++ ".".toList ++ rm ++ "()".toList)])], m)) ∧
              (g.isMessage = true → ∀ l, g.fd.label = some l → l ≠ LABEL_REPEATED →
                g.writeDecoder wd dec wt m
                  = .ok (wd.emit
                      [("\x7b".toList, []),
                       ("let msg = new %s();".toList, [.s g.typeTsName]),
                       ("msg.MergeFrom(%s.readDecoder());".toList, [.s dec]),
                       ("this.%s = new %s.%s(msg);".toList,
                         [.s oo.odp.name, .s oo.fqNamespace, .s g.varName]),
                       ("\x7d".toList, [])], m)))))
        fields0 fields ∧
      (∃ (w0 w1 : writer) (mC mD : moduleResolver) (post : Str),
        fields.foldlM
          (fun (st : writer × moduleResolver) f => do
            let (wf, mf) ← f.writeDecoder (st.1.p "case %d:".toList [.d f.fd.number])
              "d".toList "wt".toList st.2
            pure (wf.p "break;".toList [], mf))
          (w0.emit
            [("MergeFrom(d: %s.Internal.Decoder): void \x7b".toList, [.s exOneofLib.alias_]),
             ("while (!d.isEOF()) \x7b".toList, []),
             ("let [fn, wt] = d.readTag();".toList, []),
             ("switch(fn) \x7b".toList, [])], mC) = .ok (w1, mD) ∧
        exTwoOut.1.w = w1.w ++ post) ∧
      ∃ (wa wb : writer) (ma mb : moduleResolver) (post : Str),
        oneofs.foldlM
          (fun (st : writer × moduleResolver) oo => writeOneof st.1 oo exOneofLib (([] : List Str) ++ [exTwoMsg.name]) st.2)
          (wa, ma) = .ok (wb, mb) ∧
        exTwoOut.1.w = wb.w ++ post) ∧
    Contains exTwoOut.1.w
      ("        case 1:\n" ++
       "        this.first = new T.first.a(d.readVarInt32());\n" ++
       "        break;\n" ++
       "        case 2:\n" ++
       "        this.second = new T.second.b(d.readString());\n" ++
       "        break;\n" ++
       "        case 3:\n" ++
       "        \x7b\n" ++
       "          let msg = new Child();\n" ++
       "          msg.MergeFrom(d.readDecoder());\n" ++
       "          this.second = new T.second.c(msg);\n" ++
       "        \x7d\n" ++
       "        break;\n").toList = true ∧
    Contains exTwoOut.1.w
      ("export namespace T.first \x7b\n" ++
       "  export class a \x7b\n" ++
       "    static readonly kind = 1;\n" ++
       "    readonly kind = 1;\n" ++
       "    value: number;\n" ++
       "    constructor(v: number) \x7b\n" ++
       "      this.value = v;\n" ++
       "    \x7d\n" ++
       "  \x7d\n" ++
       "\n" ++
       "  export type oneof_type = __pb__.OneofNotSet | a;\n").toList = true ∧
    Contains exTwoOut.1.w
      ("export namespace T.second \x7b\n" ++
       "  export class b \x7b\n" ++
       "    static readonly kind = 2;\n" ++
       "    readonly kind = 2;\n" ++
       "    value: string;\n" ++
       "    constructor(v: string) \x7b\n" ++
       "      this.value = v;\n" ++
       "    \x7d\n" ++
       "  \x7d\n" ++
       "\n" ++
       "  export class c \x7b\n" ++
       "    static readonly kind = 3;\n" ++
       "    readonly kind = 3;\n" ++
       "    value: Child | null;\n" ++
       "    constructor(v: Child | null) \x7b\n" ++
       "      this.value = v;\n" ++
       "    \x7d\n" ++
       "  \x7d\n" ++
       "\n" ++
       "  export type oneof_type = __pb__.OneofNotSet | b | c;\n").toList = true :=
  have h : writeDescriptor exOneofStart exTwoNs exTwoResolver exOneofLib [] exTwoMsg = .ok exTwoOut := by rfl
  ⟨h,
    writeDescriptor_oneof_variants exOneofStart exTwoOut.1 exTwoNs exTwoResolver exTwoOut.2
      exOneofLib [] exTwoMsg h,
    by decide!, by decide!, by decide!⟩

end ProtocGenTs
